import Mathlib

/-!
# Verification of the lm-assistant-for-biocatalysis orchestration core

Shallow embedding of the agent orchestration core of the
`GT4SD/lm-assistant-for-biocatalysis` repository:

* `src/lmabc/utils/assistant_utils.py` — `CustomJSONAssistantOutputParser`
  (`_extract_clean_json`, `parse`) and `create_agent`;
* `src/lmabc/core.py` — the tool-registry build loop in
  `BiocatalysisAssistant.__init__`;
* `src/lmabc/tools/core.py` — `safe_tool_instantiation`.

Python strings are modelled as Lean `String`/`List Char`; `json.loads` and
`json.dumps(indent=2)` are modelled by an executable JSON decoder and
pretty-printer below, following Python's `json` module semantics
(strict mode: unescaped control characters rejected; `NaN`/`Infinity`
constants accepted; object duplicate keys resolved by in-place
replacement).  Non-integer number literals are kept as their raw text
(`Json.fracRaw`), so two literals denoting the same IEEE float stay
distinct in the model; no claim below depends on float identity.
Python strings admit lone surrogates which Lean `Char` cannot represent;
the decoder therefore rejects lone `\uD800-\uDFFF` escapes (a strictly
smaller domain, noted where relevant).  Exceptions that the source can
raise past a function boundary are modelled with `Except`.

All definitions are fuelled structural recursions so that every concrete
computation reduces inside the kernel.
-/

/-! ## Python-style character classes and stripping -/

/-- Python `str.strip()` / `re` `\s` whitespace, restricted to the
whitespace characters below `U+2000` (the source only ever strips model
output, and no claim involves the exotic Unicode space block). -/
def isPySpace (c : Char) : Bool :=
  (c == ' ' || c == '\r') || (c == '\n' || c == '\t') ||
  c.toNat == 11 || c.toNat == 12 ||
  (28 ≤ c.toNat && c.toNat ≤ 31) || c.toNat == 133 || c.toNat == 160

/-- Python `str.strip()` on a character list. -/
def pyStripL (l : List Char) : List Char :=
  ((l.dropWhile isPySpace).reverse.dropWhile isPySpace).reverse

/-! ## `re.sub(r"(?:```json\s*|\s*json\s*|\s*```\s*)", "", text)`

Python's `re.sub` scans left to right; at each position it tries the
three alternatives in order, each with greedy `\s*` (backtracking is
vacuous here because `json` and the backtick never begin with a
whitespace character, so the literal can only start at the end of the
maximal whitespace run).  A successful match is deleted and scanning
resumes after it; otherwise the character is kept and the scan advances
by one.  No alternative matches the empty string. -/

/-- One attempted match of the cleanup pattern at the head of `l`:
returns the remainder after the match, or `none`. -/
def tryMatch (l : List Char) : Option (List Char) :=
  if l.take 7 = "```json".data then
    some ((l.drop 7).dropWhile isPySpace)
  else
    let m := l.dropWhile isPySpace
    if m.take 4 = "json".data then
      some ((m.drop 4).dropWhile isPySpace)
    else if m.take 3 = "```".data then
      some ((m.drop 3).dropWhile isPySpace)
    else
      none

/-- Fuelled body of the `re.sub` scan. -/
def reSubAux : Nat → List Char → List Char
  | 0, l => l
  | _ + 1, [] => []
  | fuel + 1, c :: cs =>
    match tryMatch (c :: cs) with
    | some rest => reSubAux fuel rest
    | none => c :: reSubAux fuel cs

/-- `re.sub` of the cleanup pattern with the empty replacement. -/
def reSubL (l : List Char) : List Char :=
  reSubAux l.length l

/-- Fuelled body of Python `str.replace("```", "")`. -/
def replaceTicksAux : Nat → List Char → List Char
  | 0, l => l
  | _ + 1, [] => []
  | fuel + 1, c :: cs =>
    if (c :: cs).take 3 = "```".data then
      replaceTicksAux fuel ((c :: cs).drop 3)
    else
      c :: replaceTicksAux fuel cs

/-- Python `text.replace("```", "")`. -/
def replaceTicksL (l : List Char) : List Char :=
  replaceTicksAux l.length l

/-- `CustomJSONAssistantOutputParser._extract_clean_json`
(`assistant_utils.py` lines 48-63): strip, delete the code-fence
pattern, delete remaining triple backticks, strip again. -/
def extractCleanJson (text : String) : String :=
  ⟨pyStripL (replaceTicksL (reSubL (pyStripL text.data)))⟩

/-! ## The JSON value model (`json.loads` / `json.dumps`) -/

/-- Values produced by Python `json.loads`.  Integer literals become
`int` (Python ints are unbounded); number literals with a fraction or
exponent part, and the `NaN`/`Infinity` constants, are kept as their raw
literal text in `fracRaw`. -/
inductive Json where
  | null
  | bool (b : Bool)
  | int (n : Int)
  | fracRaw (s : String)
  | str (s : String)
  | arr (elems : List Json)
  | obj (fields : List (String × Json))

/-- JSON whitespace skipped by Python's decoder: space, tab, LF, CR. -/
def isJsonWs (c : Char) : Bool :=
  (c == ' ' || c == '\n') || (c == '\t' || c == '\r')

/-- Value of a hexadecimal digit, case-insensitive. -/
def hexDigitVal (c : Char) : Option Nat :=
  if c.isDigit then some (c.toNat - 48)
  else if 'a' ≤ c && c ≤ 'f' then some (c.toNat - 87)
  else if 'A' ≤ c && c ≤ 'F' then some (c.toNat - 55)
  else none

/-- Four hex digits, as in a `\uXXXX` escape. -/
def parseHex4 : List Char → Option (Nat × List Char)
  | a :: b :: c :: d :: rest =>
    match hexDigitVal a, hexDigitVal b, hexDigitVal c, hexDigitVal d with
    | some x, some y, some z, some w => some (x * 4096 + y * 256 + z * 16 + w, rest)
    | _, _, _, _ => none
  | _ => none

/-- After a high-surrogate `\uXXXX` escape: the required low-surrogate
escape, combined into one code point. -/
def decodeSurrogatePair (n : Nat) : List Char → Option (Char × List Char)
  | b :: u :: r3 =>
    if b = '\\' ∧ u = 'u' then
      match parseHex4 r3 with
      | none => none
      | some (m, r4) =>
        if 56320 ≤ m && m ≤ 57343 then
          some (Char.ofNat (65536 + (n - 55296) * 1024 + (m - 56320)), r4)
        else none
    else none
  | _ => none

/-- One escape sequence after a backslash, in Python's strict mode:
the decoded character and the remainder.  Surrogate-pair escapes are
combined; lone surrogate escapes are rejected (Python would produce a
lone-surrogate `str`, which Lean `Char` cannot represent). -/
def decodeEscape : List Char → Option (Char × List Char)
  | '"' :: r => some ('"', r)
  | '\\' :: r => some ('\\', r)
  | '/' :: r => some ('/', r)
  | 'b' :: r => some (Char.ofNat 8, r)
  | 'f' :: r => some (Char.ofNat 12, r)
  | 'n' :: r => some ('\n', r)
  | 'r' :: r => some ('\r', r)
  | 't' :: r => some ('\t', r)
  | 'u' :: r =>
    match parseHex4 r with
    | none => none
    | some (n, r2) =>
      if 55296 ≤ n && n ≤ 56319 then decodeSurrogatePair n r2
      else if 56320 ≤ n && n ≤ 57343 then none
      else some (Char.ofNat n, r2)
  | _ => none

/-- Body of a JSON string after the opening quote, in Python's strict
mode: unescaped control characters are rejected. -/
def parseStringBody : Nat → List Char → Option (List Char × List Char)
  | 0, _ => none
  | _ + 1, [] => none
  | fuel + 1, c :: cs =>
    if c = '"' then some ([], cs)
    else if c = '\\' then
      match decodeEscape cs with
      | some (ch, r) => (parseStringBody fuel r).map (fun p => (ch :: p.1, p.2))
      | none => none
    else if c.toNat < 32 then none
    else (parseStringBody fuel cs).map (fun p => (c :: p.1, p.2))

/-- Numeric value of a (non-empty) digit run. -/
def digitsToNat (l : List Char) : Nat :=
  l.foldl (fun acc c => acc * 10 + (c.toNat - 48)) 0

/-- The integer-part group `(?:0|[1-9]\d*)` of Python's `NUMBER_RE`,
with maximal munch: the consumed digits and the remainder. -/
def matchIntPart : List Char → Option (List Char × List Char)
  | c :: r =>
    if c = '0' then some (['0'], r)
    else if '1' ≤ c ∧ c ≤ '9' then
      some (c :: r.takeWhile Char.isDigit, r.dropWhile Char.isDigit)
    else none
  | [] => none

/-- The optional fraction group `(\.\d+)?`: its consumed text (possibly
empty) and the remainder. -/
def matchFracPart : List Char → List Char × List Char
  | c :: r =>
    if c = '.' then
      if r.takeWhile Char.isDigit = [] then ([], c :: r)
      else (c :: r.takeWhile Char.isDigit, r.dropWhile Char.isDigit)
    else ([], c :: r)
  | [] => ([], [])

/-- The optional exponent group `([eE][-+]?\d+)?`: its consumed text
(possibly empty) and the remainder. -/
def matchExpPart : List Char → List Char × List Char
  | e :: r =>
    if e = 'e' ∨ e = 'E' then
      match r with
      | s :: r2 =>
        if s = '+' ∨ s = '-' then
          if r2.takeWhile Char.isDigit = [] then ([], e :: s :: r2)
          else (e :: s :: r2.takeWhile Char.isDigit, r2.dropWhile Char.isDigit)
        else if r.takeWhile Char.isDigit = [] then ([], e :: r)
        else (e :: r.takeWhile Char.isDigit, r.dropWhile Char.isDigit)
      | [] => ([], [e])
    else ([], e :: r)
  | [] => ([], [])

/-- The optional sign group `-?`. -/
def numSign : List Char → List Char
  | c :: _ => if c = '-' then ['-'] else []
  | [] => []

/-- Python's `NUMBER_RE`: `(-?(?:0|[1-9]\d*))(\.\d+)?([eE][-+]?\d+)?`,
with maximal munch.  An integer-only match yields `Json.int`; a match
with a fraction or exponent part keeps its raw text in `Json.fracRaw`.
Returns `none` exactly when the regex does not match at the head. -/
def parseNumber (l : List Char) : Option (Json × List Char) :=
  let sign : List Char := numSign l
  match matchIntPart (l.drop sign.length) with
  | none => none
  | some (ip, r2) =>
    let fp := matchFracPart r2
    let ep := matchExpPart fp.2
    if fp.1 = [] ∧ ep.1 = [] then
      some (.int (if sign = [] then (digitsToNat ip : Int) else -(digitsToNat ip : Int)), r2)
    else
      some (.fracRaw ⟨sign ++ ip ++ fp.1 ++ ep.1⟩, ep.2)

/-- Replacement-in-place insertion, the effect of `dict(pairs)` /
`d[k] = v` on a Python dict: a duplicate key keeps its original position
and takes the latest value. -/
def dictInsert : List (String × Json) → String → Json → List (String × Json)
  | [], k, v => [(k, v)]
  | (k', v') :: rest, k, v =>
    if k' = k then (k', v) :: rest else (k', v') :: dictInsert rest k v

/-- `dict(pairs)` on the ordered pair list collected by the decoder. -/
def dictOfPairs (ps : List (String × Json)) : List (String × Json) :=
  ps.foldl (fun acc p => dictInsert acc p.1 p.2) []

/-- Python `dict.get(k)`. -/
def objGet : List (String × Json) → String → Option Json
  | [], _ => none
  | (k', v) :: rest, k => if k' = k then some v else objGet rest k

mutual

/-- Python json `_scan_once` at a position with whitespace already
consumed by the enclosing container (the top level and the containers do
the skipping, as in CPython). -/
def parseValue : Nat → List Char → Option (Json × List Char)
  | 0, _ => none
  | fuel + 1, l =>
    match l with
    | '"' :: rest =>
      (parseStringBody (rest.length + 1) rest).map (fun p => (.str ⟨p.1⟩, p.2))
    | '\x7b' :: rest => (parseMembers fuel (rest.dropWhile isJsonWs) true).map
        (fun p => (.obj (dictOfPairs p.1), p.2))
    | '[' :: rest => (parseElems fuel (rest.dropWhile isJsonWs) true).map
        (fun p => (.arr p.1, p.2))
    | _ =>
      if l.take 4 = "null".data then some (.null, l.drop 4)
      else if l.take 4 = "true".data then some (.bool true, l.drop 4)
      else if l.take 5 = "false".data then some (.bool false, l.drop 5)
      else if l.take 3 = "NaN".data then some (.fracRaw "NaN", l.drop 3)
      else if l.take 8 = "Infinity".data then some (.fracRaw "Infinity", l.drop 8)
      else if l.take 9 = "-Infinity".data then some (.fracRaw "-Infinity", l.drop 9)
      else parseNumber l

/-- The element loop of `JSONArray`; `first` is true before any element
has been read (only then may `]` close immediately). -/
def parseElems : Nat → List Char → Bool → Option (List Json × List Char)
  | 0, _, _ => none
  | fuel + 1, l, first =>
    if l.head? = some ']' ∧ first = true then some ([], l.tail)
    else
      match parseValue fuel l with
      | none => none
      | some (v, r) =>
        match r.dropWhile isJsonWs with
        | ']' :: r2 => some ([v], r2)
        | ',' :: r2 =>
          (parseElems fuel (r2.dropWhile isJsonWs) false).map (fun p => (v :: p.1, p.2))
        | _ => none

/-- The member loop of `JSONObject`, collecting the ordered pair list. -/
def parseMembers : Nat → List Char → Bool → Option (List (String × Json) × List Char)
  | 0, _, _ => none
  | fuel + 1, l, first =>
    if l.head? = some '\x7d' ∧ first = true then some ([], l.tail)
    else
      match l with
      | '"' :: r =>
        match parseStringBody (r.length + 1) r with
        | none => none
        | some (ks, r1) =>
          match r1.dropWhile isJsonWs with
          | ':' :: r2 =>
            match parseValue fuel (r2.dropWhile isJsonWs) with
            | none => none
            | some (v, r3) =>
              match r3.dropWhile isJsonWs with
              | '\x7d' :: r4 => some ([(⟨ks⟩, v)], r4)
              | ',' :: r4 =>
                (parseMembers fuel (r4.dropWhile isJsonWs) false).map
                  (fun p => ((⟨ks⟩, v) :: p.1, p.2))
              | _ => none
          | _ => none
      | _ => none

end

/-- Python `json.loads`: decode one value surrounded by optional
whitespace; any other trailing text raises `JSONDecodeError`
("Extra data"), i.e. yields `none`. -/
def jsonLoads (s : String) : Option Json :=
  match parseValue (s.length + 1) (s.data.dropWhile isJsonWs) with
  | some (v, rest) => if rest.dropWhile isJsonWs = [] then some v else none
  | none => none

/-! ## `json.dumps(v, indent=2)` and Python `str()` on decoded values -/

/-- Decimal digit character. -/
def digitChar (n : Nat) : Char := Char.ofNat (48 + n)

/-- Fuelled decimal printer for `Nat`. -/
def natToCharsAux : Nat → Nat → List Char
  | 0, _ => []
  | fuel + 1, n =>
    if n < 10 then [digitChar n]
    else natToCharsAux fuel (n / 10) ++ [digitChar (n % 10)]

/-- Decimal representation of a `Nat` (no leading zeros). -/
def natToChars (n : Nat) : List Char := natToCharsAux (n + 1) n

/-- Python `repr` of an int. -/
def intToChars : Int → List Char
  | .ofNat n => natToChars n
  | .negSucc n => '-' :: natToChars (n + 1)

/-- Lowercase hexadecimal digit. -/
def hexChar (n : Nat) : Char :=
  if n < 10 then Char.ofNat (48 + n) else Char.ofNat (87 + n)

/-- Four lowercase hex digits, as Python's `\u%04x`. -/
def hex4 (n : Nat) : List Char :=
  [hexChar (n / 4096 % 16), hexChar (n / 256 % 16), hexChar (n / 16 % 16), hexChar (n % 16)]

/-- `json.dumps` escaping of one character with `ensure_ascii=True`:
quote and backslash, named control escapes, `\uXXXX` for other controls
and for every non-ASCII character (surrogate pairs beyond the BMP). -/
def escapeChar (c : Char) : List Char :=
  if c = '"' then ['\\', '"']
  else if c = '\\' then ['\\', '\\']
  else if c = '\n' then ['\\', 'n']
  else if c = '\r' then ['\\', 'r']
  else if c = '\t' then ['\\', 't']
  else if c.toNat = 8 then ['\\', 'b']
  else if c.toNat = 12 then ['\\', 'f']
  else if c.toNat < 32 then '\\' :: 'u' :: hex4 c.toNat
  else if c.toNat ≤ 126 then [c]
  else if c.toNat < 65536 then '\\' :: 'u' :: hex4 c.toNat
  else
    '\\' :: 'u' :: hex4 (55296 + (c.toNat - 65536) / 1024) ++
      '\\' :: 'u' :: hex4 (56320 + (c.toNat - 65536) % 1024)

/-- `json.dumps` escaping of a string body. -/
def escapeChars : List Char → List Char
  | [] => []
  | c :: cs => escapeChar c ++ escapeChars cs

/-- A quoted, escaped JSON string literal. -/
def encodeString (s : String) : List Char :=
  '"' :: escapeChars s.data ++ ['"']

/-- `n` spaces of indentation. -/
def spaces : Nat → List Char
  | 0 => []
  | n + 1 => ' ' :: spaces n

mutual

/-- `json.dumps(v, indent=2)` at a given indentation level: item
separator `","` + newline + indent, key separator `": "`, empty
containers printed inline. -/
def dumpsVal : Nat → Json → List Char
  | _, .null => "null".data
  | _, .bool true => "true".data
  | _, .bool false => "false".data
  | _, .int n => intToChars n
  | _, .fracRaw s => s.data
  | _, .str s => encodeString s
  | _, .arr [] => "[]".data
  | lvl, .arr (x :: xs) =>
    '[' :: '\n' :: spaces (lvl + 2) ++ dumpsVal (lvl + 2) x ++ dumpsItemsRest (lvl + 2) xs ++
      '\n' :: spaces lvl ++ [']']
  | _, .obj [] => "\x7b\x7d".data
  | lvl, .obj ((k, v) :: kvs) =>
    '\x7b' :: '\n' :: spaces (lvl + 2) ++ encodeString k ++ ':' :: ' ' :: dumpsVal (lvl + 2) v ++
      dumpsPairsRest (lvl + 2) kvs ++ '\n' :: spaces lvl ++ ['\x7d']

/-- Remaining array items, each preceded by `",\n" ++ indent`. -/
def dumpsItemsRest : Nat → List Json → List Char
  | _, [] => []
  | lvl, x :: xs => ',' :: '\n' :: spaces lvl ++ dumpsVal lvl x ++ dumpsItemsRest lvl xs

/-- Remaining object members, each preceded by `",\n" ++ indent`. -/
def dumpsPairsRest : Nat → List (String × Json) → List Char
  | _, [] => []
  | lvl, (k, v) :: kvs =>
    ',' :: '\n' :: spaces lvl ++ encodeString k ++ ':' :: ' ' :: dumpsVal lvl v ++
      dumpsPairsRest lvl kvs

end

/-- `json.dumps(action_input, indent=2)` as called in `parse`. -/
def jsonDumps (v : Json) : String := ⟨dumpsVal 0 v⟩

/-- Python `repr` escaping of one character inside a string repr with
quote character `q`.  Non-printable ASCII becomes `\xHH`; other
characters are kept (CPython also escapes non-printable non-ASCII
characters, which no claim here exercises). -/
def pyReprChar (q : Char) (c : Char) : List Char :=
  if c = '\\' then ['\\', '\\']
  else if c = q then ['\\', q]
  else if c = '\n' then ['\\', 'n']
  else if c = '\r' then ['\\', 'r']
  else if c = '\t' then ['\\', 't']
  else if c.toNat < 32 ∨ c.toNat = 127 then '\\' :: 'x' :: [hexChar (c.toNat / 16 % 16), hexChar (c.toNat % 16)]
  else [c]

/-- Body of a Python string repr. -/
def pyReprBody (q : Char) : List Char → List Char
  | [] => []
  | c :: cs => pyReprChar q c ++ pyReprBody q cs

/-- Python `repr` of a `str`: single quotes, unless the string contains
a single quote and no double quote. -/
def pyReprStr (s : String) : List Char :=
  let q : Char := if s.data.contains '\'' && !(s.data.contains '"') then '"' else '\''
  q :: pyReprBody q s.data ++ [q]

mutual

/-- Python `repr` of a `json.loads` result (`fracRaw` keeps the raw
literal where CPython would show `repr(float(...))`). -/
def pyReprV : Json → List Char
  | .null => "None".data
  | .bool true => "True".data
  | .bool false => "False".data
  | .int n => intToChars n
  | .fracRaw s => s.data
  | .str s => pyReprStr s
  | .arr [] => "[]".data
  | .arr (x :: xs) => '[' :: pyReprV x ++ pyReprItems xs ++ [']']
  | .obj [] => "\x7b\x7d".data
  | .obj ((k, v) :: kvs) =>
    '\x7b' :: pyReprStr k ++ ':' :: ' ' :: pyReprV v ++ pyReprPairs kvs ++ ['\x7d']

/-- Remaining list items of a Python repr, `", "`-separated. -/
def pyReprItems : List Json → List Char
  | [] => []
  | x :: xs => ',' :: ' ' :: pyReprV x ++ pyReprItems xs

/-- Remaining dict members of a Python repr, `", "`-separated. -/
def pyReprPairs : List (String × Json) → List Char
  | [] => []
  | (k, v) :: kvs => ',' :: ' ' :: pyReprStr k ++ ':' :: ' ' :: pyReprV v ++ pyReprPairs kvs

end

/-- Python `str()` on a `json.loads` result: the identity on strings,
`repr` otherwise. -/
def pyStr : Json → String
  | .str s => s
  | v => ⟨pyReprV v⟩

/-! ## `CustomJSONAssistantOutputParser.parse` -/

/-- An exception propagating out of `parse`. -/
inductive PyErr where
  | attributeError

/-- The langchain step value `parse` returns: `AgentAction(tool,
tool_input, log)` or `AgentFinish({"output": ...}, log)`. -/
inductive AgentStep where
  | action (tool : String) (toolInput : Json) (log : String)
  | finish (output : String) (log : String)

/-- `parsed.get("action") == "Final Answer" or parsed.get("action") ==
"response"` (Python `==` between a decoded value and a `str` is `False`
unless the value is that string). -/
def isFinalMarker : Option Json → Bool
  | some (.str s) => s == "Final Answer" || s == "response"
  | _ => false

/-- `isinstance(action_input, (dict, list))`. -/
def structured : Json → Bool
  | .obj _ => true
  | .arr _ => true
  | _ => false

/-- The `AgentFinish` output for the Final Answer branch:
`json.dumps(action_input, indent=2)` for a dict or list, `str(action_input)`
otherwise (`str(None)` = `"None"` when the key is absent). -/
def finalOutput : Option Json → String
  | none => "None"
  | some v => if structured v then jsonDumps v else pyStr v

/-- `CustomJSONAssistantOutputParser.parse` (`assistant_utils.py` lines
65-96).  Only `json.JSONDecodeError` is caught (yielding the fail-open
`AgentFinish` carrying the raw input); a successfully decoded non-dict
hits `parsed.get` and raises `AttributeError`, modelled as `.error`. -/
def parse (text : String) : Except PyErr AgentStep :=
  match jsonLoads (extractCleanJson text) with
  | none => .ok (.finish text text)
  | some (.obj kvs) =>
    if isFinalMarker (objGet kvs "action") then
      .ok (.finish (finalOutput (objGet kvs "action_input")) text)
    else
      .ok (.action (pyStr ((objGet kvs "action").getD (.str "")))
        ((objGet kvs "action_input").getD (.str "")) text)
  | some _ => .error .attributeError

/-! ## The tool registry (`BiocatalysisAssistant.__init__`,
`core.py` lines 76-133, and `safe_tool_instantiation`,
`tools/core.py` lines 37-54)

A tool's `check_requirements` and its constructor inspect the
filesystem and environment; their outcomes are modelled as an
environment `ToolEnv` mapping a tool name to the result of each call
(with a raised exception modelled as a Boolean flag, since every raise
site in the source is wrapped in `try`/`except`). A constructed tool
instance is observable only through its name here. -/

/-- The keys of `TOOL_FACTORY` (`core.py` lines 59-68), in declaration
order. -/
def TOOL_FACTORY_NAMES : List String :=
  ["ExtractBindingSites", "GetElementsOfReaction", "Blastp",
   "OptimizeEnzymeSequences", "FindPDBStructure", "DownloadPDBStructure",
   "Mutagenesis", "MDSimulation"]

/-- Outcomes of the requirement check and the constructor of each tool
class, as determined by the machine the assistant runs on. -/
structure ToolEnv where
  checkRaises : String → Bool
  checkRequirements : String → Bool
  ctorRaises : String → Bool

/-- `BiocatalysisAssistantBaseTool.safe_tool_instantiation`
(`tools/core.py` lines 37-54): the requirement check gates
construction; any exception from either is caught and yields `None`. -/
def safeToolInstantiation (env : ToolEnv) (name : String) : Option String :=
  if env.checkRaises name then none
  else if env.checkRequirements name then
    if env.ctorRaises name then none else some name
  else none

/-- The loop state of `__init__`: `self.tool_list`, `successful_tools`,
`failed_tools` (the latter two are local lists used only for logging). -/
structure BuildResult where
  toolList : List String
  successful : List String
  failed : List String

/-- One iteration of the `for tool_name in tool_names` loop
(`core.py` lines 103-128): an unknown name raises `ValueError`, caught
by the surrounding `except Exception`; a `None` instantiation is
recorded as failed; a successful instance is appended. -/
def buildStep (env : ToolEnv) (acc : BuildResult) (name : String) : BuildResult :=
  if TOOL_FACTORY_NAMES.contains name then
    match safeToolInstantiation env name with
    | some t =>
      { toolList := acc.toolList ++ [t], successful := acc.successful ++ [name],
        failed := acc.failed }
    | none => { acc with failed := acc.failed ++ [name] }
  else
    { acc with failed := acc.failed ++ [name] }

/-- The whole registry build loop over the requested names. -/
def buildTools (env : ToolEnv) (names : List String) : BuildResult :=
  names.foldl (buildStep env) ⟨[], [], []⟩

/-- The assistant state retained after `__init__`: only the active tool
list survives (besides the configuration); `successful_tools` and
`failed_tools` are logged and discarded. -/
structure BiocatalysisAssistant where
  toolList : List String
  model : String
  provider : String
  useMemory : Bool

/-- `BiocatalysisAssistant.__init__` with the defaults of `core.py`
lines 76-91; `tool_names = None` selects the whole factory. -/
def mkBiocatalysisAssistant (env : ToolEnv) (toolNames : Option (List String))
    (model : String := "HuggingFaceH4/zephyr-7b-beta")
    (provider : String := "huggingface") (useMemory : Bool := true) :
    BiocatalysisAssistant :=
  { toolList := (buildTools env (toolNames.getD TOOL_FACTORY_NAMES)).toolList,
    model := model, provider := provider, useMemory := useMemory }

/-- `BiocatalysisAssistant.get_available_tools` (`core.py` 135-137). -/
def getAvailableTools (a : BiocatalysisAssistant) : List String := a.toolList

/-- The condition under which a requested name ends up active. -/
def toolLoads (env : ToolEnv) (name : String) : Bool :=
  TOOL_FACTORY_NAMES.contains name && !env.checkRaises name &&
    env.checkRequirements name && !env.ctorRaises name

/-! ## The agent loop and memory

`create_agent` (`assistant_utils.py` lines 99-226) returns a langchain
`AgentExecutor`; the executor's think/act/observe loop itself is
library code, not part of this repository.  The configuration the
source passes to it (line 226) is embedded below; the loop and the
memory store are modelled from the spec. -/

/-- The keyword arguments `create_agent` passes to `AgentExecutor`
(`assistant_utils.py` line 226). -/
structure AgentExecutorConfig where
  handleParsingErrors : Bool
  verbose : Bool
  maxIterations : Nat

/-- The configuration constructed by `create_agent`. -/
def createAgentConfig : AgentExecutorConfig :=
  { handleParsingErrors := true, verbose := true, maxIterations := 5 }

/-- Modelled from the spec: the `Action` variant produced by the
ActionParser as the AgentLoop consumes it (§3, §4.3). -/
inductive SpecAction where
  | toolCall (name : String) (input : String)
  | finalAnswer (text : String)
  | malformed (raw : String)

/-- Modelled from the spec: the forced best-effort answer at the
iteration cap (§4.4 "force-stops and synthesizes a best-effort final
answer ... rather than raising"; langchain's `early_stopping_method =
"force"` text). -/
def forcedStopText : String := "Agent stopped due to iteration limit or time limit."

/-- Modelled from the spec: the terminal text when a `ToolCall` names a
tool absent from the active set (§4.4). -/
def toolNotFoundText (name : String) : String := "Tool not found: " ++ name

/-- Modelled from the spec: the AgentLoop state machine of §4.4, which
in the source is langchain's `AgentExecutor` (absent from `src/`).  The
model is a function of the scratchpad to the next parsed action; the
tool runner maps (tool, input) to the observation; `remaining` counts
iterations left out of `max_iterations`.  Returns the final text and
the number of completed think/act/observe cycles. -/
def agentLoop (model : List (String × String) → SpecAction)
    (runTool : String → String → String) (activeTools : List String) :
    Nat → List (String × String) → Nat → String × Nat
  | 0, _, iter => (forcedStopText, iter)
  | remaining + 1, scratchpad, iter =>
    match model scratchpad with
    | .finalAnswer t => (t, iter)
    | .malformed raw => (raw, iter)
    | .toolCall name input =>
      if activeTools.contains name then
        agentLoop model runTool activeTools remaining
          (scratchpad ++ [(name, runTool name input)]) (iter + 1)
      else (toolNotFoundText name, iter)

/-- Modelled from the spec: one user turn of the AgentLoop, run with
the iteration cap `create_agent` configures. -/
def runAgentTurn (model : List (String × String) → SpecAction)
    (runTool : String → String → String) (activeTools : List String)
    (maxIterations : Nat := createAgentConfig.maxIterations) : String × Nat :=
  agentLoop model runTool activeTools maxIterations [] 0

/-- A memory turn (spec §3). -/
structure Turn where
  role : String
  content : String

/-- Modelled from the spec: the MemoryStore of §4.5 (in the source this
is langchain's `ConversationBufferMemory`, absent from `src/`); the
`enabled` flag mirrors `use_memory`. -/
structure MemoryStore where
  enabled : Bool
  turns : List Turn

/-- Modelled from the spec: `append(turn)` — a no-op when disabled. -/
def MemoryStore.append (m : MemoryStore) (t : Turn) : MemoryStore :=
  if m.enabled then { m with turns := m.turns ++ [t] } else m

/-- Modelled from the spec: `snapshot()` — always empty when disabled. -/
def MemoryStore.snapshot (m : MemoryStore) : List Turn :=
  if m.enabled then m.turns else []

/-- The disabled store (`use_memory = False`). -/
def disabledMemory : MemoryStore := { enabled := false, turns := [] }

/-- `create_agent` lines 195-199: `memory` is a fresh buffer when
`use_memory` else `None`. -/
def createAgentMemory (useMemory : Bool) : Option (List String) :=
  if useMemory then some [] else none

/-- The `chat_history` lambda of `create_agent` lines 215-219: the
buffered messages only when `use_memory` and `memory is not None`,
otherwise `[]`. -/
def chatHistory (useMemory : Bool) (memory : Option (List String)) : List String :=
  match useMemory, memory with
  | true, some msgs => msgs
  | _, _ => []

/-! ## Well-formedness of decoded values, and fuel measures -/

/-- `true` iff the first character of `l` (if any) fails `p`. -/
def headFails (p : Char → Bool) : List Char → Bool
  | [] => true
  | c :: _ => !p c

/-- A character that may continue a number literal: after a complete
number match, the following character must fail this test for the match
to be unaffected by what follows. -/
def numContinuing (c : Char) : Bool :=
  c.isDigit || c == '.' || c == 'e' || c == 'E'

/-- `l` is exactly one match of `NUMBER_RE` with a fraction or exponent
part present (the raw texts `parseNumber` stores in `fracRaw`). -/
def numFracCheck (l : List Char) : Bool :=
  let sign : List Char := numSign l
  match matchIntPart (l.drop sign.length) with
  | none => false
  | some (_, r2) =>
    let fp := matchFracPart r2
    let ep := matchExpPart fp.2
    (!fp.1.isEmpty || !ep.1.isEmpty) && ep.2.isEmpty

/-- The strings `parseNumber`/`parseValue` can store in `fracRaw`. -/
def fracLitOk (s : String) : Bool :=
  s == "NaN" || s == "Infinity" || s == "-Infinity" || numFracCheck s.data

/-- Pairwise-distinct keys, the invariant of a decoded Python dict. -/
def keysUniq : List (String × Json) → Bool
  | [] => true
  | (k, _) :: rest => !(rest.any (fun p => p.1 == k)) && keysUniq rest

mutual

/-- Values in the range of the decoder: `fracRaw` holds a number
literal or constant, object keys are pairwise distinct. -/
def wfV : Json → Bool
  | .null => true
  | .bool _ => true
  | .int _ => true
  | .str _ => true
  | .fracRaw s => fracLitOk s
  | .arr xs => wfElems xs
  | .obj kvs => keysUniq kvs && wfMembers kvs

/-- All elements well-formed. -/
def wfElems : List Json → Bool
  | [] => true
  | x :: xs => wfV x && wfElems xs

/-- All member values well-formed. -/
def wfMembers : List (String × Json) → Bool
  | [] => true
  | (_, v) :: kvs => wfV v && wfMembers kvs

end

mutual

/-- Decoder fuel sufficient for a value (one unit per `parseValue` /
`parseElems` / `parseMembers` call). -/
def fuelV : Json → Nat
  | .arr xs => fuelElems xs + 1
  | .obj kvs => fuelMembers kvs + 1
  | _ => 1

/-- Fuel sufficient for an element list. -/
def fuelElems : List Json → Nat
  | [] => 1
  | x :: xs => fuelV x + fuelElems xs + 1

/-- Fuel sufficient for a member list. -/
def fuelMembers : List (String × Json) → Nat
  | [] => 1
  | (_, v) :: kvs => fuelV v + fuelMembers kvs + 1

end

/-! ## Definitions used by individual claims -/

/-- A character the cleanup regex can include in a match: pattern
whitespace, the backtick, or a letter of `json`.  A braced JSON object
text starts `\x7b` and ends `\x7d`, both outside this set, which pins
the `re.sub` scan at the wrapper/object boundaries. -/
def reMatchable (c : Char) : Bool :=
  isPySpace c || c == '`' || c == 'j' || c == 's' || c == 'o' || c == 'n'

/-- The spec-level content of a parse result (`Action` of spec §3):
the tool call or final text, without the langchain `log` bookkeeping;
`none` for a raised exception. -/
inductive ActionView where
  | toolCall (name : String) (input : Json)
  | finalAnswer (text : String)

/-- Project a `parse` result to its spec-level `Action` content. -/
def actionView : Except PyErr AgentStep → Option ActionView
  | .ok (.action t i _) => some (.toolCall t i)
  | .ok (.finish o _) => some (.finalAnswer o)
  | .error _ => none

/-- An environment in which every requirement check fails. -/
def envReqFail : ToolEnv :=
  { checkRaises := fun _ => false, checkRequirements := fun _ => false,
    ctorRaises := fun _ => false }

/-- An environment in which requirement checks pass but every
constructor raises. -/
def envCtorFail : ToolEnv :=
  { checkRaises := fun _ => false, checkRequirements := fun _ => true,
    ctorRaises := fun _ => true }

/-- An environment in which every tool loads. -/
def envAllOk : ToolEnv :=
  { checkRaises := fun _ => false, checkRequirements := fun _ => true,
    ctorRaises := fun _ => false }

/-- A model response containing two JSON action blobs in sequence
(claim C2). -/
def multiBlobText : String :=
  "\x7b\"action\": \"A\", \"action_input\": \"x\"\x7d \x7b\"action\": \"B\", \"action_input\": \"y\"\x7d"

/-- The decomposition of a fractional/exponent number literal into
sign, integer part, fraction part, and exponent part, as matched by
`NUMBER_RE`. -/
def NumParts (sign ip fp ep : List Char) : Prop :=
  (sign = [] ∨ sign = ['-']) ∧
  (ip = ['0'] ∨ ∃ c ds, ip = c :: ds ∧ '1' ≤ c ∧ c ≤ '9' ∧ ds.all Char.isDigit = true) ∧
  (fp = [] ∨ ∃ ds, fp = '.' :: ds ∧ ds ≠ [] ∧ ds.all Char.isDigit = true) ∧
  (ep = [] ∨ ∃ e sgn ds, ep = e :: (sgn ++ ds) ∧ (e = 'e' ∨ e = 'E') ∧
    (sgn = [] ∨ sgn = ['+'] ∨ sgn = ['-']) ∧ ds ≠ [] ∧ ds.all Char.isDigit = true) ∧
  (fp ≠ [] ∨ ep ≠ [])

/-- Wrapper text around an action object (claim C6): any combination of
code-fence markers (```), `json` language tags (so ```json is a fence
marker followed by a tag), and whitespace. -/
inductive FenceWrap : List Char → Prop where
  | nil : FenceWrap []
  | ws (c : Char) (l : List Char) : isPySpace c = true → FenceWrap l →
      FenceWrap (c :: l)
  | fence (l : List Char) : FenceWrap l → FenceWrap ("```".data ++ l)
  | jsonTag (l : List Char) : FenceWrap l → FenceWrap ("json".data ++ l)

/-! ## Registry lemmas and claims -/

theorem buildStep_eq (env : ToolEnv) (acc : BuildResult) (n : String) :
    buildStep env acc n =
      if toolLoads env n then
        ⟨acc.toolList ++ [n], acc.successful ++ [n], acc.failed⟩
      else ⟨acc.toolList, acc.successful, acc.failed ++ [n]⟩ := by
  unfold buildStep safeToolInstantiation toolLoads
  by_cases h1 : TOOL_FACTORY_NAMES.contains n <;>
    by_cases h2 : env.checkRaises n <;>
      by_cases h3 : env.checkRequirements n <;>
        by_cases h4 : env.ctorRaises n <;>
          simp [h1, h2, h3, h4]

theorem buildTools_go (env : ToolEnv) (names : List String) (acc : BuildResult) :
    names.foldl (buildStep env) acc =
      ⟨acc.toolList ++ names.filter (toolLoads env),
       acc.successful ++ names.filter (toolLoads env),
       acc.failed ++ names.filter (fun n => !toolLoads env n)⟩ := by
  induction names generalizing acc with
  | nil => simp
  | cons n ns ih =>
    rw [List.foldl_cons, ih, buildStep_eq]
    by_cases h : toolLoads env n <;> simp [h]

theorem buildTools_eq (env : ToolEnv) (names : List String) :
    buildTools env names =
      ⟨names.filter (toolLoads env), names.filter (toolLoads env),
       names.filter (fun n => !toolLoads env n)⟩ := by
  unfold buildTools
  rw [buildTools_go]
  simp

/-- **C5** (confirmed): the active tool list after registry build is
exactly the requested names that are known to the factory, pass their
requirement check, and construct without raising — kept in request
order (`filter` preserves order); a tool whose requirement check failed
is never in the list; the session exposes that fixed list unchanged via
`get_available_tools` (no retry path exists). -/
theorem claim5_active_tools (env : ToolEnv) (names : List String) :
    (buildTools env names).toolList = names.filter (toolLoads env) ∧
    getAvailableTools (mkBiocatalysisAssistant env (some names)) =
      names.filter (toolLoads env) ∧
    ∀ n, env.checkRequirements n = false → n ∉ (buildTools env names).toolList := by
  refine ⟨by rw [buildTools_eq], by simp [getAvailableTools, mkBiocatalysisAssistant, buildTools_eq], ?_⟩
  intro n h hn
  rw [buildTools_eq] at hn
  have := List.of_mem_filter hn
  simp [toolLoads, h] at this

/-- **C4** (confirmed): registry build is total — every raise site of
the loop body is caught and recorded (modelled as data in `ToolEnv`),
the build of a concatenation is the concatenation of the builds (so one
tool's failure never aborts processing of the rest, even when zero
tools load), and every requested name is recorded as successful or
failed. -/
theorem claim4_build_never_aborts (env : ToolEnv) (xs ys names : List String) :
    buildTools env (xs ++ ys) =
      ⟨(buildTools env xs).toolList ++ (buildTools env ys).toolList,
       (buildTools env xs).successful ++ (buildTools env ys).successful,
       (buildTools env xs).failed ++ (buildTools env ys).failed⟩ ∧
    (buildTools env names).failed = names.filter (fun n => !toolLoads env n) ∧
    ∀ n ∈ names, n ∈ (buildTools env names).successful ∨
      n ∈ (buildTools env names).failed := by
  refine ⟨by simp [buildTools_eq], by rw [buildTools_eq], ?_⟩
  intro n hn
  rw [buildTools_eq]
  by_cases h : toolLoads env n
  · exact Or.inl (List.mem_filter.mpr ⟨hn, h⟩)
  · exact Or.inr (List.mem_filter.mpr ⟨hn, by simp [h]⟩)

/-- **C3** (counterexample): the source records failures as a bare list
of names (a local, logged-only value), not a name-to-reason mapping: a
requirements failure and a construction error on the same tool produce
identical build results, so no failure reason is recoverable from the
build outcome, and the scenario's failures value is the list
`["Unknown"]`, not `{"Unknown": "UnknownTool"}`. -/
theorem claim3_counterexample :
    buildTools envReqFail ["Blastp"] = buildTools envCtorFail ["Blastp"] ∧
    (buildTools envReqFail ["Blastp"]).failed = ["Blastp"] ∧
    (buildTools envReqFail ["Blastp"]).toolList = [] :=
  ⟨rfl, rfl, rfl⟩

/-- **C3** (amended): the build loop records, besides the active tool
list, an ordered list of the failed requested names (with no reasons
attached, used only for logging and discarded); it is empty exactly on
full success.  On `["ExtractBindingSites", "Unknown"]` with
`ExtractBindingSites` loading, the active list is
`["ExtractBindingSites"]` and the failed list is `["Unknown"]`. -/
theorem claim3_amended (env : ToolEnv)
    (h : toolLoads env "ExtractBindingSites" = true) :
    buildTools env ["ExtractBindingSites", "Unknown"] =
      ⟨["ExtractBindingSites"], ["ExtractBindingSites"], ["Unknown"]⟩ ∧
    ∀ names : List String, (∀ n ∈ names, toolLoads env n = true) →
      (buildTools env names).failed = [] := by
  constructor
  · rw [buildTools_eq]
    have hu : toolLoads env "Unknown" = false := rfl
    simp [h, hu]
  · intro names hall
    rw [buildTools_eq]
    simp only [List.filter_eq_nil_iff]
    intro n hn
    simp [hall n hn]

theorem claim3_witness :
    toolLoads envAllOk "ExtractBindingSites" = true ∧
    buildTools envAllOk ["ExtractBindingSites", "Unknown"] =
      ⟨["ExtractBindingSites"], ["ExtractBindingSites"], ["Unknown"]⟩ :=
  ⟨rfl, (claim3_amended envAllOk rfl).1⟩

/-! ## Agent loop and memory claims -/

theorem agentLoop_iter_le (model : List (String × String) → SpecAction)
    (runTool : String → String → String) (tools : List String) :
    ∀ rem sp iter, (agentLoop model runTool tools rem sp iter).2 ≤ iter + rem := by
  intro rem
  induction rem with
  | zero => intro sp iter; simp [agentLoop]
  | succ r ih =>
    intro sp iter
    cases hm : model sp with
    | finalAnswer t => simp [agentLoop, hm]
    | malformed raw => simp [agentLoop, hm]
    | toolCall name input =>
      by_cases hc : tools.contains name = true
      · simp only [agentLoop, hm, hc, if_true]
        have := ih (sp ++ [(name, runTool name input)]) (iter + 1)
        omega
      · simp only [agentLoop, hm, hc, if_false, Bool.false_eq_true]
        simp

theorem agentLoop_forced (model : List (String × String) → SpecAction)
    (runTool : String → String → String) (tools : List String)
    (h : ∀ sp, ∃ name input, model sp = .toolCall name input ∧
      tools.contains name = true) :
    ∀ rem sp iter, agentLoop model runTool tools rem sp iter =
      (forcedStopText, iter + rem) := by
  intro rem
  induction rem with
  | zero => intro sp iter; simp [agentLoop]
  | succ r ih =>
    intro sp iter
    obtain ⟨name, input, hm, hc⟩ := h sp
    simp only [agentLoop, hm, hc, if_true, ih]
    congr 1
    omega

/-- **C8** (confirmed; spec-modelled: the think/act/observe loop is
langchain's `AgentExecutor`, absent from `src/`, modelled from spec
§4.4; the iteration cap is the `max_iterations=5` that `create_agent`
passes on line 226): every run completes at most `max_iterations`
cycles, the cap defaults to 5, and against a model that always returns
a valid tool call for a tool that always succeeds the turn still ends,
at the cap, with the synthesized forced-stop answer instead of
raising. -/
theorem claim8_loop_terminates (model : List (String × String) → SpecAction)
    (runTool : String → String → String) (tools : List String)
    (h : ∀ sp, ∃ name input, model sp = .toolCall name input ∧
      tools.contains name = true) :
    createAgentConfig.maxIterations = 5 ∧
    (∀ m r t, (runAgentTurn m r t).2 ≤ createAgentConfig.maxIterations) ∧
    runAgentTurn model runTool tools = (forcedStopText, createAgentConfig.maxIterations) := by
  refine ⟨rfl, ?_, ?_⟩
  · intro m r t
    have := agentLoop_iter_le m r t createAgentConfig.maxIterations [] 0
    simpa [runAgentTurn] using this
  · have := agentLoop_forced model runTool tools h createAgentConfig.maxIterations [] 0
    simpa [runAgentTurn] using this

theorem claim8_witness :
    runAgentTurn (fun _ => SpecAction.toolCall "T" "x") (fun _ _ => "ok") ["T"] =
      (forcedStopText, 5) :=
  (claim8_loop_terminates (fun _ => SpecAction.toolCall "T" "x") (fun _ _ => "ok") ["T"]
    (fun _ => ⟨"T", "x", rfl, rfl⟩)).2.2

theorem memory_disabled_fixed (ts : List Turn) :
    ts.foldl MemoryStore.append disabledMemory = disabledMemory := by
  induction ts with
  | nil => rfl
  | cons t ts ih =>
    rw [List.foldl_cons]
    exact ih

/-- **C9** (confirmed; spec-modelled: the buffer is langchain's
`ConversationBufferMemory`, absent from `src/`, modelled from spec
§4.5; `create_agent` lines 195-219 are embedded as `createAgentMemory`
and `chatHistory`): with memory disabled every `append` is a no-op and
every snapshot is empty, and the prompt's `chat_history` input is `[]`
regardless of the buffer value. -/
theorem claim9_memory_noop (ts : List Turn) (mem : Option (List String)) :
    (ts.foldl MemoryStore.append disabledMemory).snapshot = [] ∧
    ts.foldl MemoryStore.append disabledMemory = disabledMemory ∧
    chatHistory false mem = [] ∧
    createAgentMemory false = none := by
  refine ⟨?_, memory_disabled_fixed ts, ?_, rfl⟩
  · rw [memory_disabled_fixed ts]
    rfl
  · cases mem <;> rfl

/-! ## Parse claims C1 and C10 -/

/-- **C1** (counterexample): `parse` propagates an exception on the
input `"[1, 2]"`: the text decodes to a JSON array, `parsed.get` raises
`AttributeError` (only `json.JSONDecodeError` is caught), so the result
is neither a `Malformed` carrying the raw input nor any other
`AgentFinish`. -/
theorem claim1_counterexample : parse "[1, 2]" = .error .attributeError := rfl

/-- **C1** (amended): for every input whose cleaned text fails JSON
decoding, `parse` returns the fail-open `AgentFinish` whose output is
the original input verbatim, and no exception escapes on that path;
however, an input that decodes to a non-mapping JSON value (such as
`"[1, 2]"`) raises `AttributeError`, which does propagate. -/
theorem claim1_amended (text : String)
    (h : jsonLoads (extractCleanJson text) = none) :
    parse text = .ok (.finish text text) := by
  unfold parse
  rw [h]

theorem claim1_witness :
    jsonLoads (extractCleanJson "not json at all") = none ∧
    parse "not json at all" = .ok (.finish "not json at all" "not json at all") :=
  ⟨rfl, claim1_amended "not json at all" rfl⟩

/-- **C10** (confirmed): when the cleaned text decodes to a mapping
whose `action` is neither `"Final Answer"` nor `"response"`, `parse`
returns `AgentAction` with tool = `str()` of the `action` value
(defaulting to `""` when the key is absent) and tool input = the
`action_input` value (defaulting to `""` when absent); a mapping with
neither key yields the tool call with both fields empty, never a
`Malformed`. -/
theorem claim10_toolcall (text : String) (kvs : List (String × Json))
    (h : jsonLoads (extractCleanJson text) = some (.obj kvs))
    (hm : isFinalMarker (objGet kvs "action") = false) :
    parse text = .ok (.action (pyStr ((objGet kvs "action").getD (.str "")))
      ((objGet kvs "action_input").getD (.str "")) text) ∧
    (objGet kvs "action" = none → objGet kvs "action_input" = none →
      parse text = .ok (.action "" (.str "") text)) := by
  constructor
  · unfold parse
    rw [h]
    simp [hm]
  · intro h1 h2
    unfold parse
    rw [h]
    simp [hm, h1, h2]
    rfl

theorem claim10_witness :
    jsonLoads (extractCleanJson "\x7b\x7d") = some (.obj []) ∧
    isFinalMarker (objGet [] "action") = false ∧
    parse "\x7b\x7d" = .ok (.action "" (.str "") "\x7b\x7d") :=
  ⟨rfl, rfl, (claim10_toolcall "\x7b\x7d" [] rfl rfl).2 rfl rfl⟩

/-! ## Decoder/printer round-trip: list and character lemmas -/

theorem takeWhile_app {p : Char → Bool} {l l' : List Char}
    (h : l.all p = true) (h' : headFails p l' = true) :
    (l ++ l').takeWhile p = l := by
  induction l with
  | nil =>
    cases l' with
    | nil => rfl
    | cons c cs => simp [headFails] at h'; simp [List.takeWhile, h']
  | cons c cs ih =>
    simp only [List.all_cons, Bool.and_eq_true] at h
    simp [List.takeWhile, h.1, ih h.2]

theorem dropWhile_app {p : Char → Bool} {l l' : List Char}
    (h : l.all p = true) (h' : headFails p l' = true) :
    (l ++ l').dropWhile p = l' := by
  induction l with
  | nil =>
    cases l' with
    | nil => rfl
    | cons c cs => simp [headFails] at h'; simp [List.dropWhile, h']
  | cons c cs ih =>
    simp only [List.all_cons, Bool.and_eq_true] at h
    simp [List.dropWhile, h.1, ih h.2]

theorem char_toNat_valid (c : Char) :
    c.toNat < 1114112 ∧ ¬(55296 ≤ c.toNat ∧ c.toNat ≤ 57343) := by
  have h : c.toNat = c.val.toNat := rfl
  rcases c.valid with hv | hv <;> rw [h] <;> omega

theorem hexDigitVal_hexChar (m : Nat) (h : m < 16) :
    hexDigitVal (hexChar m) = some m := by
  interval_cases m <;> decide


theorem parseHex4_hex4 (n : Nat) (h : n < 65536) (rest : List Char) :
    parseHex4 (hex4 n ++ rest) = some (n, rest) := by
  show parseHex4 (hexChar (n / 4096 % 16) :: hexChar (n / 256 % 16) ::
    hexChar (n / 16 % 16) :: hexChar (n % 16) :: rest) = some (n, rest)
  rw [parseHex4.eq_1]
  rw [hexDigitVal_hexChar _ (Nat.mod_lt _ (by norm_num)),
      hexDigitVal_hexChar _ (Nat.mod_lt _ (by norm_num)),
      hexDigitVal_hexChar _ (Nat.mod_lt _ (by norm_num)),
      hexDigitVal_hexChar _ (Nat.mod_lt _ (by norm_num))]
  simp only [Option.some.injEq, Prod.mk.injEq]
  refine ⟨by omega, trivial⟩

theorem psb_quote (f : Nat) (rest : List Char) :
    parseStringBody (f + 1) ('"' :: rest) = some ([], rest) := rfl

theorem psb_backslash (f : Nat) (cs : List Char) :
    parseStringBody (f + 1) ('\\' :: cs) =
      match decodeEscape cs with
      | some (ch, r) => (parseStringBody f r).map (fun p => (ch :: p.1, p.2))
      | none => none := rfl

theorem psb_plain (f : Nat) (c : Char) (cs : List Char)
    (h1 : ¬c = '"') (h2 : ¬c = '\\') (h3 : ¬c.toNat < 32) :
    parseStringBody (f + 1) (c :: cs) =
      (parseStringBody f cs).map (fun p => (c :: p.1, p.2)) := by
  rw [parseStringBody.eq_3, if_neg h1, if_neg h2, if_neg h3]

theorem decodeEscape_u (r : List Char) :
    decodeEscape ('u' :: r) =
      match parseHex4 r with
      | none => none
      | some (n, r2) =>
        if 55296 ≤ n && n ≤ 56319 then decodeSurrogatePair n r2
        else if 56320 ≤ n && n ≤ 57343 then none
        else some (Char.ofNat n, r2) := rfl

/-- Every character's `json.dumps` escape decodes back to the same
character: either it is kept verbatim (and is not itself special), or
it becomes a backslash escape that `decodeEscape` inverts. -/
theorem escapeChar_decode (c : Char) :
    (escapeChar c = [c] ∧ ¬c = '"' ∧ ¬c = '\\' ∧ ¬c.toNat < 32) ∨
    (∃ t, escapeChar c = '\\' :: t ∧
      ∀ rest, decodeEscape (t ++ rest) = some (c, rest)) := by
  have hval := char_toNat_valid c
  by_cases h1 : c = '"'
  · exact Or.inr ⟨['"'], by simp [escapeChar, h1], fun rest => by rw [h1]; rfl⟩
  by_cases h2 : c = '\\'
  · exact Or.inr ⟨['\\'], by simp [escapeChar, h1, h2], fun rest => by rw [h2]; rfl⟩
  by_cases h3 : c = '\n'
  · exact Or.inr ⟨['n'], by simp [escapeChar, h1, h2, h3], fun rest => by rw [h3]; rfl⟩
  by_cases h4 : c = '\r'
  · exact Or.inr ⟨['r'], by simp [escapeChar, h1, h2, h3, h4], fun rest => by rw [h4]; rfl⟩
  by_cases h5 : c = '\t'
  · exact Or.inr ⟨['t'], by simp [escapeChar, h1, h2, h3, h4, h5], fun rest => by rw [h5]; rfl⟩
  by_cases h6 : c.toNat = 8
  · refine Or.inr ⟨['b'], by simp [escapeChar, h1, h2, h3, h4, h5, h6], fun rest => ?_⟩
    have hc : Char.ofNat 8 = c := by rw [← h6, Char.ofNat_toNat]
    show decodeEscape ('b' :: rest) = some (c, rest)
    rw [show decodeEscape ('b' :: rest) = some (Char.ofNat 8, rest) from rfl, hc]
  by_cases h7 : c.toNat = 12
  · refine Or.inr ⟨['f'], by simp [escapeChar, h1, h2, h3, h4, h5, h6, h7], fun rest => ?_⟩
    have hc : Char.ofNat 12 = c := by rw [← h7, Char.ofNat_toNat]
    show decodeEscape ('f' :: rest) = some (c, rest)
    rw [show decodeEscape ('f' :: rest) = some (Char.ofNat 12, rest) from rfl, hc]
  by_cases h8 : c.toNat < 32
  · refine Or.inr ⟨'u' :: hex4 c.toNat,
      by simp [escapeChar, h1, h2, h3, h4, h5, h6, h7, h8], fun rest => ?_⟩
    show decodeEscape ('u' :: (hex4 c.toNat ++ rest)) = some (c, rest)
    rw [decodeEscape_u, parseHex4_hex4 c.toNat (by omega) rest]
    have hs1 : (55296 ≤ c.toNat && c.toNat ≤ 56319) = false := by
      simp only [Bool.and_eq_false_iff, decide_eq_false_iff_not, not_le]
      omega
    have hs2 : (56320 ≤ c.toNat && c.toNat ≤ 57343) = false := by
      simp only [Bool.and_eq_false_iff, decide_eq_false_iff_not, not_le]
      omega
    simp only [hs1, Bool.false_eq_true, if_false, hs2, Char.ofNat_toNat]
  by_cases h9 : c.toNat ≤ 126
  · exact Or.inl ⟨by simp [escapeChar, h1, h2, h3, h4, h5, h6, h7, h8, h9], h1, h2, h8⟩
  by_cases h10 : c.toNat < 65536
  · refine Or.inr ⟨'u' :: hex4 c.toNat,
      by simp [escapeChar, h1, h2, h3, h4, h5, h6, h7, h8, h9, h10], fun rest => ?_⟩
    show decodeEscape ('u' :: (hex4 c.toNat ++ rest)) = some (c, rest)
    rw [decodeEscape_u, parseHex4_hex4 c.toNat (by omega) rest]
    have hs1 : (55296 ≤ c.toNat && c.toNat ≤ 56319) = false := by
      simp only [Bool.and_eq_false_iff, decide_eq_false_iff_not, not_le]
      omega
    have hs2 : (56320 ≤ c.toNat && c.toNat ≤ 57343) = false := by
      simp only [Bool.and_eq_false_iff, decide_eq_false_iff_not, not_le]
      omega
    simp only [hs1, Bool.false_eq_true, if_false, hs2, Char.ofNat_toNat]
  · refine Or.inr ⟨'u' :: hex4 (55296 + (c.toNat - 65536) / 1024) ++
      '\\' :: 'u' :: hex4 (56320 + (c.toNat - 65536) % 1024),
      by simp [escapeChar, h1, h2, h3, h4, h5, h6, h7, h8, h9, h10], fun rest => ?_⟩
    have hmod : (c.toNat - 65536) % 1024 < 1024 := Nat.mod_lt _ (by norm_num)
    have hdiv : (c.toNat - 65536) / 1024 < 1024 := by
      have := hval.1
      omega
    have hs1 : (55296 ≤ 55296 + (c.toNat - 65536) / 1024 &&
        55296 + (c.toNat - 65536) / 1024 ≤ 56319) = true := by
      simp only [Bool.and_eq_true, decide_eq_true_eq]
      omega
    have hs2 : (56320 ≤ 56320 + (c.toNat - 65536) % 1024 &&
        56320 + (c.toNat - 65536) % 1024 ≤ 57343) = true := by
      simp only [Bool.and_eq_true, decide_eq_true_eq]
      omega
    show decodeEscape ('u' :: (hex4 (55296 + (c.toNat - 65536) / 1024) ++
      ('\\' :: ('u' :: (hex4 (56320 + (c.toNat - 65536) % 1024) ++ rest))))) = some (c, rest)
    rw [decodeEscape_u, parseHex4_hex4 _ (by omega) _]
    simp only [hs1, if_true]
    rw [decodeSurrogatePair.eq_1, if_pos ⟨rfl, rfl⟩, parseHex4_hex4 _ (by omega) _]
    simp only [hs2, if_true]
    rw [show 65536 + (55296 + (c.toNat - 65536) / 1024 - 55296) * 1024 +
        (56320 + (c.toNat - 65536) % 1024 - 56320) = c.toNat from by
      have := hval.1
      omega, Char.ofNat_toNat]

/-- The printed body of a string plus a closing quote parses back to
exactly that string. -/
theorem psb_escape (l : List Char) :
    ∀ fuel rest, l.length < fuel →
      parseStringBody fuel (escapeChars l ++ '"' :: rest) = some (l, rest) := by
  induction l with
  | nil =>
    intro fuel rest hf
    cases fuel with
    | zero => omega
    | succ f => exact psb_quote f rest
  | cons c cs ih =>
    intro fuel rest hf
    cases fuel with
    | zero => omega
    | succ f =>
    have hfc : cs.length < f := by simpa using hf
    have hrec := ih f rest hfc
    rw [show escapeChars (c :: cs) = escapeChar c ++ escapeChars cs from rfl,
      List.append_assoc]
    rcases escapeChar_decode c with ⟨he, hq, hb, hctl⟩ | ⟨t, he, hdec⟩
    · rw [he]
      show parseStringBody (f + 1) (c :: (escapeChars cs ++ '"' :: rest)) = _
      rw [psb_plain f c _ hq hb hctl, hrec]
      rfl
    · rw [he]
      show parseStringBody (f + 1) ('\\' :: (t ++ (escapeChars cs ++ '"' :: rest))) = _
      rw [psb_backslash, hdec (escapeChars cs ++ '"' :: rest)]
      show (parseStringBody f (escapeChars cs ++ '"' :: rest)).map
        (fun p => (c :: p.1, p.2)) = some (c :: cs, rest)
      rw [hrec]
      rfl

/-! ## Number-literal lemmas -/

theorem charLe_toNat {a b : Char} : a ≤ b ↔ a.toNat ≤ b.toNat := by
  rw [Char.le_def]
  exact Iff.rfl

theorem isDigit_iff (c : Char) : c.isDigit = true ↔ 48 ≤ c.toNat ∧ c.toNat ≤ 57 := by
  simp only [Char.isDigit, Bool.and_eq_true, decide_eq_true_eq, ge_iff_le]
  exact Iff.rfl

theorem char_eq_of_toNat {a b : Char} (h : a.toNat = b.toNat) : a = b := by
  have h2 : Char.ofNat a.toNat = Char.ofNat b.toNat := by rw [h]
  rwa [Char.ofNat_toNat, Char.ofNat_toNat] at h2

theorem digitChar_toNat (m : Nat) (h : m < 10) : (digitChar m).toNat = 48 + m := by
  interval_cases m <;> decide

theorem digitChar_isDigit (m : Nat) (h : m < 10) : (digitChar m).isDigit = true := by
  interval_cases m <;> decide

theorem digitsToNat_append_one (l : List Char) (d : Char) :
    digitsToNat (l ++ [d]) = digitsToNat l * 10 + (d.toNat - 48) := by
  simp [digitsToNat, List.foldl_append]

theorem natToCharsAux_spec :
    ∀ fuel n, n < fuel →
      (natToCharsAux fuel n).all Char.isDigit = true ∧
      natToCharsAux fuel n ≠ [] ∧
      digitsToNat (natToCharsAux fuel n) = n ∧
      (1 ≤ n → ∃ c cs, natToCharsAux fuel n = c :: cs ∧ '1' ≤ c ∧ c ≤ '9') := by
  intro fuel
  induction fuel with
  | zero => intro n hn; omega
  | succ f ih =>
    intro n hn
    by_cases h10 : n < 10
    · rw [natToCharsAux.eq_2, if_pos h10]
      refine ⟨by simp [digitChar_isDigit n h10], by simp, ?_, ?_⟩
      · simp [digitsToNat, digitChar_toNat n h10]
      · intro h1
        refine ⟨digitChar n, [], rfl, ?_, ?_⟩
        · rw [charLe_toNat, digitChar_toNat n h10]
          show 49 ≤ 48 + n
          omega
        · rw [charLe_toNat, digitChar_toNat n h10]
          show 48 + n ≤ 57
          omega
    · have hdiv : n / 10 < f := by
        have h1 : n / 10 < n := Nat.div_lt_self (by omega) (by omega)
        omega
      have ihd := ih (n / 10) hdiv
      rw [natToCharsAux.eq_2, if_neg h10]
      obtain ⟨hall, hne, hval, hhead⟩ := ihd
      refine ⟨?_, by simp, ?_, ?_⟩
      · simp only [List.all_append, hall, Bool.true_and, List.all_cons, List.all_nil,
          Bool.and_true]
        exact digitChar_isDigit _ (Nat.mod_lt _ (by omega))
      · rw [digitsToNat_append_one, hval, digitChar_toNat _ (Nat.mod_lt _ (by omega))]
        omega
      · intro _
        obtain ⟨c, cs, hcc, hc1, hc9⟩ := hhead (by
          have : 1 ≤ n / 10 := Nat.one_le_div_iff (by omega) |>.mpr (by omega)
          omega)
        exact ⟨c, cs ++ [digitChar (n % 10)], by rw [hcc]; rfl, hc1, hc9⟩

theorem natToChars_spec (n : Nat) :
    (natToChars n).all Char.isDigit = true ∧
    natToChars n ≠ [] ∧
    digitsToNat (natToChars n) = n ∧
    (1 ≤ n → ∃ c cs, natToChars n = c :: cs ∧ '1' ≤ c ∧ c ≤ '9') :=
  natToCharsAux_spec (n + 1) n (by omega)

theorem headFails_dropWhile (p : Char → Bool) (l : List Char) :
    headFails p (l.dropWhile p) = true := by
  induction l with
  | nil => rfl
  | cons c cs ih =>
    by_cases h : p c
    · rw [List.dropWhile_cons_of_pos h]
      exact ih
    · rw [List.dropWhile_cons_of_neg h]
      simp [headFails, h]

theorem all_takeWhile (p : Char → Bool) (l : List Char) :
    (l.takeWhile p).all p = true := by
  induction l with
  | nil => rfl
  | cons c cs ih =>
    by_cases h : p c
    · rw [List.takeWhile_cons_of_pos h]
      simp [h, ih]
    · rw [List.takeWhile_cons_of_neg h]
      rfl

theorem matchIntPart_zero (r : List Char) : matchIntPart ('0' :: r) = some (['0'], r) := rfl

theorem matchIntPart_pos (c : Char) (r : List Char) (h1 : '1' ≤ c) (h9 : c ≤ '9') :
    matchIntPart (c :: r) =
      some (c :: r.takeWhile Char.isDigit, r.dropWhile Char.isDigit) := by
  have h0 : ¬c = '0' := by
    intro e
    rw [charLe_toNat] at h1
    rw [e] at h1
    revert h1
    decide
  rw [matchIntPart.eq_1, if_neg h0, if_pos ⟨h1, h9⟩]

/-- Replay of the integer-part match on its own output followed by a
non-digit remainder. -/
theorem matchIntPart_replay (ip rest : List Char)
    (hsh : ip = ['0'] ∨ ∃ c ds, ip = c :: ds ∧ '1' ≤ c ∧ c ≤ '9' ∧ ds.all Char.isDigit = true)
    (hr : headFails Char.isDigit rest = true) :
    matchIntPart (ip ++ rest) = some (ip, rest) := by
  rcases hsh with h | ⟨c, ds, hip, h1, h9, hds⟩
  · rw [h]
    exact matchIntPart_zero rest
  · rw [hip]
    show matchIntPart (c :: (ds ++ rest)) = _
    rw [matchIntPart_pos c _ h1 h9, takeWhile_app hds hr, dropWhile_app hds hr]

theorem matchFracPart_skip (l : List Char)
    (h : headFails (fun c => c == '.') l = true) : matchFracPart l = ([], l) := by
  cases l with
  | nil => rfl
  | cons c r =>
    simp only [headFails, Bool.not_eq_true'] at h
    rw [matchFracPart.eq_1, if_neg (by simpa using h)]

theorem matchFracPart_frac (ds r : List Char) (hne : ds ≠ [])
    (hds : ds.all Char.isDigit = true) (hr : headFails Char.isDigit r = true) :
    matchFracPart ('.' :: (ds ++ r)) = ('.' :: ds, r) := by
  rw [matchFracPart.eq_1, if_pos rfl, takeWhile_app hds hr, dropWhile_app hds hr,
    if_neg hne]

theorem matchExpPart_skip (l : List Char)
    (h : headFails (fun c => c == 'e' || c == 'E') l = true) : matchExpPart l = ([], l) := by
  match l with
  | [] => rfl
  | [c] =>
    rw [matchExpPart.eq_2]
    split <;> rfl
  | c :: c1 :: r =>
    simp only [headFails, Bool.not_eq_true', Bool.or_eq_false_iff] at h
    rw [matchExpPart.eq_1, if_neg (by
      rintro (rfl | rfl) <;> simp at h)]

theorem matchExpPart_exp (e : Char) (sgn ds r : List Char)
    (he : e = 'e' ∨ e = 'E') (hsgn : sgn = [] ∨ sgn = ['+'] ∨ sgn = ['-'])
    (hne : ds ≠ []) (hds : ds.all Char.isDigit = true)
    (hr : headFails Char.isDigit r = true) :
    matchExpPart (e :: (sgn ++ (ds ++ r))) = (e :: (sgn ++ ds), r) := by
  obtain ⟨d, ds', rfl⟩ : ∃ d ds', ds = d :: ds' := by
    cases ds with
    | nil => exact absurd rfl hne
    | cons d ds' => exact ⟨d, ds', rfl⟩
  have hd : d.isDigit = true := by
    simp only [List.all_cons, Bool.and_eq_true] at hds
    exact hds.1
  have hdplus : ¬(d = '+' ∨ d = '-') := by
    rintro (rfl | rfl) <;> revert hd <;> decide
  have htw : ((d :: ds') ++ r).takeWhile Char.isDigit = d :: ds' := takeWhile_app hds hr
  have hdw : ((d :: ds') ++ r).dropWhile Char.isDigit = r := dropWhile_app hds hr
  rcases hsgn with rfl | rfl | rfl
  · show matchExpPart (e :: (d :: (ds' ++ r))) = (e :: (d :: ds'), r)
    rw [matchExpPart.eq_1, if_pos he, if_neg hdplus]
    rw [show d :: (ds' ++ r) = (d :: ds') ++ r from rfl, htw, hdw]
    simp
  · show matchExpPart (e :: '+' :: ((d :: ds') ++ r)) = (e :: ('+' :: (d :: ds')), r)
    rw [show (d :: ds') ++ r = d :: (ds' ++ r) from rfl, matchExpPart.eq_1, if_pos he]
    rw [if_pos (Or.inl rfl)]
    rw [show d :: (ds' ++ r) = (d :: ds') ++ r from rfl, htw, hdw]
    simp
  · show matchExpPart (e :: '-' :: ((d :: ds') ++ r)) = (e :: ('-' :: (d :: ds')), r)
    rw [show (d :: ds') ++ r = d :: (ds' ++ r) from rfl, matchExpPart.eq_1, if_pos he]
    rw [if_pos (Or.inr rfl)]
    rw [show d :: (ds' ++ r) = (d :: ds') ++ r from rfl, htw, hdw]
    simp


theorem headFails_of_numSafe {rest : List Char}
    (h : headFails numContinuing rest = true) :
    headFails Char.isDigit rest = true ∧
    headFails (fun c => c == '.') rest = true ∧
    headFails (fun c => c == 'e' || c == 'E') rest = true := by
  cases rest with
  | nil => exact ⟨rfl, rfl, rfl⟩
  | cons c r =>
    simp only [headFails, numContinuing, Bool.not_eq_true', Bool.or_eq_false_iff] at h ⊢
    exact ⟨h.1.1.1, h.1.1.2, h.1.2, h.2⟩

theorem numSign_not_neg (c : Char) (cs : List Char) (h : ¬c = '-') :
    numSign (c :: cs) = [] := by
  rw [numSign.eq_1, if_neg h]

theorem digit_ne_dash {c : Char} (h : c.isDigit = true) : ¬c = '-' := by
  intro e
  rw [e] at h
  revert h
  decide

theorem parseNumber_int (n : Int) (rest : List Char)
    (hrest : headFails numContinuing rest = true) :
    parseNumber (intToChars n ++ rest) = some (.int n, rest) := by
  obtain ⟨hdig, hdot, hexp⟩ := headFails_of_numSafe hrest
  cases n with
  | ofNat m =>
    obtain ⟨hall, hne, hval, hhead⟩ := natToChars_spec m
    have hmi : matchIntPart (natToChars m ++ rest) = some (natToChars m, rest) := by
      rcases Nat.eq_zero_or_pos m with rfl | hpos
      · show matchIntPart ('0' :: rest) = some (['0'], rest)
        exact matchIntPart_zero rest
      · obtain ⟨c, cs, hcc, h1, h9⟩ := hhead hpos
        rw [hcc]
        show matchIntPart (c :: (cs ++ rest)) = some (c :: cs, rest)
        have hcs : cs.all Char.isDigit = true := by
          rw [hcc] at hall
          simp only [List.all_cons, Bool.and_eq_true] at hall
          exact hall.2
        rw [matchIntPart_pos c _ h1 h9, takeWhile_app hcs hdig, dropWhile_app hcs hdig]
    have hns : numSign (natToChars m ++ rest) = [] := by
      obtain ⟨c, cs, hcc⟩ : ∃ c cs, natToChars m = c :: cs := by
        cases hmm : natToChars m with
        | nil => exact absurd hmm hne
        | cons c cs => exact ⟨c, cs, rfl⟩
      have hcd : c.isDigit = true := by
        rw [hcc] at hall
        simp only [List.all_cons, Bool.and_eq_true] at hall
        exact hall.1
      rw [hcc]
      exact numSign_not_neg c _ (digit_ne_dash hcd)
    show parseNumber (natToChars m ++ rest) = some (.int (Int.ofNat m), rest)
    simp only [parseNumber, hns, List.length_nil, List.drop_zero, hmi,
      matchFracPart_skip rest hdot, matchExpPart_skip rest hexp]
    simp [hval]
  | negSucc k =>
    obtain ⟨hall, hne, hval, hhead⟩ := natToChars_spec (k + 1)
    have hmi : matchIntPart (natToChars (k + 1) ++ rest) =
        some (natToChars (k + 1), rest) := by
      obtain ⟨c, cs, hcc, h1, h9⟩ := hhead (by omega)
      rw [hcc]
      show matchIntPart (c :: (cs ++ rest)) = some (c :: cs, rest)
      have hcs : cs.all Char.isDigit = true := by
        rw [hcc] at hall
        simp only [List.all_cons, Bool.and_eq_true] at hall
        exact hall.2
      rw [matchIntPart_pos c _ h1 h9, takeWhile_app hcs hdig, dropWhile_app hcs hdig]
    have hns : numSign ('-' :: (natToChars (k + 1) ++ rest)) = ['-'] := rfl
    show parseNumber ('-' :: (natToChars (k + 1) ++ rest)) = some (.int (Int.negSucc k), rest)
    simp only [parseNumber, hns, List.length_cons, List.length_nil, List.drop_succ_cons,
      List.drop_zero, hmi, matchFracPart_skip rest hdot, matchExpPart_skip rest hexp]
    rw [if_pos (show _ by simp), if_neg (show _ by simp), hval]
    simp only [Option.some.injEq, Prod.mk.injEq, Json.int.injEq]
    refine ⟨?_, trivial⟩
    rw [Int.negSucc_eq]
    push_cast
    ring

/-! ## Fractional-literal lemmas -/

theorem matchIntPart_shape (l ip r : List Char) (h : matchIntPart l = some (ip, r)) :
    l = ip ++ r ∧
    (ip = ['0'] ∨ ∃ c ds, ip = c :: ds ∧ '1' ≤ c ∧ c ≤ '9' ∧ ds.all Char.isDigit = true) := by
  cases l with
  | nil => exact absurd h (by simp [matchIntPart])
  | cons c r0 =>
    rw [matchIntPart.eq_1] at h
    by_cases h0 : c = '0'
    · rw [if_pos h0] at h
      simp only [Option.some.injEq, Prod.mk.injEq] at h
      obtain ⟨rfl, rfl⟩ := h
      subst h0
      exact ⟨rfl, Or.inl rfl⟩
    · rw [if_neg h0] at h
      by_cases h9 : '1' ≤ c ∧ c ≤ '9'
      · rw [if_pos h9] at h
        simp only [Option.some.injEq, Prod.mk.injEq] at h
        obtain ⟨rfl, rfl⟩ := h
        constructor
        · show c :: r0 = c :: (_ ++ _)
          rw [List.takeWhile_append_dropWhile]
        · exact Or.inr ⟨c, _, rfl, h9.1, h9.2, all_takeWhile _ _⟩
      · rw [if_neg h9] at h
        exact absurd h (by simp)

theorem matchFracPart_shape (l : List Char) :
    l = (matchFracPart l).1 ++ (matchFracPart l).2 ∧
    ((matchFracPart l).1 = [] ∨ ∃ ds, (matchFracPart l).1 = '.' :: ds ∧ ds ≠ [] ∧
      ds.all Char.isDigit = true) := by
  cases l with
  | nil => exact ⟨rfl, Or.inl rfl⟩
  | cons c r0 =>
    rw [matchFracPart.eq_1]
    by_cases hdot : c = '.'
    · rw [if_pos hdot]
      by_cases htw : r0.takeWhile Char.isDigit = []
      · rw [if_pos htw]
        exact ⟨rfl, Or.inl rfl⟩
      · rw [if_neg htw]
        subst hdot
        refine ⟨?_, Or.inr ⟨_, rfl, htw, all_takeWhile _ _⟩⟩
        show ('.' : Char) :: r0 = '.' :: (_ ++ _)
        rw [List.takeWhile_append_dropWhile]
    · rw [if_neg hdot]
      exact ⟨rfl, Or.inl rfl⟩

theorem matchExpPart_shape (l : List Char) :
    l = (matchExpPart l).1 ++ (matchExpPart l).2 ∧
    ((matchExpPart l).1 = [] ∨ ∃ e sgn ds, (matchExpPart l).1 = e :: (sgn ++ ds) ∧
      (e = 'e' ∨ e = 'E') ∧ (sgn = [] ∨ sgn = ['+'] ∨ sgn = ['-']) ∧ ds ≠ [] ∧
      ds.all Char.isDigit = true) := by
  match l with
  | [] => exact ⟨rfl, Or.inl rfl⟩
  | [c] =>
    rw [matchExpPart.eq_2]
    split <;> exact ⟨rfl, Or.inl rfl⟩
  | c :: c1 :: r0 =>
    rw [matchExpPart.eq_1]
    by_cases he : c = 'e' ∨ c = 'E'
    · rw [if_pos he]
      by_cases hsgn : c1 = '+' ∨ c1 = '-'
      · rw [if_pos hsgn]
        by_cases htw : r0.takeWhile Char.isDigit = []
        · rw [if_pos htw]
          exact ⟨rfl, Or.inl rfl⟩
        · rw [if_neg htw]
          refine ⟨?_, Or.inr ⟨c, [c1], _, rfl, he, ?_, htw, all_takeWhile _ _⟩⟩
          · show c :: c1 :: r0 = c :: c1 :: (_ ++ _)
            rw [List.takeWhile_append_dropWhile]
          · rcases hsgn with rfl | rfl
            · exact Or.inr (Or.inl rfl)
            · exact Or.inr (Or.inr rfl)
      · rw [if_neg hsgn]
        by_cases htw : (c1 :: r0).takeWhile Char.isDigit = []
        · rw [if_pos htw]
          exact ⟨rfl, Or.inl rfl⟩
        · rw [if_neg htw]
          refine ⟨?_, Or.inr ⟨c, [], _, by simp, he, Or.inl rfl, htw, all_takeWhile _ _⟩⟩
          show c :: (c1 :: r0) = c :: (_ ++ _)
          rw [List.takeWhile_append_dropWhile]
    · rw [if_neg he]
      exact ⟨rfl, Or.inl rfl⟩

theorem numParts_head {sign ip fp ep : List Char} (h : NumParts sign ip fp ep) :
    ∃ c cs, sign ++ (ip ++ (fp ++ ep)) = c :: cs ∧
      (c = '-' ∨ c.isDigit = true) := by
  obtain ⟨hsig, hip, _, _, _⟩ := h
  rcases hsig with rfl | rfl
  · rcases hip with rfl | ⟨c, ds, rfl, h1, h9, hall⟩
    · exact ⟨'0', _, rfl, Or.inr (by decide)⟩
    · refine ⟨c, _, rfl, Or.inr ?_⟩
      rw [isDigit_iff]
      rw [charLe_toNat] at h1 h9
      have h1' : 49 ≤ c.toNat := h1
      have h9' : c.toNat ≤ 57 := h9
      omega
  · exact ⟨'-', _, rfl, Or.inl rfl⟩

theorem parseNumber_parts (sign ip fp ep rest : List Char)
    (h : NumParts sign ip fp ep)
    (hrest : headFails numContinuing rest = true) :
    parseNumber (sign ++ (ip ++ (fp ++ (ep ++ rest)))) =
      some (.fracRaw ⟨sign ++ ip ++ fp ++ ep⟩, rest) := by
  obtain ⟨hsig, hip, hfp, hep, hne⟩ := h
  obtain ⟨hdig, hdot, hexp⟩ := headFails_of_numSafe hrest
  have hepdig : headFails Char.isDigit (ep ++ rest) = true := by
    rcases hep with rfl | ⟨e, sgn, ds, rfl, he, _, _, _⟩
    · exact hdig
    · rcases he with rfl | rfl <;> rfl
  have hmiddig : headFails Char.isDigit (fp ++ (ep ++ rest)) = true := by
    rcases hfp with rfl | ⟨ds, rfl, _, _⟩
    · exact hepdig
    · rfl
  have hmi : matchIntPart (ip ++ (fp ++ (ep ++ rest))) =
      some (ip, fp ++ (ep ++ rest)) := matchIntPart_replay ip _ hip hmiddig
  have hfpr : matchFracPart (fp ++ (ep ++ rest)) = (fp, ep ++ rest) := by
    rcases hfp with rfl | ⟨ds, rfl, hdsne, hds⟩
    · apply matchFracPart_skip
      rcases hep with rfl | ⟨e, sgn, ds, rfl, he, _, _, _⟩
      · exact hdot
      · rcases he with rfl | rfl <;> rfl
    · show matchFracPart ('.' :: (ds ++ (ep ++ rest))) = _
      rw [matchFracPart_frac ds _ hdsne hds hepdig]
  have hepr : matchExpPart (ep ++ rest) = (ep, rest) := by
    rcases hep with rfl | ⟨e, sgn, ds, rfl, he, hsgn, hdsne, hds⟩
    · exact matchExpPart_skip rest hexp
    · show matchExpPart (e :: ((sgn ++ ds) ++ rest)) = _
      rw [List.append_assoc, matchExpPart_exp e sgn ds rest he hsgn hdsne hds hdig]
  have hnonempty : ¬(fp = [] ∧ ep = []) := by
    rcases hne with h | h
    · exact fun hc => h hc.1
    · exact fun hc => h hc.2
  rcases hsig with rfl | rfl
  · obtain ⟨c, cs, hcons, hc⟩ := numParts_head ⟨Or.inl rfl, hip, hfp, hep, hne⟩
    have hns : numSign (ip ++ (fp ++ (ep ++ rest))) = [] := by
      obtain ⟨d, ds, hd⟩ : ∃ d ds, ip = d :: ds := by
        rcases hip with rfl | ⟨c', ds', rfl, _, _⟩
        · exact ⟨'0', [], rfl⟩
        · exact ⟨c', ds', rfl⟩
      rw [hd]
      apply numSign_not_neg
      rcases hip with hz | ⟨c', ds', hcd, h1, h9, hall⟩
      · rw [hz] at hd
        injection hd with he1 he2
        rw [← he1]
        decide
      · rw [hcd] at hd
        injection hd with he1 he2
        rw [← he1]
        intro e
        rw [charLe_toNat] at h1
        rw [e] at h1
        exact absurd h1 (by decide)
    show parseNumber ([] ++ (ip ++ (fp ++ (ep ++ rest)))) = _
    rw [List.nil_append]
    simp only [parseNumber, hns, List.length_nil, List.drop_zero, hmi, hfpr, hepr]
    rw [if_neg hnonempty]
  · show parseNumber ('-' :: (ip ++ (fp ++ (ep ++ rest)))) = _
    have hns : numSign ('-' :: (ip ++ (fp ++ (ep ++ rest)))) = ['-'] := rfl
    simp only [parseNumber, hns, List.length_cons, List.length_nil, List.drop_succ_cons,
      List.drop_zero, hmi, hfpr, hepr]
    rw [if_neg hnonempty]

theorem numFracCheck_parts (sign ip fp ep : List Char) (h : NumParts sign ip fp ep) :
    numFracCheck (sign ++ (ip ++ (fp ++ ep))) = true := by
  obtain ⟨hsig, hip, hfp, hep, hne⟩ := h
  have hepdig : headFails Char.isDigit ep = true := by
    rcases hep with rfl | ⟨e, sgn, ds, rfl, he, _, _, _⟩
    · rfl
    · rcases he with rfl | rfl <;> rfl
  have hmiddig : headFails Char.isDigit (fp ++ ep) = true := by
    rcases hfp with rfl | ⟨ds, rfl, _, _⟩
    · exact hepdig
    · rfl
  have hmi : matchIntPart (ip ++ (fp ++ ep)) = some (ip, fp ++ ep) :=
    matchIntPart_replay ip _ hip hmiddig
  have hfpr : matchFracPart (fp ++ ep) = (fp, ep) := by
    rcases hfp with rfl | ⟨ds, rfl, hdsne, hds⟩
    · apply matchFracPart_skip
      rcases hep with rfl | ⟨e, sgn, ds, rfl, he, _, _, _⟩
      · rfl
      · rcases he with rfl | rfl <;> rfl
    · show matchFracPart ('.' :: (ds ++ ep)) = _
      rw [matchFracPart_frac ds _ hdsne hds hepdig]
  have hepr : matchExpPart ep = (ep, []) := by
    rcases hep with rfl | ⟨e, sgn, ds, rfl, he, hsgn, hdsne, hds⟩
    · rfl
    · have := matchExpPart_exp e sgn ds [] he hsgn hdsne hds rfl
      simpa using this
  rcases hsig with rfl | rfl
  · have hns : numSign (ip ++ (fp ++ ep)) = [] := by
      obtain ⟨d, ds, hd⟩ : ∃ d ds, ip = d :: ds := by
        rcases hip with rfl | ⟨c', ds', rfl, _, _⟩
        · exact ⟨'0', [], rfl⟩
        · exact ⟨c', ds', rfl⟩
      rw [hd]
      apply numSign_not_neg
      rcases hip with hz | ⟨c', ds', hcd, h1, h9, hall⟩
      · rw [hz] at hd
        injection hd with he1 he2
        rw [← he1]
        decide
      · rw [hcd] at hd
        injection hd with he1 he2
        rw [← he1]
        intro e
        rw [charLe_toNat] at h1
        rw [e] at h1
        exact absurd h1 (by decide)
    show numFracCheck ([] ++ (ip ++ (fp ++ ep))) = true
    rw [List.nil_append]
    simp only [numFracCheck, hns, List.length_nil, List.drop_zero, hmi, hfpr, hepr]
    simp only [List.isEmpty_nil, Bool.and_eq_true, Bool.or_eq_true, Bool.not_eq_true']
    refine ⟨?_, trivial⟩
    rcases hne with h | h
    · exact Or.inl (by simpa using h)
    · exact Or.inr (by simpa using h)
  · show numFracCheck ('-' :: (ip ++ (fp ++ ep))) = true
    have hns : numSign ('-' :: (ip ++ (fp ++ ep))) = ['-'] := rfl
    simp only [numFracCheck, hns, List.length_cons, List.length_nil, List.drop_succ_cons,
      List.drop_zero, hmi, hfpr, hepr]
    simp only [List.isEmpty_nil, Bool.and_eq_true, Bool.or_eq_true, Bool.not_eq_true']
    refine ⟨?_, trivial⟩
    rcases hne with h | h
    · exact Or.inl (by simpa using h)
    · exact Or.inr (by simpa using h)

theorem numSign_cases (l : List Char) : numSign l = [] ∨ numSign l = ['-'] := by
  cases l with
  | nil => exact Or.inl rfl
  | cons c cs =>
    rw [numSign.eq_1]
    by_cases h : c = '-'
    · rw [if_pos h]
      exact Or.inr rfl
    · rw [if_neg h]
      exact Or.inl rfl

theorem parseNumber_wf (l : List Char) (v : Json) (r : List Char)
    (h : parseNumber l = some (v, r)) : wfV v = true := by
  simp only [parseNumber] at h
  split at h
  · exact absurd h (by simp)
  · rename_i ip r2 hmi
    split at h
    · simp only [Option.some.injEq, Prod.mk.injEq] at h
      rw [← h.1]
      rfl
    · rename_i hc
      simp only [Option.some.injEq, Prod.mk.injEq] at h
      rw [← h.1]
      have hparts : NumParts (numSign l) ip (matchFracPart r2).1
          (matchExpPart (matchFracPart r2).2).1 := by
        refine ⟨numSign_cases l, (matchIntPart_shape _ _ _ hmi).2,
          (matchFracPart_shape r2).2, (matchExpPart_shape (matchFracPart r2).2).2, ?_⟩
        by_cases hfp : (matchFracPart r2).1 = []
        · exact Or.inr (fun he => hc ⟨hfp, he⟩)
        · exact Or.inl hfp
      have hcheck := numFracCheck_parts _ _ _ _ hparts
      show fracLitOk ⟨numSign l ++ ip ++ (matchFracPart r2).1 ++
        (matchExpPart (matchFracPart r2).2).1⟩ = true
      unfold fracLitOk
      rw [show (⟨numSign l ++ ip ++ (matchFracPart r2).1 ++
        (matchExpPart (matchFracPart r2).2).1⟩ : String).data =
        numSign l ++ (ip ++ ((matchFracPart r2).1 ++
          (matchExpPart (matchFracPart r2).2).1)) from by simp, hcheck]
      simp

theorem numFracCheck_head (l : List Char) (h : numFracCheck l = true) :
    ∃ c cs, l = c :: cs ∧ (c = '-' ∨ c.isDigit = true) := by
  cases l with
  | nil => exact absurd h (by decide)
  | cons c cs =>
    by_cases hd : c = '-'
    · exact ⟨c, cs, rfl, Or.inl hd⟩
    · refine ⟨c, cs, rfl, Or.inr ?_⟩
      simp only [numFracCheck, numSign.eq_1, if_neg hd, List.length_nil,
        List.drop_zero] at h
      cases hmi : matchIntPart (c :: cs) with
      | none => rw [hmi] at h; exact absurd h (by simp)
      | some p =>
        rw [matchIntPart.eq_1] at hmi
        by_cases h0 : c = '0'
        · rw [h0]
          decide
        · rw [if_neg h0] at hmi
          by_cases h9 : '1' ≤ c ∧ c ≤ '9'
          · rw [isDigit_iff]
            obtain ⟨h1, h2⟩ := h9
            rw [charLe_toNat] at h1 h2
            have h1' : 49 ≤ c.toNat := h1
            have h2' : c.toNat ≤ 57 := h2
            omega
          · rw [if_neg h9] at hmi
            exact absurd hmi (by simp)

theorem isJsonWs_toNat {c : Char} (h : isJsonWs c = true) :
    c.toNat = 32 ∨ c.toNat = 9 ∨ c.toNat = 10 ∨ c.toNat = 13 := by
  simp only [isJsonWs, Bool.or_eq_true, beq_iff_eq] at h
  rcases h with (rfl | rfl) | (rfl | rfl) <;> decide

theorem isJsonWs_false_of_digit {c : Char} (hcd : 48 ≤ c.toNat ∧ c.toNat ≤ 57) :
    isJsonWs c = false := by
  rw [Bool.eq_false_iff]
  intro hw
  rcases isJsonWs_toNat hw with h | h | h | h <;> omega

theorem spaces_all_ws (n : Nat) : (spaces n).all isJsonWs = true := by
  induction n with
  | zero => rfl
  | succ k ih =>
    simp only [spaces, List.all_cons, ih, Bool.and_true]
    decide

theorem escapeChars_length_ge (l : List Char) : l.length ≤ (escapeChars l).length := by
  induction l with
  | nil => simp [escapeChars]
  | cons c cs ih =>
    show (c :: cs).length ≤ (escapeChar c ++ escapeChars cs).length
    rw [List.length_append, List.length_cons]
    have : 1 ≤ (escapeChar c).length := by
      rcases escapeChar_decode c with ⟨he, _, _, _⟩ | ⟨t, he, _⟩ <;> rw [he] <;> simp
    omega

/-- The first character of a printed well-formed value is never
whitespace, `]`, `}`, or `,` — the characters that steer the container
parsers. -/
theorem head_notE (c : Char) (hw : isJsonWs c = false) (h1 : (c == ']') = false)
    (h2 : (c == ',') = false) : isJsonWs c = false ∧ ¬c = ']' ∧ ¬c = ',' :=
  ⟨hw, by simpa using h1, by simpa using h2⟩

theorem dumpsVal_head (lvl : Nat) (v : Json) (h : wfV v = true) :
    ∃ c cs, dumpsVal lvl v = c :: cs ∧ isJsonWs c = false ∧ ¬c = ']' ∧ ¬c = ',' := by
  cases v with
  | null => exact ⟨'n', _, rfl, head_notE _ rfl rfl rfl⟩
  | bool b => cases b with
    | true => exact ⟨'t', _, rfl, head_notE _ rfl rfl rfl⟩
    | false => exact ⟨'f', _, rfl, head_notE _ rfl rfl rfl⟩
  | int n =>
    cases n with
    | ofNat m =>
      obtain ⟨hall, hne, _, _⟩ := natToChars_spec m
      obtain ⟨c, cs, hcc⟩ : ∃ c cs, natToChars m = c :: cs := by
        cases hmm : natToChars m with
        | nil => exact absurd hmm hne
        | cons c cs => exact ⟨c, cs, rfl⟩
      have hcd : c.isDigit = true := by
        rw [hcc] at hall
        simp only [List.all_cons, Bool.and_eq_true] at hall
        exact hall.1
      rw [isDigit_iff] at hcd
      refine ⟨c, cs, hcc, isJsonWs_false_of_digit hcd, ?_, ?_⟩
      · intro e; rw [e] at hcd; revert hcd; decide
      · intro e; rw [e] at hcd; revert hcd; decide
    | negSucc k => exact ⟨'-', _, rfl, head_notE _ rfl rfl rfl⟩
  | fracRaw s =>
    have hf : fracLitOk s = true := h
    simp only [fracLitOk, Bool.or_eq_true, beq_iff_eq] at hf
    rcases hf with ((rfl | rfl) | rfl) | hn
    · exact ⟨'N', _, rfl, head_notE _ rfl rfl rfl⟩
    · exact ⟨'I', _, rfl, head_notE _ rfl rfl rfl⟩
    · exact ⟨'-', _, rfl, head_notE _ rfl rfl rfl⟩
    · obtain ⟨c, cs, hcc, hc⟩ := numFracCheck_head _ hn
      refine ⟨c, cs, by rw [show dumpsVal lvl (.fracRaw s) = s.data from rfl, hcc], ?_, ?_, ?_⟩
      · rcases hc with rfl | hd
        · decide
        · rw [isDigit_iff] at hd
          exact isJsonWs_false_of_digit hd
      · rcases hc with rfl | hd
        · decide
        · rw [isDigit_iff] at hd
          intro e; rw [e] at hd; revert hd; decide
      · rcases hc with rfl | hd
        · decide
        · rw [isDigit_iff] at hd
          intro e; rw [e] at hd; revert hd; decide
  | str s => exact ⟨'"', _, rfl, head_notE _ rfl rfl rfl⟩
  | arr xs =>
    cases xs with
    | nil => exact ⟨'[', _, rfl, head_notE _ rfl rfl rfl⟩
    | cons x xs' => exact ⟨'[', _, rfl, head_notE _ rfl rfl rfl⟩
  | obj kvs =>
    cases kvs with
    | nil => exact ⟨'\x7b', _, rfl, head_notE _ rfl rfl rfl⟩
    | cons kv kvs' =>
      obtain ⟨k, v'⟩ := kv
      exact ⟨'\x7b', _, rfl, head_notE _ rfl rfl rfl⟩

/-! ## Dict lemmas -/

theorem dictInsert_not_mem (acc : List (String × Json)) (k : String) (v : Json)
    (h : acc.all (fun p => !(p.1 == k)) = true) : dictInsert acc k v = acc ++ [(k, v)] := by
  induction acc with
  | nil => rfl
  | cons p rest ih =>
    obtain ⟨k', v'⟩ := p
    simp only [List.all_cons, Bool.and_eq_true, Bool.not_eq_true', beq_eq_false_iff_ne] at h
    rw [dictInsert.eq_2, if_neg h.1]
    rw [ih (by simpa using h.2)]
    rfl

theorem keysUniq_head_sep (acc ps : List (String × Json)) (k : String) (v : Json)
    (h : keysUniq (acc ++ (k, v) :: ps) = true) :
    acc.all (fun p => !(p.1 == k)) = true := by
  induction acc with
  | nil => rfl
  | cons p rest ih =>
    obtain ⟨k', v'⟩ := p
    simp only [List.cons_append, keysUniq, Bool.and_eq_true, Bool.not_eq_true'] at h
    simp only [List.all_cons, Bool.and_eq_true, Bool.not_eq_true', beq_eq_false_iff_ne]
    refine ⟨?_, by simpa using ih h.2⟩
    intro e
    have hmem : ((rest ++ (k, v) :: ps).any fun p => p.1 == k') = true := by
      rw [List.any_append]
      simp [e]
    simp only [List.append_eq] at h
    rw [hmem] at h
    exact Bool.noConfusion h.1

theorem dictOfPairs_go (ps : List (String × Json)) :
    ∀ acc, keysUniq (acc ++ ps) = true →
      ps.foldl (fun a p => dictInsert a p.1 p.2) acc = acc ++ ps := by
  induction ps with
  | nil => intro acc _; simp
  | cons p rest ih =>
    intro acc hu
    obtain ⟨k, v⟩ := p
    rw [List.foldl_cons]
    rw [show dictInsert acc k v = acc ++ [(k, v)] from
      dictInsert_not_mem acc k v (keysUniq_head_sep acc rest k v hu)]
    rw [ih (acc ++ [(k, v)]) (by rw [List.append_assoc]; simpa using hu)]
    simp

theorem dictOfPairs_id (ps : List (String × Json)) (h : keysUniq ps = true) :
    dictOfPairs ps = ps := by
  have := dictOfPairs_go ps [] (by simpa using h)
  simpa [dictOfPairs] using this

theorem dictInsert_any_key (acc : List (String × Json)) (k : String) (v : Json)
    (q : String) :
    (dictInsert acc k v).any (fun p => p.1 == q) =
      (acc.any (fun p => p.1 == q) || (k == q)) := by
  induction acc with
  | nil => simp [dictInsert]
  | cons p rest ih =>
    obtain ⟨k', v'⟩ := p
    rw [dictInsert.eq_2]
    by_cases hk : k' = k
    · rw [if_pos hk, hk]
      simp only [List.any_cons]
      cases hq : (k == q) <;> simp [hq]
    · rw [if_neg hk]
      simp only [List.any_cons, ih]
      cases k' == q <;> simp

theorem keysUniq_dictInsert (acc : List (String × Json)) (k : String) (v : Json)
    (h : keysUniq acc = true) : keysUniq (dictInsert acc k v) = true := by
  induction acc with
  | nil => simp [dictInsert, keysUniq]
  | cons p rest ih =>
    obtain ⟨k', v'⟩ := p
    simp only [keysUniq, Bool.and_eq_true, Bool.not_eq_true'] at h
    rw [dictInsert.eq_2]
    by_cases hk : k' = k
    · rw [if_pos hk]
      simp only [keysUniq, Bool.and_eq_true, Bool.not_eq_true']
      exact ⟨h.1, h.2⟩
    · rw [if_neg hk]
      simp only [keysUniq, Bool.and_eq_true, Bool.not_eq_true']
      refine ⟨?_, ih h.2⟩
      rw [dictInsert_any_key]
      simp only [Bool.or_eq_false_iff]
      refine ⟨h.1, ?_⟩
      rw [beq_eq_false_iff_ne]
      exact fun e => hk e.symm

theorem wfMembers_dictInsert (acc : List (String × Json)) (k : String) (v : Json)
    (ha : wfMembers acc = true) (hv : wfV v = true) :
    wfMembers (dictInsert acc k v) = true := by
  induction acc with
  | nil => simp [dictInsert, wfMembers, hv]
  | cons p rest ih =>
    obtain ⟨k', v'⟩ := p
    rw [wfMembers.eq_2, Bool.and_eq_true] at ha
    rw [dictInsert.eq_2]
    by_cases hk : k' = k
    · rw [if_pos hk]
      rw [wfMembers.eq_2, Bool.and_eq_true]
      exact ⟨hv, ha.2⟩
    · rw [if_neg hk]
      rw [wfMembers.eq_2, Bool.and_eq_true]
      exact ⟨ha.1, ih ha.2⟩

theorem keysUniq_dictOfPairs (ps : List (String × Json)) :
    keysUniq (dictOfPairs ps) = true := by
  have hgo : ∀ acc, keysUniq acc = true →
      keysUniq (ps.foldl (fun a p => dictInsert a p.1 p.2) acc) = true := by
    induction ps with
    | nil => intro acc h; simpa using h
    | cons p rest ih =>
      intro acc h
      rw [List.foldl_cons]
      exact ih _ (keysUniq_dictInsert acc p.1 p.2 h)
  exact hgo [] rfl

theorem wfMembers_foldl (ps : List (String × Json)) :
    ∀ acc, wfMembers acc = true → wfMembers ps = true →
      wfMembers (ps.foldl (fun a p => dictInsert a p.1 p.2) acc) = true := by
  induction ps with
  | nil => intro acc ha _; simpa using ha
  | cons p rest ih =>
    intro acc ha hp
    obtain ⟨k, v⟩ := p
    rw [wfMembers.eq_2, Bool.and_eq_true] at hp
    rw [List.foldl_cons]
    exact ih _ (wfMembers_dictInsert acc k v ha hp.1) hp.2

theorem wfMembers_dictOfPairs (ps : List (String × Json)) (h : wfMembers ps = true) :
    wfMembers (dictOfPairs ps) = true :=
  wfMembers_foldl ps [] rfl h

/-! ## Decoder step lemmas on printed heads -/

theorem fuelV_pos (v : Json) : 1 ≤ fuelV v := by
  cases v <;> simp [fuelV]

theorem fuelElems_pos (xs : List Json) : 1 ≤ fuelElems xs := by
  cases xs with
  | nil => simp [fuelElems]
  | cons x xs => simp [fuelElems]

theorem fuelMembers_pos (kvs : List (String × Json)) : 1 ≤ fuelMembers kvs := by
  cases kvs with
  | nil => simp [fuelMembers]
  | cons p kvs => obtain ⟨k, v⟩ := p; simp [fuelMembers]

theorem spaces_length (n : Nat) : (spaces n).length = n := by
  induction n with
  | zero => rfl
  | succ k ih => simp [spaces, ih]

theorem pv_str (f : Nat) (r : List Char) :
    parseValue (f + 1) ('"' :: r) =
      (parseStringBody (r.length + 1) r).map (fun p => (.str ⟨p.1⟩, p.2)) := rfl

theorem pv_arr (f : Nat) (r : List Char) :
    parseValue (f + 1) ('[' :: r) =
      (parseElems f (r.dropWhile isJsonWs) true).map (fun p => (.arr p.1, p.2)) := rfl

theorem pv_obj (f : Nat) (r : List Char) :
    parseValue (f + 1) ('\x7b' :: r) =
      (parseMembers f (r.dropWhile isJsonWs) true).map
        (fun p => (.obj (dictOfPairs p.1), p.2)) := rfl

theorem pv_num (f : Nat) (c : Char) (cs : List Char)
    (h : (c.isDigit = true ∧ ¬c = '-') ∨
      (c = '-' ∧ ∃ d ds, cs = d :: ds ∧ d.isDigit = true)) :
    parseValue (f + 1) (c :: cs) = parseNumber (c :: cs) := by
  rcases h with ⟨hd, _⟩ | ⟨rfl, d, ds, rfl, hd⟩
  · rw [isDigit_iff] at hd
    have h10 : c.toNat = 48 ∨ c.toNat = 49 ∨ c.toNat = 50 ∨ c.toNat = 51 ∨
        c.toNat = 52 ∨ c.toNat = 53 ∨ c.toNat = 54 ∨ c.toNat = 55 ∨
        c.toNat = 56 ∨ c.toNat = 57 := by omega
    rcases h10 with h|h|h|h|h|h|h|h|h|h <;>
      first
        | (rw [show c = '0' from char_eq_of_toNat h]; rfl)
        | (rw [show c = '1' from char_eq_of_toNat h]; rfl)
        | (rw [show c = '2' from char_eq_of_toNat h]; rfl)
        | (rw [show c = '3' from char_eq_of_toNat h]; rfl)
        | (rw [show c = '4' from char_eq_of_toNat h]; rfl)
        | (rw [show c = '5' from char_eq_of_toNat h]; rfl)
        | (rw [show c = '6' from char_eq_of_toNat h]; rfl)
        | (rw [show c = '7' from char_eq_of_toNat h]; rfl)
        | (rw [show c = '8' from char_eq_of_toNat h]; rfl)
        | (rw [show c = '9' from char_eq_of_toNat h]; rfl)
  · rw [isDigit_iff] at hd
    have h10 : d.toNat = 48 ∨ d.toNat = 49 ∨ d.toNat = 50 ∨ d.toNat = 51 ∨
        d.toNat = 52 ∨ d.toNat = 53 ∨ d.toNat = 54 ∨ d.toNat = 55 ∨
        d.toNat = 56 ∨ d.toNat = 57 := by omega
    rcases h10 with h|h|h|h|h|h|h|h|h|h <;>
      first
        | (rw [show d = '0' from char_eq_of_toNat h]; rfl)
        | (rw [show d = '1' from char_eq_of_toNat h]; rfl)
        | (rw [show d = '2' from char_eq_of_toNat h]; rfl)
        | (rw [show d = '3' from char_eq_of_toNat h]; rfl)
        | (rw [show d = '4' from char_eq_of_toNat h]; rfl)
        | (rw [show d = '5' from char_eq_of_toNat h]; rfl)
        | (rw [show d = '6' from char_eq_of_toNat h]; rfl)
        | (rw [show d = '7' from char_eq_of_toNat h]; rfl)
        | (rw [show d = '8' from char_eq_of_toNat h]; rfl)
        | (rw [show d = '9' from char_eq_of_toNat h]; rfl)

theorem parseElems_cont (f : Nat) (c : Char) (cs : List Char) (first : Bool)
    (h : ¬(c = ']' ∧ first = true)) :
    parseElems (f + 1) (c :: cs) first =
      match parseValue f (c :: cs) with
      | none => none
      | some (v, r) =>
        match r.dropWhile isJsonWs with
        | ']' :: r2 => some ([v], r2)
        | ',' :: r2 =>
          (parseElems f (r2.dropWhile isJsonWs) false).map (fun p => (v :: p.1, p.2))
        | _ => none := by
  have hcond : ¬((c :: cs).head? = some ']' ∧ first = true) := by
    simpa using h
  rw [parseElems.eq_2, if_neg hcond]

theorem parseMembers_quote (f : Nat) (r : List Char) (first : Bool) :
    parseMembers (f + 1) ('"' :: r) first =
      match parseStringBody (r.length + 1) r with
      | none => none
      | some (ks, r1) =>
        match r1.dropWhile isJsonWs with
        | ':' :: r2 =>
          match parseValue f (r2.dropWhile isJsonWs) with
          | none => none
          | some (v, r3) =>
            match r3.dropWhile isJsonWs with
            | '\x7d' :: r4 => some ([(⟨ks⟩, v)], r4)
            | ',' :: r4 =>
              (parseMembers f (r4.dropWhile isJsonWs) false).map
                (fun p => ((⟨ks⟩, v) :: p.1, p.2))
            | _ => none
        | _ => none := rfl

/-! ## Whitespace-skipping facts about printed output -/

theorem dw_comma (r : List Char) : (',' :: r).dropWhile isJsonWs = ',' :: r :=
  List.dropWhile_cons_of_neg (by decide)

theorem dw_colon (r : List Char) : (':' :: r).dropWhile isJsonWs = ':' :: r :=
  List.dropWhile_cons_of_neg (by decide)

theorem dw_rbracket (r : List Char) : (']' :: r).dropWhile isJsonWs = ']' :: r :=
  List.dropWhile_cons_of_neg (by decide)

theorem dw_rbrace (r : List Char) : ('\x7d' :: r).dropWhile isJsonWs = '\x7d' :: r :=
  List.dropWhile_cons_of_neg (by decide)

theorem dw_space (r : List Char) : (' ' :: r).dropWhile isJsonWs = r.dropWhile isJsonWs :=
  List.dropWhile_cons_of_pos (by decide)

theorem dw_newline (r : List Char) : ('\n' :: r).dropWhile isJsonWs = r.dropWhile isJsonWs :=
  List.dropWhile_cons_of_pos (by decide)

theorem dw_spaces (n : Nat) (r : List Char) :
    (spaces n ++ r).dropWhile isJsonWs = r.dropWhile isJsonWs := by
  induction n with
  | zero => rfl
  | succ m ih =>
    rw [spaces, List.cons_append, List.dropWhile_cons_of_pos (by decide)]
    exact ih

theorem dropWhile_ws_print (lvl : Nat) (v : Json) (t : List Char) (h : wfV v = true) :
    (dumpsVal lvl v ++ t).dropWhile isJsonWs = dumpsVal lvl v ++ t := by
  obtain ⟨c, cs, hcc, hws, _, _⟩ := dumpsVal_head lvl v h
  rw [hcc, List.cons_append, List.dropWhile_cons_of_neg (by simp [hws])]

theorem encodeString_append (k : String) (t : List Char) :
    encodeString k ++ t = '"' :: (escapeChars k.data ++ ('"' :: t)) := by
  show ('"' :: escapeChars k.data) ++ ['"'] ++ t = _
  simp [List.append_assoc]

theorem headFails_items (lvl : Nat) (xs : List Json) (t : List Char) :
    headFails numContinuing (dumpsItemsRest lvl xs ++ '\n' :: t) = true := by
  cases xs with
  | nil => rfl
  | cons x xs => rfl

theorem headFails_pairs (lvl : Nat) (kvs : List (String × Json)) (t : List Char) :
    headFails numContinuing (dumpsPairsRest lvl kvs ++ '\n' :: t) = true := by
  cases kvs with
  | nil => rfl
  | cons p kvs => obtain ⟨k, v⟩ := p; rfl

/-! ## Number-head lemmas for the decoder round trip -/

theorem numSign_decomp (l : List Char) : l = numSign l ++ l.drop (numSign l).length := by
  cases l with
  | nil => rfl
  | cons c cs =>
    rw [numSign.eq_1]
    by_cases h : c = '-'
    · rw [if_pos h, h]
      rfl
    · rw [if_neg h]
      rfl

theorem numFracCheck_decomp (l : List Char) (h : numFracCheck l = true) :
    ∃ sign ip fp ep, NumParts sign ip fp ep ∧ l = sign ++ (ip ++ (fp ++ ep)) := by
  have hd := numSign_decomp l
  simp only [numFracCheck] at h
  split at h
  · exact absurd h (by simp)
  · rename_i ip r2 hmi
    obtain ⟨hia, hib⟩ := matchIntPart_shape _ _ _ hmi
    obtain ⟨hfa, hfb⟩ := matchFracPart_shape r2
    obtain ⟨hea, heb⟩ := matchExpPart_shape (matchFracPart r2).2
    rcases hfp : matchFracPart r2 with ⟨fp1, fp2⟩
    rw [hfp] at hfa hfb hea heb h
    dsimp only at hfa hfb hea heb h
    rcases hep : matchExpPart fp2 with ⟨ep1, ep2⟩
    rw [hep] at hea heb h
    dsimp only at hea heb h
    rw [Bool.and_eq_true] at h
    have hep2 : ep2 = [] := by
      have h2 := h.2
      rwa [List.isEmpty_iff] at h2
    have hne : fp1 ≠ [] ∨ ep1 ≠ [] := by
      have h1 := h.1
      rw [Bool.or_eq_true] at h1
      rcases h1 with h1 | h1
      · left; simpa using h1
      · right; simpa using h1
    refine ⟨numSign l, ip, fp1, ep1,
      ⟨numSign_cases l, hib, hfb, heb, hne⟩, ?_⟩
    conv_lhs => rw [hd]
    rw [hia, hfa, hea, hep2, List.append_nil]

theorem pv_fracRaw (f : Nat) (s : String) (rest : List Char)
    (hck : numFracCheck s.data = true)
    (hrest : headFails numContinuing rest = true) :
    parseValue (f + 1) (s.data ++ rest) = some (.fracRaw s, rest) := by
  obtain ⟨sign, ip, fp, ep, hparts, hdec⟩ := numFracCheck_decomp s.data hck
  have hfr : (⟨sign ++ ip ++ fp ++ ep⟩ : String) = s := by
    have h1 : sign ++ ip ++ fp ++ ep = s.data := by
      rw [hdec]; simp [List.append_assoc]
    rw [h1]
  have hpn := parseNumber_parts sign ip fp ep rest hparts hrest
  rw [hfr] at hpn
  have harr : s.data ++ rest = sign ++ (ip ++ (fp ++ (ep ++ rest))) := by
    rw [hdec]; simp [List.append_assoc]
  rw [harr]
  obtain ⟨hsig, hip, _, _, _⟩ := hparts
  obtain ⟨d, ds, hdip, hddig⟩ : ∃ d ds, ip = d :: ds ∧ d.isDigit = true := by
    rcases hip with rfl | ⟨c, ds, rfl, h1, h9, _⟩
    · exact ⟨'0', [], rfl, by decide⟩
    · refine ⟨c, ds, rfl, ?_⟩
      rw [isDigit_iff]
      rw [charLe_toNat] at h1 h9
      have h1' : 49 ≤ c.toNat := h1
      have h9' : c.toNat ≤ 57 := h9
      omega
  rcases hsig with rfl | rfl
  · rw [List.nil_append] at hpn ⊢
    rw [hdip] at hpn ⊢
    rw [List.cons_append] at hpn ⊢
    rw [pv_num f d _ (Or.inl ⟨hddig, digit_ne_dash hddig⟩)]
    exact hpn
  · rw [show (['-'] : List Char) ++ (ip ++ (fp ++ (ep ++ rest))) =
      '-' :: (ip ++ (fp ++ (ep ++ rest))) from rfl] at hpn ⊢
    rw [hdip] at hpn ⊢
    rw [List.cons_append] at hpn ⊢
    rw [pv_num f '-' _ (Or.inr ⟨rfl, d, ds ++ (fp ++ (ep ++ rest)), rfl, hddig⟩)]
    exact hpn

theorem pv_int (f : Nat) (n : Int) (rest : List Char)
    (hrest : headFails numContinuing rest = true) :
    parseValue (f + 1) (intToChars n ++ rest) = some (.int n, rest) := by
  have hpn := parseNumber_int n rest hrest
  cases n with
  | ofNat m =>
    have hpn' : parseNumber (natToChars m ++ rest) = some (.int (.ofNat m), rest) := hpn
    obtain ⟨hall, hne, _, _⟩ := natToChars_spec m
    obtain ⟨c, cs, hcc⟩ : ∃ c cs, natToChars m = c :: cs := by
      cases hmm : natToChars m with
      | nil => exact absurd hmm hne
      | cons c cs => exact ⟨c, cs, rfl⟩
    have hcd : c.isDigit = true := by
      rw [hcc] at hall
      simp only [List.all_cons, Bool.and_eq_true] at hall
      exact hall.1
    rw [hcc, List.cons_append] at hpn'
    have hgoal : parseValue (f + 1) (natToChars m ++ rest) = some (.int (.ofNat m), rest) := by
      rw [hcc, List.cons_append, pv_num f c _ (Or.inl ⟨hcd, digit_ne_dash hcd⟩)]
      exact hpn'
    exact hgoal
  | negSucc j =>
    have hpn' : parseNumber ('-' :: (natToChars (j + 1) ++ rest)) =
        some (.int (.negSucc j), rest) := hpn
    obtain ⟨hall, _, _, hhead⟩ := natToChars_spec (j + 1)
    obtain ⟨c, cs, hcc, h1, h9⟩ := hhead (by omega)
    have hcd : c.isDigit = true := by
      rw [isDigit_iff]
      rw [charLe_toNat] at h1 h9
      have h1' : 49 ≤ c.toNat := h1
      have h9' : c.toNat ≤ 57 := h9
      omega
    rw [hcc, List.cons_append] at hpn'
    have hgoal : parseValue (f + 1) ('-' :: (natToChars (j + 1) ++ rest)) =
        some (.int (.negSucc j), rest) := by
      rw [hcc, List.cons_append, pv_num f '-' _ (Or.inr ⟨rfl, c, cs ++ rest, rfl, hcd⟩)]
      exact hpn'
    exact hgoal

theorem dropWhile_ws_key (k : String) (t : List Char) :
    (encodeString k ++ t).dropWhile isJsonWs = encodeString k ++ t := by
  rw [encodeString_append, List.dropWhile_cons_of_neg (by decide)]

/-- The decoder inverts `json.dumps(·, indent=2)` output: at every level,
a printed well-formed value followed by a safe continuation parses back
to exactly that value. -/
theorem parse_dumps (fuel : Nat) :
    (∀ lvl v rest, wfV v = true → fuelV v ≤ fuel →
      headFails numContinuing rest = true →
      parseValue fuel (dumpsVal lvl v ++ rest) = some (v, rest)) ∧
    (∀ lvl lvl0 x xs rest (first : Bool), wfV x = true → wfElems xs = true →
      fuelV x + fuelElems xs + 1 ≤ fuel →
      parseElems fuel
        (dumpsVal lvl x ++ (dumpsItemsRest lvl xs ++ ('\n' :: (spaces lvl0 ++ (']' :: rest)))))
        first = some (x :: xs, rest)) ∧
    (∀ lvl lvl0 k v kvs rest (first : Bool), wfV v = true → wfMembers kvs = true →
      fuelV v + fuelMembers kvs + 1 ≤ fuel →
      parseMembers fuel
        (encodeString k ++ (':' :: ' ' :: (dumpsVal lvl v ++
          (dumpsPairsRest lvl kvs ++ ('\n' :: (spaces lvl0 ++ ('\x7d' :: rest)))))))
        first = some ((k, v) :: kvs, rest)) := by
  induction fuel with
  | zero =>
    refine ⟨?_, ?_, ?_⟩
    · intro lvl v rest _ hf _
      have := fuelV_pos v
      omega
    · intro lvl lvl0 x xs rest first _ _ hf
      have := fuelV_pos x
      omega
    · intro lvl lvl0 k v kvs rest first _ _ hf
      have := fuelV_pos v
      omega
  | succ f ih =>
    obtain ⟨ihV, ihE, ihM⟩ := ih
    refine ⟨?_, ?_, ?_⟩
    · intro lvl v rest hwf hfuel hrest
      cases v with
      | null => rfl
      | bool b => cases b <;> rfl
      | int n => exact pv_int f n rest hrest
      | str s =>
        have hes : dumpsVal lvl (.str s) ++ rest =
            '"' :: (escapeChars s.data ++ ('"' :: rest)) := by
          show ('"' :: escapeChars s.data) ++ ['"'] ++ rest = _
          simp [List.append_assoc]
        rw [hes, pv_str]
        rw [psb_escape s.data _ rest (by
          have := escapeChars_length_ge s.data
          simp only [List.length_append, List.length_cons]
          omega)]
        rfl
      | fracRaw s =>
        have hok : fracLitOk s = true := hwf
        simp only [fracLitOk, Bool.or_eq_true, beq_iff_eq] at hok
        rcases hok with ((rfl | rfl) | rfl) | hck
        · rfl
        · rfl
        · rfl
        · exact pv_fracRaw f s rest hck hrest
      | arr xs =>
        cases xs with
        | nil =>
          have h2 : fuelV (.arr ([] : List Json)) = 2 := rfl
          rw [h2] at hfuel
          cases f with
          | zero => omega
          | succ f2 => rfl
        | cons x xs =>
          have hwf' : (wfV x && wfElems xs) = true := hwf
          rw [Bool.and_eq_true] at hwf'
          have heq : fuelV (.arr (x :: xs)) = fuelV x + fuelElems xs + 1 + 1 := rfl
          rw [heq] at hfuel
          have hfe : fuelV x + fuelElems xs + 1 ≤ f := by omega
          simp only [dumpsVal, List.cons_append, List.append_assoc, List.singleton_append,
            List.nil_append]
          rw [pv_arr, dw_newline, dw_spaces, dropWhile_ws_print _ x _ hwf'.1]
          rw [ihE (lvl + 2) lvl x xs rest true hwf'.1 hwf'.2 hfe]
          rfl
      | obj kvs =>
        cases kvs with
        | nil =>
          have h2 : fuelV (.obj ([] : List (String × Json))) = 2 := rfl
          rw [h2] at hfuel
          cases f with
          | zero => omega
          | succ f2 => rfl
        | cons p kvs' =>
          obtain ⟨k, v⟩ := p
          have hwf' : (keysUniq ((k, v) :: kvs') && wfMembers ((k, v) :: kvs')) = true := hwf
          rw [Bool.and_eq_true] at hwf'
          have hm : (wfV v && wfMembers kvs') = true := hwf'.2
          rw [Bool.and_eq_true] at hm
          have heq : fuelV (.obj ((k, v) :: kvs')) = fuelV v + fuelMembers kvs' + 1 + 1 := rfl
          rw [heq] at hfuel
          have hfm : fuelV v + fuelMembers kvs' + 1 ≤ f := by omega
          simp only [dumpsVal, List.cons_append, List.append_assoc, List.singleton_append,
            List.nil_append]
          rw [pv_obj, dw_newline, dw_spaces, dropWhile_ws_key]
          rw [ihM (lvl + 2) lvl k v kvs' rest true hm.1 hm.2 hfm]
          show some (Json.obj (dictOfPairs ((k, v) :: kvs')), rest) =
            some (.obj ((k, v) :: kvs'), rest)
          rw [dictOfPairs_id _ hwf'.1]
    · intro lvl lvl0 x xs rest first hx hxs hfuel
      obtain ⟨c, cs, hcc, hws, hrb, hcm⟩ := dumpsVal_head lvl x hx
      cases xs with
      | nil =>
        rw [show fuelElems ([] : List Json) = 1 from rfl] at hfuel
        have hfx : fuelV x ≤ f := by omega
        simp only [dumpsItemsRest, List.nil_append]
        rw [hcc, List.cons_append]
        rw [parseElems_cont f c _ first (fun hcf => hrb hcf.1)]
        have hpv : parseValue f (c :: (cs ++ ('\n' :: (spaces lvl0 ++ (']' :: rest))))) =
            some (x, '\n' :: (spaces lvl0 ++ (']' :: rest))) := by
          rw [← List.cons_append, ← hcc]
          exact ihV lvl x _ hx hfx rfl
        simp only [hpv, dw_newline, dw_spaces, dw_rbracket]
      | cons x2 xs' =>
        have hx2 : (wfV x2 && wfElems xs') = true := hxs
        rw [Bool.and_eq_true] at hx2
        rw [show fuelElems (x2 :: xs') = fuelV x2 + fuelElems xs' + 1 from rfl] at hfuel
        have hfx : fuelV x ≤ f := by
          have := fuelV_pos x2
          have := fuelElems_pos xs'
          omega
        have hfe2 : fuelV x2 + fuelElems xs' + 1 ≤ f := by
          have := fuelV_pos x
          omega
        simp only [dumpsItemsRest, List.cons_append, List.append_assoc]
        rw [hcc, List.cons_append]
        rw [parseElems_cont f c _ first (fun hcf => hrb hcf.1)]
        have hpv : parseValue f (c :: (cs ++ (',' :: ('\n' :: (spaces lvl ++ (dumpsVal lvl x2 ++
            (dumpsItemsRest lvl xs' ++ ('\n' :: (spaces lvl0 ++ (']' :: rest)))))))))) =
            some (x, ',' :: ('\n' :: (spaces lvl ++ (dumpsVal lvl x2 ++
              (dumpsItemsRest lvl xs' ++ ('\n' :: (spaces lvl0 ++ (']' :: rest)))))))) := by
          rw [← List.cons_append, ← hcc]
          exact ihV lvl x _ hx hfx rfl
        simp only [hpv, dw_comma]
        rw [dw_newline, dw_spaces, dropWhile_ws_print _ x2 _ hx2.1]
        rw [ihE lvl lvl0 x2 xs' rest false hx2.1 hx2.2 hfe2]
        rfl
    · intro lvl lvl0 k v kvs rest first hv hkvs hfuel
      rw [encodeString_append, parseMembers_quote]
      have hlen : k.data.length <
          (escapeChars k.data ++ ('"' :: (':' :: ' ' :: (dumpsVal lvl v ++
            (dumpsPairsRest lvl kvs ++ ('\n' :: (spaces lvl0 ++ ('\x7d' :: rest)))))))).length + 1 := by
        have := escapeChars_length_ge k.data
        simp only [List.length_append, List.length_cons]
        omega
      have hpsb : parseStringBody
          ((escapeChars k.data ++ ('"' :: (':' :: ' ' :: (dumpsVal lvl v ++
            (dumpsPairsRest lvl kvs ++ ('\n' :: (spaces lvl0 ++ ('\x7d' :: rest)))))))).length + 1)
          (escapeChars k.data ++ ('"' :: (':' :: ' ' :: (dumpsVal lvl v ++
            (dumpsPairsRest lvl kvs ++ ('\n' :: (spaces lvl0 ++ ('\x7d' :: rest))))))))
          = some (k.data, ':' :: ' ' :: (dumpsVal lvl v ++
            (dumpsPairsRest lvl kvs ++ ('\n' :: (spaces lvl0 ++ ('\x7d' :: rest)))))) :=
        psb_escape k.data _ _ hlen
      simp only [hpsb, dw_colon, dw_space]
      have hpv : parseValue f (dumpsVal lvl v ++
          (dumpsPairsRest lvl kvs ++ ('\n' :: (spaces lvl0 ++ ('\x7d' :: rest))))) =
          some (v, dumpsPairsRest lvl kvs ++ ('\n' :: (spaces lvl0 ++ ('\x7d' :: rest)))) :=
        ihV lvl v _ hv (by have := fuelMembers_pos kvs; omega) (headFails_pairs lvl kvs _)
      rw [dropWhile_ws_print _ v _ hv]
      simp only [hpv]
      cases kvs with
      | nil =>
        simp only [dumpsPairsRest, List.nil_append, dw_newline, dw_spaces, dw_rbrace]
      | cons p kvs' =>
        obtain ⟨k2, v2⟩ := p
        have h1 : (wfV v2 && wfMembers kvs') = true := hkvs
        rw [Bool.and_eq_true] at h1
        rw [show fuelMembers ((k2, v2) :: kvs') = fuelV v2 + fuelMembers kvs' + 1 from rfl]
          at hfuel
        have hfm2 : fuelV v2 + fuelMembers kvs' + 1 ≤ f := by
          have := fuelV_pos v
          omega
        simp only [dumpsPairsRest, List.cons_append, List.append_assoc, dw_comma]
        rw [dw_newline, dw_spaces, dropWhile_ws_key]
        rw [ihM lvl lvl0 k2 v2 kvs' rest false h1.1 h1.2 hfm2]
        rfl

/-! ## Fuel bound: the `len + 1` fuel of `jsonLoads` suffices for printed values -/

theorem fuelLen (n : Nat) :
    (∀ v, sizeOf v ≤ n → ∀ lvl, fuelV v ≤ (dumpsVal lvl v).length + 1) ∧
    (∀ xs, sizeOf xs ≤ n → ∀ lvl, fuelElems xs ≤ (dumpsItemsRest lvl xs).length + 3) ∧
    (∀ kvs, sizeOf kvs ≤ n → ∀ lvl,
      fuelMembers kvs ≤ (dumpsPairsRest lvl kvs).length + 3) := by
  induction n with
  | zero =>
    refine ⟨?_, ?_, ?_⟩
    · intro v hs lvl
      exfalso
      cases v <;> simp at hs
    · intro xs hs lvl
      exfalso
      cases xs <;> simp at hs
    · intro kvs hs lvl
      exfalso
      cases kvs <;> simp at hs
  | succ m ih =>
    obtain ⟨ihV, ihE, ihM⟩ := ih
    refine ⟨?_, ?_, ?_⟩
    · intro v hs lvl
      cases v with
      | null => simp [fuelV, dumpsVal]
      | bool b => cases b <;> simp [fuelV, dumpsVal]
      | int n => simp only [fuelV]; omega
      | fracRaw s => simp only [fuelV]; omega
      | str s => simp only [fuelV]; omega
      | arr xs =>
        cases xs with
        | nil => simp [fuelV, fuelElems, dumpsVal]
        | cons x xs' =>
          simp only [Json.arr.sizeOf_spec, List.cons.sizeOf_spec] at hs
          have hx : sizeOf x ≤ m := by omega
          have hxs' : sizeOf xs' ≤ m := by omega
          have hbx := ihV x hx (lvl + 2)
          have hbxs := ihE xs' hxs' (lvl + 2)
          rw [show fuelV (.arr (x :: xs')) = fuelV x + fuelElems xs' + 1 + 1 from rfl]
          simp only [dumpsVal, List.length_append, List.length_cons, List.length_nil,
            spaces_length]
          omega
      | obj kvs =>
        cases kvs with
        | nil => simp [fuelV, fuelMembers, dumpsVal]
        | cons p kvs' =>
          obtain ⟨k, v⟩ := p
          simp only [Json.obj.sizeOf_spec, List.cons.sizeOf_spec, Prod.mk.sizeOf_spec] at hs
          have hv : sizeOf v ≤ m := by omega
          have hkvs' : sizeOf kvs' ≤ m := by omega
          have hbv := ihV v hv (lvl + 2)
          have hbkvs := ihM kvs' hkvs' (lvl + 2)
          rw [show fuelV (.obj ((k, v) :: kvs')) = fuelV v + fuelMembers kvs' + 1 + 1 from rfl]
          simp only [dumpsVal, encodeString, List.length_append, List.length_cons,
            List.length_nil, spaces_length]
          omega
    · intro xs hs lvl
      cases xs with
      | nil => simp [fuelElems, dumpsItemsRest]
      | cons x xs' =>
        simp only [List.cons.sizeOf_spec] at hs
        have hx : sizeOf x ≤ m := by omega
        have hxs' : sizeOf xs' ≤ m := by omega
        have hbx := ihV x hx lvl
        have hbxs := ihE xs' hxs' lvl
        rw [show fuelElems (x :: xs') = fuelV x + fuelElems xs' + 1 from rfl]
        simp only [dumpsItemsRest, List.length_append, List.length_cons, spaces_length]
        omega
    · intro kvs hs lvl
      cases kvs with
      | nil => simp [fuelMembers, dumpsPairsRest]
      | cons p kvs' =>
        obtain ⟨k, v⟩ := p
        simp only [List.cons.sizeOf_spec, Prod.mk.sizeOf_spec] at hs
        have hv : sizeOf v ≤ m := by omega
        have hkvs' : sizeOf kvs' ≤ m := by omega
        have hbv := ihV v hv lvl
        have hbkvs := ihM kvs' hkvs' lvl
        rw [show fuelMembers ((k, v) :: kvs') = fuelV v + fuelMembers kvs' + 1 from rfl]
        simp only [dumpsPairsRest, encodeString, List.length_append, List.length_cons,
          List.length_nil, spaces_length]
        omega

theorem fuelV_le_dumps (v : Json) (lvl : Nat) : fuelV v ≤ (dumpsVal lvl v).length + 1 :=
  (fuelLen (sizeOf v)).1 v le_rfl lvl

/-- `json.loads` inverts `json.dumps(·, indent=2)` on every well-formed
value: the round trip of C7's terminal normalization. -/
theorem jsonLoads_dumps (v : Json) (h : wfV v = true) :
    jsonLoads (jsonDumps v) = some v := by
  have hdata : (jsonDumps v).data = dumpsVal 0 v := rfl
  have hdw : (dumpsVal 0 v).dropWhile isJsonWs = dumpsVal 0 v := by
    simpa using dropWhile_ws_print 0 v [] h
  have hpv : parseValue ((jsonDumps v).length + 1) (dumpsVal 0 v) = some (v, []) := by
    have h2 := (parse_dumps ((jsonDumps v).length + 1)).1 0 v [] h
      (by
        have hb := fuelV_le_dumps v 0
        have hlen : (jsonDumps v).length = (dumpsVal 0 v).length := rfl
        omega)
      rfl
    rw [List.append_nil] at h2
    exact h2
  simp only [jsonLoads, hdata, hdw, hpv]
  rfl

/-! ## One-step unfoldings of the container parsers -/

theorem parseElems_step (f : Nat) (l : List Char) (first : Bool) :
    parseElems (f + 1) l first =
      if l.head? = some ']' ∧ first = true then some ([], l.tail)
      else
        match parseValue f l with
        | none => none
        | some (v, r) =>
          match r.dropWhile isJsonWs with
          | ']' :: r2 => some ([v], r2)
          | ',' :: r2 =>
            (parseElems f (r2.dropWhile isJsonWs) false).map (fun p => (v :: p.1, p.2))
          | _ => none := rfl

theorem parseMembers_step (f : Nat) (l : List Char) (first : Bool) :
    parseMembers (f + 1) l first =
      if l.head? = some '\x7d' ∧ first = true then some ([], l.tail)
      else
        match l with
        | '"' :: r =>
          match parseStringBody (r.length + 1) r with
          | none => none
          | some (ks, r1) =>
            match r1.dropWhile isJsonWs with
            | ':' :: r2 =>
              match parseValue f (r2.dropWhile isJsonWs) with
              | none => none
              | some (v, r3) =>
                match r3.dropWhile isJsonWs with
                | '\x7d' :: r4 => some ([(⟨ks⟩, v)], r4)
                | ',' :: r4 =>
                  (parseMembers f (r4.dropWhile isJsonWs) false).map
                    (fun p => ((⟨ks⟩, v) :: p.1, p.2))
                | _ => none
            | _ => none
        | _ => none := rfl

/-! ## Decoded values are well-formed -/

theorem parse_wf (fuel : Nat) :
    (∀ l v r, parseValue fuel l = some (v, r) → wfV v = true) ∧
    (∀ l first vs r, parseElems fuel l first = some (vs, r) → wfElems vs = true) ∧
    (∀ l first ps r, parseMembers fuel l first = some (ps, r) → wfMembers ps = true) := by
  induction fuel with
  | zero =>
    refine ⟨?_, ?_, ?_⟩
    · intro l v r h
      simp [parseValue] at h
    · intro l first vs r h
      simp [parseElems] at h
    · intro l first ps r h
      simp [parseMembers] at h
  | succ f ih =>
    obtain ⟨ihV, ihE, ihM⟩ := ih
    refine ⟨?_, ?_, ?_⟩
    · intro l v r h
      simp only [parseValue.eq_def] at h
      split at h
      · rcases Option.map_eq_some'.mp h with ⟨p, _, hpe⟩
        simp only [Prod.mk.injEq] at hpe
        rw [← hpe.1]
        rfl
      · rcases Option.map_eq_some'.mp h with ⟨p, hp, hpe⟩
        simp only [Prod.mk.injEq] at hpe
        rw [← hpe.1]
        show (keysUniq (dictOfPairs p.1) && wfMembers (dictOfPairs p.1)) = true
        rw [Bool.and_eq_true]
        exact ⟨keysUniq_dictOfPairs p.1, wfMembers_dictOfPairs p.1 (ihM _ _ _ _ hp)⟩
      · rcases Option.map_eq_some'.mp h with ⟨p, hp, hpe⟩
        simp only [Prod.mk.injEq] at hpe
        rw [← hpe.1]
        exact ihE _ _ _ _ hp
      · split at h
        · simp only [Option.some.injEq, Prod.mk.injEq] at h
          rw [← h.1]
          rfl
        · split at h
          · simp only [Option.some.injEq, Prod.mk.injEq] at h
            rw [← h.1]
            rfl
          · split at h
            · simp only [Option.some.injEq, Prod.mk.injEq] at h
              rw [← h.1]
              rfl
            · split at h
              · simp only [Option.some.injEq, Prod.mk.injEq] at h
                rw [← h.1]
                rfl
              · split at h
                · simp only [Option.some.injEq, Prod.mk.injEq] at h
                  rw [← h.1]
                  rfl
                · split at h
                  · simp only [Option.some.injEq, Prod.mk.injEq] at h
                    rw [← h.1]
                    rfl
                  · exact parseNumber_wf l v r h
    · intro l first vs r h
      rw [parseElems_step] at h
      split at h
      · simp only [Option.some.injEq, Prod.mk.injEq] at h
        rw [← h.1]
        rfl
      · split at h
        · exact Option.noConfusion h
        · rename_i v' r' hpv
          split at h
          · simp only [Option.some.injEq, Prod.mk.injEq] at h
            rw [← h.1]
            show (wfV v' && wfElems []) = true
            rw [Bool.and_eq_true]
            exact ⟨ihV _ _ _ hpv, rfl⟩
          · rcases Option.map_eq_some'.mp h with ⟨p, hp, hpe⟩
            simp only [Prod.mk.injEq] at hpe
            rw [← hpe.1]
            show (wfV v' && wfElems p.1) = true
            rw [Bool.and_eq_true]
            exact ⟨ihV _ _ _ hpv, ihE _ _ _ _ hp⟩
          · exact Option.noConfusion h
    · intro l first ps r h
      rw [parseMembers_step] at h
      split at h
      · simp only [Option.some.injEq, Prod.mk.injEq] at h
        rw [← h.1]
        rfl
      · split at h
        · rename_i r0
          split at h
          · exact Option.noConfusion h
          · rename_i ks r1 hsb
            split at h
            · split at h
              · exact Option.noConfusion h
              · rename_i v' r3 hpv
                split at h
                · simp only [Option.some.injEq, Prod.mk.injEq] at h
                  rw [← h.1]
                  show (wfV v' && wfMembers []) = true
                  rw [Bool.and_eq_true]
                  exact ⟨ihV _ _ _ hpv, rfl⟩
                · rcases Option.map_eq_some'.mp h with ⟨p, hp, hpe⟩
                  simp only [Prod.mk.injEq] at hpe
                  rw [← hpe.1]
                  show (wfV v' && wfMembers p.1) = true
                  rw [Bool.and_eq_true]
                  exact ⟨ihV _ _ _ hpv, ihM _ _ _ _ hp⟩
                · exact Option.noConfusion h
            · exact Option.noConfusion h
        · exact Option.noConfusion h

theorem jsonLoads_wf (s : String) (v : Json) (h : jsonLoads s = some v) : wfV v = true := by
  simp only [jsonLoads] at h
  split at h
  · rename_i v' rest hpv
    split at h
    · simp only [Option.some.injEq] at h
      rw [← h]
      exact (parse_wf _).1 _ _ _ hpv
    · exact Option.noConfusion h
  · exact Option.noConfusion h

theorem objGet_wf (kvs : List (String × Json)) (key : String) (v : Json)
    (hm : wfMembers kvs = true) (h : objGet kvs key = some v) : wfV v = true := by
  induction kvs with
  | nil => exact Option.noConfusion h
  | cons p rest ih =>
    obtain ⟨k', v'⟩ := p
    have hm' : (wfV v' && wfMembers rest) = true := hm
    rw [Bool.and_eq_true] at hm'
    by_cases hk : k' = key
    · rw [objGet.eq_2, if_pos hk] at h
      simp only [Option.some.injEq] at h
      rw [← h]
      exact hm'.1
    · rw [objGet.eq_2, if_neg hk] at h
      exact ih hm'.2 h

/-! ## Claims C7 and C2 -/

/-- C7: when decoding succeeds and the action value is "Final Answer" or
the synonym "response", `parse` returns an `AgentFinish` whose output is
the stringified `action_input`: a mapping or sequence is serialized with
`json.dumps(·, indent=2)` — and re-decoding that string with
`json.loads` reproduces exactly the structured value — while any other
value is converted with `str()`. -/
theorem claim7_final_answer (text : String) (kvs : List (String × Json))
    (hdec : jsonLoads (extractCleanJson text) = some (.obj kvs))
    (hfin : isFinalMarker (objGet kvs "action") = true) :
    parse text = .ok (.finish (finalOutput (objGet kvs "action_input")) text) ∧
    (∀ v, objGet kvs "action_input" = some v → structured v = true →
      finalOutput (objGet kvs "action_input") = jsonDumps v ∧
      jsonLoads (jsonDumps v) = some v) ∧
    (∀ v, objGet kvs "action_input" = some v → structured v = false →
      finalOutput (objGet kvs "action_input") = pyStr v) := by
  refine ⟨?_, ?_, ?_⟩
  · simp only [parse, hdec, hfin, if_true]
  · intro v hv hs
    constructor
    · simp only [finalOutput, hv, hs, if_true]
    · have hwf : wfV (.obj kvs) = true := jsonLoads_wf _ _ hdec
      have hwfm : wfMembers kvs = true := by
        have hh : (keysUniq kvs && wfMembers kvs) = true := hwf
        rw [Bool.and_eq_true] at hh
        exact hh.2
      exact jsonLoads_dumps v (objGet_wf kvs "action_input" v hwfm hv)
  · intro v hv hs
    simp only [finalOutput, hv, hs, Bool.false_eq_true, if_false]

theorem claim7_witness :
    parse "\x7b\"action\": \"Final Answer\", \"action_input\": \x7b\"a\": 1\x7d\x7d" =
      .ok (.finish
        (finalOutput (objGet [("action", .str "Final Answer"),
          ("action_input", .obj [("a", .int 1)])] "action_input"))
        "\x7b\"action\": \"Final Answer\", \"action_input\": \x7b\"a\": 1\x7d\x7d") ∧
    finalOutput (objGet [("action", .str "Final Answer"),
      ("action_input", .obj [("a", .int 1)])] "action_input") =
        jsonDumps (.obj [("a", .int 1)]) ∧
    jsonLoads (jsonDumps (.obj [("a", .int 1)])) = some (.obj [("a", .int 1)]) := by
  have h := claim7_final_answer
    "\x7b\"action\": \"Final Answer\", \"action_input\": \x7b\"a\": 1\x7d\x7d"
    [("action", .str "Final Answer"), ("action_input", .obj [("a", .int 1)])]
    (by rfl) (by rfl)
  have h2 := h.2.1 (.obj [("a", .int 1)]) (by rfl) (by rfl)
  exact ⟨h.1, h2.1, h2.2⟩

/-- C2 counterexample: a response holding two JSON action blobs is not
resolved to its first blob's action — `json.loads` rejects the combined
text ("Extra data") and `parse` falls open to an `AgentFinish` carrying
the raw input. -/
theorem claim2_counterexample :
    parse multiBlobText = .ok (.finish multiBlobText multiBlobText) ∧
    parse multiBlobText ≠ .ok (.action "A" (.str "x") multiBlobText) := by
  have h1 : parse multiBlobText = .ok (.finish multiBlobText multiBlobText) := by rfl
  refine ⟨h1, ?_⟩
  rw [h1]
  intro heq
  exact AgentStep.noConfusion (Except.ok.inj heq)

/-- C2 amended: `parse` extracts at most one action, but a response
whose cleaned text is two complete JSON values separated by a space is
never resolved to its first value: `json.loads` fails on the trailing
data and the whole response becomes a fail-open `AgentFinish` (Malformed)
carrying the raw input. -/
theorem claim2_amended (text : String) (v1 v2 : Json)
    (h1 : wfV v1 = true) (h2 : wfV v2 = true)
    (hclean : (extractCleanJson text).data = dumpsVal 0 v1 ++ (' ' :: dumpsVal 0 v2)) :
    jsonLoads (extractCleanJson text) = none ∧
    parse text = .ok (.finish text text) := by
  have hlen : (extractCleanJson text).length =
      (dumpsVal 0 v1 ++ (' ' :: dumpsVal 0 v2)).length := by
    rw [show (extractCleanJson text).length = (extractCleanJson text).data.length from rfl,
      hclean]
  have hfuel : fuelV v1 ≤ (extractCleanJson text).length + 1 := by
    have hb := fuelV_le_dumps v1 0
    rw [hlen]
    simp only [List.length_append, List.length_cons]
    omega
  have hpv : parseValue ((extractCleanJson text).length + 1)
      (dumpsVal 0 v1 ++ (' ' :: dumpsVal 0 v2)) = some (v1, ' ' :: dumpsVal 0 v2) :=
    (parse_dumps _).1 0 v1 (' ' :: dumpsVal 0 v2) h1 hfuel rfl
  have hdw2 : (dumpsVal 0 v2).dropWhile isJsonWs = dumpsVal 0 v2 := by
    simpa using dropWhile_ws_print 0 v2 [] h2
  obtain ⟨c2, cs2, hcc2, _, _, _⟩ := dumpsVal_head 0 v2 h2
  have hload : jsonLoads (extractCleanJson text) = none := by
    simp only [jsonLoads, hclean, dropWhile_ws_print 0 v1 _ h1, hpv, dw_space, hdw2]
    rw [hcc2]
    simp
  exact ⟨hload, by simp only [parse, hload]⟩

theorem claim2_witness :
    wfV (.int 1) = true ∧ wfV (.int 2) = true ∧
    (extractCleanJson "1 2").data = dumpsVal 0 (.int 1) ++ (' ' :: dumpsVal 0 (.int 2)) ∧
    jsonLoads (extractCleanJson "1 2") = none ∧
    parse "1 2" = .ok (.finish "1 2" "1 2") := by
  have h := claim2_amended "1 2" (.int 1) (.int 2) rfl rfl (by rfl)
  exact ⟨rfl, rfl, by rfl, h.1, h.2⟩

/-! ## Cleanup-scan lemmas (claim C6) -/

theorem dropWhile_append_hf {p : Char → Bool} (x y : List Char)
    (hy : headFails p y = true) :
    (x ++ y).dropWhile p = x.dropWhile p ++ y := by
  induction x with
  | nil =>
    cases y with
    | nil => rfl
    | cons c cs =>
      simp only [headFails, Bool.not_eq_true'] at hy
      simp [List.dropWhile, hy]
  | cons c cs ih =>
    by_cases h : p c = true
    · rw [List.cons_append, List.dropWhile_cons_of_pos h, List.dropWhile_cons_of_pos h, ih]
    · rw [List.cons_append, List.dropWhile_cons_of_neg h, List.dropWhile_cons_of_neg h]
      rfl

theorem dropWhile_append_last {p : Char → Bool} (w y : List Char) (b : Char)
    (hb : p b = false) :
    ((w ++ [b]) ++ y).dropWhile p = (w ++ [b]).dropWhile p ++ y := by
  induction w with
  | nil =>
    show (b :: y).dropWhile p = (b :: ([] : List Char)).dropWhile p ++ y
    rw [List.dropWhile_cons_of_neg (by simp [hb]), List.dropWhile_cons_of_neg (by simp [hb])]
    rfl
  | cons c w' ih =>
    by_cases h : p c = true
    · show (c :: (w' ++ [b] ++ y)).dropWhile p = (c :: (w' ++ [b])).dropWhile p ++ y
      rw [List.dropWhile_cons_of_pos h, List.dropWhile_cons_of_pos h]
      exact ih
    · show (c :: (w' ++ [b] ++ y)).dropWhile p = (c :: (w' ++ [b])).dropWhile p ++ y
      rw [List.dropWhile_cons_of_neg h, List.dropWhile_cons_of_neg h]
      rfl

theorem dropWhile_last {p : Char → Bool} (w : List Char) (b : Char)
    (hb : p b = false) :
    ∃ w', (w ++ [b]).dropWhile p = w' ++ [b] := by
  induction w with
  | nil =>
    refine ⟨[], ?_⟩
    show (b :: ([] : List Char)).dropWhile p = [b]
    rw [List.dropWhile_cons_of_neg (by simp [hb])]
  | cons c w' ih =>
    by_cases h : p c = true
    · obtain ⟨w2, hw2⟩ := ih
      refine ⟨w2, ?_⟩
      show (c :: (w' ++ [b])).dropWhile p = w2 ++ [b]
      rw [List.dropWhile_cons_of_pos h]
      exact hw2
    · refine ⟨c :: w', ?_⟩
      show (c :: (w' ++ [b])).dropWhile p = (c :: w') ++ [b]
      rw [List.dropWhile_cons_of_neg h]
      rfl

theorem take_pat_headBlock {v t pat : List Char} {b : Char} {k : Nat}
    (hk : pat.length = k) (hb : b ∉ pat) :
    ((v ++ b :: t).take k = pat ↔ v.take k = pat) := by
  by_cases hlen : k ≤ v.length
  · rw [List.take_append_eq_append_take, show k - v.length = 0 from by omega,
      List.take_zero, List.append_nil]
  · constructor
    · intro h
      exfalso
      apply hb
      rw [← h, List.take_append_eq_append_take]
      refine List.mem_append.mpr (Or.inr ?_)
      cases hmm : k - v.length with
      | zero => omega
      | succ m =>
        rw [List.take_succ_cons]
        exact List.mem_cons_self b _
    · intro h
      exfalso
      have hl := congrArg List.length h
      rw [List.length_take, hk] at hl
      omega

theorem take_pat_lastBlock {w Q pat : List Char} {b : Char} {k : Nat}
    (hk : pat.length = k) (hb : b ∉ pat) :
    (((w ++ [b]) ++ Q).take k = pat ↔ (w ++ [b]).take k = pat) := by
  by_cases hlen : k ≤ (w ++ [b]).length
  · rw [List.take_append_eq_append_take, show k - (w ++ [b]).length = 0 from by omega,
      List.take_zero, List.append_nil]
  · constructor
    · intro h
      exfalso
      apply hb
      rw [← h, List.take_append_eq_append_take]
      refine List.mem_append.mpr (Or.inl ?_)
      rw [List.take_of_length_le (by omega)]
      simp
    · intro h
      exfalso
      have hl := congrArg List.length h
      rw [List.length_take, hk] at hl
      omega

theorem tryMatch_eq (l : List Char) :
    tryMatch l =
      if l.take 7 = "```json".data then some ((l.drop 7).dropWhile isPySpace)
      else if (l.dropWhile isPySpace).take 4 = "json".data then
        some (((l.dropWhile isPySpace).drop 4).dropWhile isPySpace)
      else if (l.dropWhile isPySpace).take 3 = "```".data then
        some (((l.dropWhile isPySpace).drop 3).dropWhile isPySpace)
      else none := rfl

theorem tryMatch_lt {l r : List Char} (h : tryMatch l = some r) : r.length < l.length := by
  rw [tryMatch_eq] at h
  split_ifs at h with h7 h4 h3
  · have h7len : 7 ≤ l.length := by
      have hl := congrArg List.length h7
      rw [List.length_take] at hl
      simp at hl
      omega
    simp only [Option.some.injEq] at h
    rw [← h]
    have h1 := (List.dropWhile_suffix (l := l.drop 7) isPySpace).length_le
    rw [List.length_drop] at h1
    omega
  · have hm4 : 4 ≤ (l.dropWhile isPySpace).length := by
      have hl := congrArg List.length h4
      rw [List.length_take] at hl
      simp at hl
      omega
    have hml := (List.dropWhile_suffix (l := l) isPySpace).length_le
    simp only [Option.some.injEq] at h
    rw [← h]
    have h1 := (List.dropWhile_suffix
      (l := (l.dropWhile isPySpace).drop 4) isPySpace).length_le
    rw [List.length_drop] at h1
    omega
  · have hm3 : 3 ≤ (l.dropWhile isPySpace).length := by
      have hl := congrArg List.length h3
      rw [List.length_take] at hl
      simp at hl
      omega
    have hml := (List.dropWhile_suffix (l := l) isPySpace).length_le
    simp only [Option.some.injEq] at h
    rw [← h]
    have h1 := (List.dropWhile_suffix
      (l := (l.dropWhile isPySpace).drop 3) isPySpace).length_le
    rw [List.length_drop] at h1
    omega

theorem reSubAux_congr (n : Nat) :
    ∀ l f g, l.length ≤ n → l.length ≤ f → l.length ≤ g →
      reSubAux f l = reSubAux g l := by
  induction n with
  | zero =>
    intro l f g h0 _ _
    have hl : l = [] := List.length_eq_zero.mp (by omega)
    subst hl
    cases f <;> cases g <;> rfl
  | succ m ih =>
    intro l f g hn hf hg
    cases l with
    | nil => cases f <;> cases g <;> rfl
    | cons c cs =>
      simp only [List.length_cons] at hn hf hg
      cases f with
      | zero => omega
      | succ f' =>
        cases g with
        | zero => omega
        | succ g' =>
          show reSubAux (f' + 1) (c :: cs) = reSubAux (g' + 1) (c :: cs)
          rw [reSubAux.eq_3, reSubAux.eq_3]
          cases htm : tryMatch (c :: cs) with
          | none =>
            simp only [htm]
            rw [ih cs f' g' (by omega) (by omega) (by omega)]
          | some r =>
            simp only [htm]
            have hlt := tryMatch_lt htm
            simp only [List.length_cons] at hlt
            exact ih r f' g' (by omega) (by omega) (by omega)

theorem rtAux_congr (n : Nat) :
    ∀ l f g, l.length ≤ n → l.length ≤ g → l.length ≤ f →
      replaceTicksAux f l = replaceTicksAux g l := by
  induction n with
  | zero =>
    intro l f g h0 _ _
    have hl : l = [] := List.length_eq_zero.mp (by omega)
    subst hl
    cases f <;> cases g <;> rfl
  | succ m ih =>
    intro l f g hn hg hf
    cases l with
    | nil => cases f <;> cases g <;> rfl
    | cons c cs =>
      simp only [List.length_cons] at hn hf hg
      cases f with
      | zero => omega
      | succ f' =>
        cases g with
        | zero => omega
        | succ g' =>
          show replaceTicksAux (f' + 1) (c :: cs) = replaceTicksAux (g' + 1) (c :: cs)
          rw [replaceTicksAux.eq_3, replaceTicksAux.eq_3]
          by_cases h3 : (c :: cs).take 3 = "```".data
          · rw [if_pos h3, if_pos h3]
            have hlen : 3 ≤ (c :: cs).length := by
              have hl := congrArg List.length h3
              rw [List.length_take, show ("```".data).length = 3 from rfl] at hl
              omega
            have hdl : ((c :: cs).drop 3).length = (c :: cs).length - 3 :=
              List.length_drop _ _
            simp only [List.length_cons] at hdl hlen
            exact ih _ f' g' (by omega) (by omega) (by omega)
          · rw [if_neg h3, if_neg h3]
            rw [ih cs f' g' (by omega) (by omega) (by omega)]

theorem drop_append_le {x y : List Char} {k : Nat} (hk : k ≤ x.length) :
    (x ++ y).drop k = x.drop k ++ y := by
  rw [List.drop_append_eq_append_drop, show k - x.length = 0 from by omega, List.drop_zero]

theorem take_pat_lt {x : List Char} (pat : List Char) {b : Char} (hx : x.take pat.length = pat)
    (hbx : b ∈ x) (hbp : b ∉ pat) : pat.length < x.length := by
  have hle : pat.length ≤ x.length := by
    have hl := congrArg List.length hx
    rw [List.length_take] at hl
    omega
  rcases Nat.lt_or_ge pat.length x.length with h | h
  · exact h
  · exfalso
    have hx2 : x.take pat.length = x := List.take_of_length_le (by omega)
    rw [hx2] at hx
    exact hbp (hx ▸ hbx)

/-- The cleanup pattern cannot match across the opening brace of the
object text: a match attempt before `{` behaves as on the wrapper
alone. -/
theorem tryMatch_SB (v t : List Char) :
    tryMatch (v ++ '\x7b' :: t) = (tryMatch v).map (fun r => r ++ '\x7b' :: t) := by
  have hhb7 : ('\x7b') ∉ "```json".data := by decide
  have hhb4 : ('\x7b') ∉ "json".data := by decide
  have hhb3 : ('\x7b') ∉ "```".data := by decide
  have hhf : headFails isPySpace ('\x7b' :: t) = true := rfl
  have hdw : (v ++ '\x7b' :: t).dropWhile isPySpace =
      v.dropWhile isPySpace ++ '\x7b' :: t := dropWhile_append_hf _ _ hhf
  rw [tryMatch_eq, tryMatch_eq]
  by_cases h7 : v.take 7 = "```json".data
  · rw [if_pos ((@take_pat_headBlock v t "```json".data '\x7b' 7 rfl hhb7).mpr h7),
      if_pos h7]
    have h7len : 7 ≤ v.length := by
      have hl := congrArg List.length h7
      rw [List.length_take, show ("```json".data).length = 7 from rfl] at hl
      omega
    rw [drop_append_le h7len, dropWhile_append_hf _ _ hhf]
    rfl
  · rw [if_neg (fun hc => h7 ((@take_pat_headBlock v t "```json".data '\x7b' 7 rfl hhb7).mp hc)),
      if_neg h7, hdw]
    by_cases h4 : (v.dropWhile isPySpace).take 4 = "json".data
    · rw [if_pos ((@take_pat_headBlock (v.dropWhile isPySpace) t "json".data '\x7b' 4
          rfl hhb4).mpr h4), if_pos h4]
      have h4len : 4 ≤ (v.dropWhile isPySpace).length := by
        have hl := congrArg List.length h4
        rw [List.length_take, show ("json".data).length = 4 from rfl] at hl
        omega
      rw [drop_append_le h4len, dropWhile_append_hf _ _ hhf]
      rfl
    · rw [if_neg (fun hc => h4 ((@take_pat_headBlock (v.dropWhile isPySpace) t
          "json".data '\x7b' 4 rfl hhb4).mp hc)), if_neg h4]
      by_cases h3 : (v.dropWhile isPySpace).take 3 = "```".data
      · rw [if_pos ((@take_pat_headBlock (v.dropWhile isPySpace) t "```".data '\x7b' 3
            rfl hhb3).mpr h3), if_pos h3]
        have h3len : 3 ≤ (v.dropWhile isPySpace).length := by
          have hl := congrArg List.length h3
          rw [List.length_take, show ("```".data).length = 3 from rfl] at hl
          omega
        rw [drop_append_le h3len, dropWhile_append_hf _ _ hhf]
        rfl
      · rw [if_neg (fun hc => h3 ((@take_pat_headBlock (v.dropWhile isPySpace) t
            "```".data '\x7b' 3 rfl hhb3).mp hc)), if_neg h3]
        rfl

/-- The cleanup pattern cannot match across the closing brace of the
object text: a match attempt inside text ending in `}` behaves as on
that text alone. -/
theorem tryMatch_EB (w y : List Char) :
    tryMatch ((w ++ ['\x7d']) ++ y) = (tryMatch (w ++ ['\x7d'])).map (fun r => r ++ y) := by
  have hhb7 : ('\x7d') ∉ "```json".data := by decide
  have hhb4 : ('\x7d') ∉ "json".data := by decide
  have hhb3 : ('\x7d') ∉ "```".data := by decide
  have hws : isPySpace '\x7d' = false := by decide
  obtain ⟨w2, hw2⟩ := dropWhile_last w '\x7d' hws
  have hdw : ((w ++ ['\x7d']) ++ y).dropWhile isPySpace = (w2 ++ ['\x7d']) ++ y := by
    rw [dropWhile_append_last _ _ _ hws, hw2]
  rw [tryMatch_eq, tryMatch_eq]
  by_cases h7 : (w ++ ['\x7d']).take 7 = "```json".data
  · rw [if_pos ((@take_pat_lastBlock w y "```json".data '\x7d' 7 rfl hhb7).mpr h7),
      if_pos h7]
    have h7lt : 7 < (w ++ ['\x7d']).length :=
      take_pat_lt "```json".data h7 (by simp) hhb7
    rw [List.length_append, List.length_cons, List.length_nil] at h7lt
    have hd7 : (w ++ ['\x7d']).drop 7 = w.drop 7 ++ ['\x7d'] := drop_append_le (by omega)
    rw [drop_append_le (x := w ++ ['\x7d']) (by simp; omega), hd7,
      dropWhile_append_last _ _ _ hws]
    rfl
  · rw [if_neg (fun hc => h7 ((@take_pat_lastBlock w y "```json".data '\x7d' 7
        rfl hhb7).mp hc)), if_neg h7, hdw, hw2]
    by_cases h4 : (w2 ++ ['\x7d']).take 4 = "json".data
    · rw [if_pos ((@take_pat_lastBlock w2 y "json".data '\x7d' 4 rfl hhb4).mpr h4),
        if_pos h4]
      have h4lt : 4 < (w2 ++ ['\x7d']).length :=
        take_pat_lt "json".data h4 (by simp) hhb4
      rw [List.length_append, List.length_cons, List.length_nil] at h4lt
      have hd4 : (w2 ++ ['\x7d']).drop 4 = w2.drop 4 ++ ['\x7d'] := drop_append_le (by omega)
      rw [drop_append_le (x := w2 ++ ['\x7d']) (by simp; omega), hd4,
        dropWhile_append_last _ _ _ hws]
      rfl
    · rw [if_neg (fun hc => h4 ((@take_pat_lastBlock w2 y "json".data '\x7d' 4
          rfl hhb4).mp hc)), if_neg h4]
      by_cases h3 : (w2 ++ ['\x7d']).take 3 = "```".data
      · rw [if_pos ((@take_pat_lastBlock w2 y "```".data '\x7d' 3 rfl hhb3).mpr h3),
          if_pos h3]
        have h3lt : 3 < (w2 ++ ['\x7d']).length :=
          take_pat_lt "```".data h3 (by simp) hhb3
        rw [List.length_append, List.length_cons, List.length_nil] at h3lt
        have hd3 : (w2 ++ ['\x7d']).drop 3 = w2.drop 3 ++ ['\x7d'] := drop_append_le (by omega)
        rw [drop_append_le (x := w2 ++ ['\x7d']) (by simp; omega), hd3,
          dropWhile_append_last _ _ _ hws]
        rfl
      · rw [if_neg (fun hc => h3 ((@take_pat_lastBlock w2 y "```".data '\x7d' 3
            rfl hhb3).mp hc)), if_neg h3]
        rfl

/-- A successful cleanup match on text ending in `}` leaves a remainder
ending in `}`. -/
theorem tryMatch_last (w r : List Char)
    (h : tryMatch (w ++ ['\x7d']) = some r) : ∃ w', r = w' ++ ['\x7d'] := by
  have hhb7 : ('\x7d') ∉ "```json".data := by decide
  have hhb4 : ('\x7d') ∉ "json".data := by decide
  have hhb3 : ('\x7d') ∉ "```".data := by decide
  have hws : isPySpace '\x7d' = false := by decide
  obtain ⟨w2, hw2⟩ := dropWhile_last w '\x7d' hws
  rw [tryMatch_eq, hw2] at h
  split_ifs at h with h7 h4 h3
  · have h7lt : 7 < (w ++ ['\x7d']).length :=
      take_pat_lt "```json".data h7 (by simp) hhb7
    rw [List.length_append, List.length_cons, List.length_nil] at h7lt
    have hd7 : (w ++ ['\x7d']).drop 7 = w.drop 7 ++ ['\x7d'] := drop_append_le (by omega)
    rw [hd7] at h
    simp only [Option.some.injEq] at h
    obtain ⟨w3, hw3⟩ := dropWhile_last (w.drop 7) '\x7d' hws
    exact ⟨w3, by rw [← h, hw3]⟩
  · have h4lt : 4 < (w2 ++ ['\x7d']).length :=
      take_pat_lt "json".data h4 (by simp) hhb4
    rw [List.length_append, List.length_cons, List.length_nil] at h4lt
    have hd4 : (w2 ++ ['\x7d']).drop 4 = w2.drop 4 ++ ['\x7d'] := drop_append_le (by omega)
    rw [hd4] at h
    simp only [Option.some.injEq] at h
    obtain ⟨w3, hw3⟩ := dropWhile_last (w2.drop 4) '\x7d' hws
    exact ⟨w3, by rw [← h, hw3]⟩
  · have h3lt : 3 < (w2 ++ ['\x7d']).length :=
      take_pat_lt "```".data h3 (by simp) hhb3
    rw [List.length_append, List.length_cons, List.length_nil] at h3lt
    have hd3 : (w2 ++ ['\x7d']).drop 3 = w2.drop 3 ++ ['\x7d'] := drop_append_le (by omega)
    rw [hd3] at h
    simp only [Option.some.injEq] at h
    obtain ⟨w3, hw3⟩ := dropWhile_last (w2.drop 3) '\x7d' hws
    exact ⟨w3, by rw [← h, hw3]⟩

/-- The `re.sub` scan of wrapper text followed by a braced object
processes the wrapper independently of the object text. -/
theorem reSub_split_SB (n : Nat) :
    ∀ v t, v.length ≤ n →
      reSubL (v ++ '\x7b' :: t) = reSubAux v.length v ++ reSubL ('\x7b' :: t) := by
  induction n with
  | zero =>
    intro v t h0
    have hv : v = [] := List.length_eq_zero.mp (by omega)
    subst hv
    rfl
  | succ m ih =>
    intro v t hn
    cases v with
    | nil => rfl
    | cons c cs =>
      simp only [List.length_cons] at hn
      have hstep : reSubL ((c :: cs) ++ '\x7b' :: t) =
          match tryMatch ((c :: cs) ++ '\x7b' :: t) with
          | some r => reSubAux (cs ++ '\x7b' :: t).length r
          | none => c :: reSubAux (cs ++ '\x7b' :: t).length (cs ++ '\x7b' :: t) := rfl
      rw [hstep, tryMatch_SB (c :: cs) t]
      cases htm : tryMatch (c :: cs) with
      | none =>
        simp only [htm, Option.map_none']
        have hr : reSubAux (c :: cs).length (c :: cs) = c :: reSubAux cs.length cs := by
          rw [show (c :: cs).length = cs.length + 1 from rfl, reSubAux.eq_3, htm]
        rw [hr]
        show c :: reSubL (cs ++ '\x7b' :: t) = (c :: reSubAux cs.length cs) ++ reSubL ('\x7b' :: t)
        rw [ih cs t (by omega)]
        rfl
      | some r =>
        simp only [htm, Option.map_some']
        have hlt := tryMatch_lt htm
        simp only [List.length_cons] at hlt
        have hc1 : reSubAux (cs ++ '\x7b' :: t).length (r ++ '\x7b' :: t) =
            reSubL (r ++ '\x7b' :: t) :=
          reSubAux_congr (r ++ '\x7b' :: t).length (r ++ '\x7b' :: t)
            (cs ++ '\x7b' :: t).length (r ++ '\x7b' :: t).length le_rfl
            (by simp only [List.length_append, List.length_cons]; omega) le_rfl
        rw [hc1, ih r t (by omega)]
        congr 1
        have hr : reSubAux (c :: cs).length (c :: cs) = reSubAux cs.length r := by
          rw [show (c :: cs).length = cs.length + 1 from rfl, reSubAux.eq_3, htm]
        rw [hr]
        exact reSubAux_congr r.length r r.length cs.length le_rfl le_rfl (by omega)

/-- The `re.sub` scan of text ending in `}` followed by wrapper text
processes the two parts independently. -/
theorem reSub_split_EB (n : Nat) :
    ∀ w y, w.length ≤ n →
      reSubL ((w ++ ['\x7d']) ++ y) = reSubL (w ++ ['\x7d']) ++ reSubL y := by
  induction n with
  | zero =>
    intro w y h0
    have hw : w = [] := List.length_eq_zero.mp (by omega)
    subst hw
    have h1 : tryMatch (([] ++ ['\x7d']) ++ y) = none := by
      rw [tryMatch_EB]
      rfl
    have hstep : reSubL (([] ++ ['\x7d']) ++ y) =
        match tryMatch (([] ++ ['\x7d']) ++ y) with
        | some r => reSubAux y.length r
        | none => '\x7d' :: reSubAux y.length y := rfl
    rw [hstep, h1]
    rfl
  | succ m ih =>
    intro w y hn
    cases w with
    | nil =>
      have h1 : tryMatch (([] ++ ['\x7d']) ++ y) = none := by
        rw [tryMatch_EB]
        rfl
      have hstep : reSubL (([] ++ ['\x7d']) ++ y) =
          match tryMatch (([] ++ ['\x7d']) ++ y) with
          | some r => reSubAux y.length r
          | none => '\x7d' :: reSubAux y.length y := rfl
      rw [hstep, h1]
      rfl
    | cons c cs =>
      simp only [List.length_cons] at hn
      have hstep : reSubL (((c :: cs) ++ ['\x7d']) ++ y) =
          match tryMatch (((c :: cs) ++ ['\x7d']) ++ y) with
          | some r => reSubAux ((cs ++ ['\x7d']) ++ y).length r
          | none => c :: reSubAux ((cs ++ ['\x7d']) ++ y).length ((cs ++ ['\x7d']) ++ y) := rfl
      rw [hstep, tryMatch_EB (c :: cs) y]
      cases htm : tryMatch ((c :: cs) ++ ['\x7d']) with
      | none =>
        simp only [htm, Option.map_none']
        have hr : reSubL ((c :: cs) ++ ['\x7d']) =
            c :: reSubAux (cs ++ ['\x7d']).length (cs ++ ['\x7d']) := by
          have hs2 : reSubL ((c :: cs) ++ ['\x7d']) =
              match tryMatch ((c :: cs) ++ ['\x7d']) with
              | some r => reSubAux (cs ++ ['\x7d']).length r
              | none => c :: reSubAux (cs ++ ['\x7d']).length (cs ++ ['\x7d']) := rfl
          rw [hs2, htm]
        rw [hr]
        show c :: reSubL ((cs ++ ['\x7d']) ++ y) = _
        rw [ih cs y (by omega)]
        rfl
      | some r =>
        simp only [htm, Option.map_some']
        have hlt := tryMatch_lt htm
        simp only [List.length_append, List.length_cons, List.length_nil] at hlt
        obtain ⟨w', hw'⟩ := tryMatch_last (c :: cs) r htm
        have hwlen : w'.length + 1 = r.length := by
          rw [hw']
          simp
        have hc1 : reSubAux ((cs ++ ['\x7d']) ++ y).length (r ++ y) = reSubL (r ++ y) :=
          reSubAux_congr (r ++ y).length (r ++ y)
            ((cs ++ ['\x7d']) ++ y).length (r ++ y).length le_rfl
            (by simp only [List.length_append, List.length_cons, List.length_nil]; omega)
            le_rfl
        rw [hc1, hw', ih w' y (by omega)]
        congr 1
        have hr2 : reSubL ((c :: cs) ++ ['\x7d']) = reSubAux (cs ++ ['\x7d']).length r := by
          have hs2 : reSubL ((c :: cs) ++ ['\x7d']) =
              match tryMatch ((c :: cs) ++ ['\x7d']) with
              | some r2 => reSubAux (cs ++ ['\x7d']).length r2
              | none => c :: reSubAux (cs ++ ['\x7d']).length (cs ++ ['\x7d']) := rfl
          rw [hs2, htm]
        rw [hr2, ← hw']
        exact (reSubAux_congr r.length r r.length (cs ++ ['\x7d']).length le_rfl le_rfl
          (by simp only [List.length_append, List.length_cons, List.length_nil]; omega))

theorem dropWhile_headFails {p : Char → Bool} {l : List Char}
    (h : headFails p l = true) : l.dropWhile p = l := by
  cases l with
  | nil => rfl
  | cons c cs =>
    simp only [headFails, Bool.not_eq_true'] at h
    exact List.dropWhile_cons_of_neg (by simp [h])

theorem fw_dropWhile {l : List Char} (hl : FenceWrap l) :
    FenceWrap (l.dropWhile isPySpace) := by
  induction hl with
  | nil => exact FenceWrap.nil
  | ws c l hc hfw ih =>
    rw [List.dropWhile_cons_of_pos hc]
    exact ih
  | fence l hfw ih => exact FenceWrap.fence l hfw
  | jsonTag l hfw ih => exact FenceWrap.jsonTag l hfw

theorem fw_drop_json {l : List Char} (hl : FenceWrap l)
    (h4 : l.take 4 = "json".data) : FenceWrap (l.drop 4) := by
  cases hl with
  | nil => exact absurd h4 (by decide)
  | ws c l hc hfw =>
    exfalso
    have hh := congrArg List.head? h4
    rw [show ((c :: l).take 4).head? = some c from rfl,
      show ("json".data).head? = some 'j' from rfl] at hh
    have hc' := Option.some.inj hh
    rw [hc'] at hc
    exact absurd hc (by decide)
  | fence l hfw =>
    exfalso
    have hh := congrArg List.head? h4
    rw [show (("```".data ++ l).take 4).head? = some (Char.ofNat 96) from rfl,
      show ("json".data).head? = some 'j' from rfl] at hh
    exact absurd (Option.some.inj hh) (by decide)
  | jsonTag l hfw =>
    rw [show ("json".data ++ l).drop 4 = l from rfl]
    exact hfw

theorem fw_drop_ticks {l : List Char} (hl : FenceWrap l)
    (h3 : l.take 3 = "```".data) : FenceWrap (l.drop 3) := by
  cases hl with
  | nil => exact absurd h3 (by decide)
  | ws c l hc hfw =>
    exfalso
    have hh := congrArg List.head? h3
    rw [show ((c :: l).take 3).head? = some c from rfl,
      show ("```".data).head? = some (Char.ofNat 96) from rfl] at hh
    have hc' := Option.some.inj hh
    rw [hc'] at hc
    exact absurd hc (by decide)
  | fence l hfw =>
    rw [show ("```".data ++ l).drop 3 = l from rfl]
    exact hfw
  | jsonTag l hfw =>
    exfalso
    have hh := congrArg List.head? h3
    rw [show (("json".data ++ l).take 3).head? = some 'j' from rfl,
      show ("```".data).head? = some (Char.ofNat 96) from rfl] at hh
    exact absurd (Option.some.inj hh) (by decide)

theorem fw_drop_7 {l : List Char} (hl : FenceWrap l)
    (h7 : l.take 7 = "```json".data) : FenceWrap (l.drop 7) := by
  cases hl with
  | nil => exact absurd h7 (by decide)
  | ws c l hc hfw =>
    exfalso
    have hh := congrArg List.head? h7
    rw [show ((c :: l).take 7).head? = some c from rfl,
      show ("```json".data).head? = some (Char.ofNat 96) from rfl] at hh
    have hc' := Option.some.inj hh
    rw [hc'] at hc
    exact absurd hc (by decide)
  | fence l hfw =>
    have h4 : l.take 4 = "json".data := congrArg (List.drop 3) h7
    exact fw_drop_json hfw h4
  | jsonTag l hfw =>
    exfalso
    have hh := congrArg List.head? h7
    rw [show (("json".data ++ l).take 7).head? = some 'j' from rfl,
      show ("```json".data).head? = some (Char.ofNat 96) from rfl] at hh
    exact absurd (Option.some.inj hh) (by decide)

theorem tryMatch_fw {l r : List Char} (hl : FenceWrap l)
    (h : tryMatch l = some r) : FenceWrap r := by
  rw [tryMatch_eq] at h
  split_ifs at h with h7 h4 h3
  · simp only [Option.some.injEq] at h
    rw [← h]
    exact fw_dropWhile (fw_drop_7 hl h7)
  · simp only [Option.some.injEq] at h
    rw [← h]
    exact fw_dropWhile (fw_drop_json (fw_dropWhile hl) h4)
  · simp only [Option.some.injEq] at h
    rw [← h]
    exact fw_dropWhile (fw_drop_ticks (fw_dropWhile hl) h3)

theorem tryMatch_fence (l : List Char) : ∃ r, tryMatch ("```".data ++ l) = some r := by
  rw [tryMatch_eq]
  have hd : ("```".data ++ l).dropWhile isPySpace = "```".data ++ l :=
    dropWhile_headFails (l := "```".data ++ l) rfl
  rw [hd]
  by_cases h7 : ("```".data ++ l).take 7 = "```json".data
  · rw [if_pos h7]
    exact ⟨_, rfl⟩
  · rw [if_neg h7]
    by_cases h4 : ("```".data ++ l).take 4 = "json".data
    · rw [if_pos h4]
      exact ⟨_, rfl⟩
    · rw [if_neg h4, if_pos (show ("```".data ++ l).take 3 = "```".data from rfl)]
      exact ⟨_, rfl⟩

theorem tryMatch_tag (l : List Char) : ∃ r, tryMatch ("json".data ++ l) = some r := by
  rw [tryMatch_eq]
  have hd : ("json".data ++ l).dropWhile isPySpace = "json".data ++ l :=
    dropWhile_headFails (l := "json".data ++ l) rfl
  rw [hd]
  by_cases h7 : ("json".data ++ l).take 7 = "```json".data
  · rw [if_pos h7]
    exact ⟨_, rfl⟩
  · rw [if_neg h7, if_pos (show ("json".data ++ l).take 4 = "json".data from rfl)]
    exact ⟨_, rfl⟩

theorem fw_kept {c : Char} {cs : List Char} (hl : FenceWrap (c :: cs))
    (h : tryMatch (c :: cs) = none) : isPySpace c = true ∧ FenceWrap cs := by
  cases hl with
  | ws c l hc hfw => exact ⟨hc, hfw⟩
  | fence l hfw =>
    obtain ⟨r, hr⟩ := tryMatch_fence l
    exact absurd (hr.symm.trans h) (by simp)
  | jsonTag l hfw =>
    obtain ⟨r, hr⟩ := tryMatch_tag l
    exact absurd (hr.symm.trans h) (by simp)

/-- The `re.sub` cleanup deletes every fence marker and tag from
wrapper text: only whitespace survives. -/
theorem reSub_fw_allws (n : Nat) :
    ∀ P, P.length ≤ n → FenceWrap P → ∀ f, P.length ≤ f →
      (reSubAux f P).all isPySpace = true := by
  induction n with
  | zero =>
    intro P h0 _ f _
    have hP : P = [] := List.length_eq_zero.mp (by omega)
    subst hP
    cases f <;> rfl
  | succ m ih =>
    intro P hn hP f hf
    cases P with
    | nil => cases f <;> rfl
    | cons c cs =>
      simp only [List.length_cons] at hn hf
      cases f with
      | zero => omega
      | succ f' =>
        rw [reSubAux.eq_3]
        cases htm : tryMatch (c :: cs) with
        | some r =>
          simp only [htm]
          have hlt := tryMatch_lt htm
          simp only [List.length_cons] at hlt
          exact ih r (by omega) (tryMatch_fw hP htm) f' (by omega)
        | none =>
          simp only [htm]
          obtain ⟨hcws, hcs⟩ := fw_kept hP htm
          rw [List.all_cons, hcws, ih cs (by omega) hcs f' (by omega)]
          rfl

theorem tryMatch_lbrace (t : List Char) : tryMatch ('\x7b' :: t) = none := by
  rw [tryMatch_eq]
  have hd : ('\x7b' :: t).dropWhile isPySpace = '\x7b' :: t :=
    dropWhile_headFails (l := '\x7b' :: t) rfl
  rw [hd]
  have h7 : ¬('\x7b' :: t).take 7 = "```json".data := by
    intro hx
    have hh := congrArg List.head? hx
    rw [show (('\x7b' :: t).take 7).head? = some '\x7b' from rfl,
      show ("```json".data).head? = some (Char.ofNat 96) from rfl] at hh
    exact absurd (Option.some.inj hh) (by decide)
  have h4 : ¬('\x7b' :: t).take 4 = "json".data := by
    intro hx
    have hh := congrArg List.head? hx
    rw [show (('\x7b' :: t).take 4).head? = some '\x7b' from rfl,
      show ("json".data).head? = some 'j' from rfl] at hh
    exact absurd (Option.some.inj hh) (by decide)
  have h3 : ¬('\x7b' :: t).take 3 = "```".data := by
    intro hx
    have hh := congrArg List.head? hx
    rw [show (('\x7b' :: t).take 3).head? = some '\x7b' from rfl,
      show ("```".data).head? = some (Char.ofNat 96) from rfl] at hh
    exact absurd (Option.some.inj hh) (by decide)
  rw [if_neg h7, if_neg h4, if_neg h3]

theorem reSub_SB (t : List Char) :
    reSubL ('\x7b' :: t) = '\x7b' :: reSubAux t.length t := by
  have hstep : reSubL ('\x7b' :: t) =
      match tryMatch ('\x7b' :: t) with
      | some r => reSubAux t.length r
      | none => '\x7b' :: reSubAux t.length t := rfl
  rw [hstep, tryMatch_lbrace]

theorem reSub_EB (n : Nat) :
    ∀ w, w.length ≤ n → ∃ w', reSubL (w ++ ['\x7d']) = w' ++ ['\x7d'] := by
  induction n with
  | zero =>
    intro w h0
    have hw : w = [] := List.length_eq_zero.mp (by omega)
    subst hw
    exact ⟨[], rfl⟩
  | succ m ih =>
    intro w hn
    cases w with
    | nil => exact ⟨[], rfl⟩
    | cons c cs =>
      simp only [List.length_cons] at hn
      have hstep : reSubL ((c :: cs) ++ ['\x7d']) =
          match tryMatch ((c :: cs) ++ ['\x7d']) with
          | some r => reSubAux (cs ++ ['\x7d']).length r
          | none => c :: reSubAux (cs ++ ['\x7d']).length (cs ++ ['\x7d']) := rfl
      cases htm : tryMatch ((c :: cs) ++ ['\x7d']) with
      | some r =>
        obtain ⟨w2, hw2⟩ := tryMatch_last (c :: cs) r htm
        have hlt := tryMatch_lt htm
        simp only [List.length_append, List.length_cons, List.length_nil] at hlt
        have hwlen : w2.length + 1 = r.length := by rw [hw2]; simp
        have hc1 : reSubAux (cs ++ ['\x7d']).length r = reSubL r :=
          reSubAux_congr r.length r (cs ++ ['\x7d']).length r.length le_rfl
            (by simp only [List.length_append, List.length_cons, List.length_nil]; omega)
            le_rfl
        obtain ⟨w3, hw3⟩ := ih w2 (by omega)
        refine ⟨w3, ?_⟩
        rw [hstep, htm]
        show reSubAux (cs ++ ['\x7d']).length r = w3 ++ ['\x7d']
        rw [hc1, hw2]
        exact hw3
      | none =>
        obtain ⟨w3, hw3⟩ := ih cs (by omega)
        refine ⟨c :: w3, ?_⟩
        rw [hstep, htm]
        show c :: reSubL (cs ++ ['\x7d']) = (c :: w3) ++ ['\x7d']
        rw [hw3]
        rfl

/-! ## `replace("```", "")` lemmas -/

theorem allws_tickfree {l : List Char} (h : l.all isPySpace = true) :
    l.all (fun c => !(c == Char.ofNat 96)) = true := by
  induction l with
  | nil => rfl
  | cons c cs ih =>
    rw [List.all_cons, Bool.and_eq_true] at h ⊢
    refine ⟨?_, ih h.2⟩
    by_cases hc : c = Char.ofNat 96
    · rw [hc] at h
      exact absurd h.1 (by decide)
    · simp [hc]

theorem take3_ne_ticks {c : Char} {l : List Char} (hc : (c == Char.ofNat 96) = false) :
    ¬(c :: l).take 3 = "```".data := by
  intro hx
  have hh := congrArg List.head? hx
  rw [show ((c :: l).take 3).head? = some c from rfl,
    show ("```".data).head? = some (Char.ofNat 96) from rfl] at hh
  rw [Option.some.inj hh] at hc
  exact absurd hc (by decide)

theorem rt_tickfree (n : Nat) :
    ∀ l, l.length ≤ n → l.all (fun c => !(c == Char.ofNat 96)) = true →
      replaceTicksL l = l := by
  induction n with
  | zero =>
    intro l h0 _
    have hl : l = [] := List.length_eq_zero.mp (by omega)
    subst hl
    rfl
  | succ m ih =>
    intro l hn hl
    cases l with
    | nil => rfl
    | cons c cs =>
      simp only [List.length_cons] at hn
      rw [List.all_cons, Bool.and_eq_true] at hl
      have hstep : replaceTicksL (c :: cs) =
          if (c :: cs).take 3 = "```".data then
            replaceTicksAux cs.length ((c :: cs).drop 3)
          else c :: replaceTicksAux cs.length cs := rfl
      rw [hstep, if_neg (take3_ne_ticks (by simp [Bool.not_eq_true'] at hl; simp [hl.1]))]
      show c :: replaceTicksL cs = c :: cs
      rw [ih cs (by omega) hl.2]

theorem rt_append_left (n : Nat) :
    ∀ x y, x.length ≤ n → x.all (fun c => !(c == Char.ofNat 96)) = true →
      replaceTicksL (x ++ y) = x ++ replaceTicksL y := by
  induction n with
  | zero =>
    intro x y h0 _
    have hx : x = [] := List.length_eq_zero.mp (by omega)
    subst hx
    rfl
  | succ m ih =>
    intro x y hn hx
    cases x with
    | nil => rfl
    | cons c cs =>
      simp only [List.length_cons] at hn
      rw [List.all_cons, Bool.and_eq_true] at hx
      have hstep : replaceTicksL ((c :: cs) ++ y) =
          if (c :: (cs ++ y)).take 3 = "```".data then
            replaceTicksAux (cs ++ y).length ((c :: (cs ++ y)).drop 3)
          else c :: replaceTicksAux (cs ++ y).length (cs ++ y) := rfl
      rw [hstep, if_neg (take3_ne_ticks (by simp [Bool.not_eq_true'] at hx; simp [hx.1]))]
      show c :: replaceTicksL (cs ++ y) = (c :: cs) ++ replaceTicksL y
      rw [ih cs y (by omega) hx.2]
      rfl

theorem ticks_all_tick : ∀ e ∈ "```".data, e = Char.ofNat 96 := by decide

theorem rt_append_right (n : Nat) :
    ∀ x y, x.length ≤ n → y.all (fun c => !(c == Char.ofNat 96)) = true →
      replaceTicksL (x ++ y) = replaceTicksL x ++ y := by
  induction n with
  | zero =>
    intro x y h0 hy
    have hx : x = [] := List.length_eq_zero.mp (by omega)
    subst hx
    show replaceTicksL y = replaceTicksL ([] : List Char) ++ y
    rw [rt_tickfree y.length y le_rfl hy]
    rfl
  | succ m ih =>
    intro x y hn hy
    cases x with
    | nil =>
      show replaceTicksL y = replaceTicksL ([] : List Char) ++ y
      rw [rt_tickfree y.length y le_rfl hy]
      rfl
    | cons c cs =>
      simp only [List.length_cons] at hn
      have hstep : replaceTicksL ((c :: cs) ++ y) =
          if (c :: (cs ++ y)).take 3 = "```".data then
            replaceTicksAux (cs ++ y).length ((c :: (cs ++ y)).drop 3)
          else c :: replaceTicksAux (cs ++ y).length (cs ++ y) := rfl
      have hstep2 : replaceTicksL (c :: cs) =
          if (c :: cs).take 3 = "```".data then
            replaceTicksAux cs.length ((c :: cs).drop 3)
          else c :: replaceTicksAux cs.length cs := rfl
      have hcond : ((c :: (cs ++ y)).take 3 = "```".data) ↔ ((c :: cs).take 3 = "```".data) := by
        by_cases hlen : 3 ≤ (c :: cs).length
        · have he : (c :: (cs ++ y)).take 3 = (c :: cs).take 3 := by
            show ((c :: cs) ++ y).take 3 = (c :: cs).take 3
            rw [List.take_append_eq_append_take, show 3 - (c :: cs).length = 0 from by omega,
              List.take_zero, List.append_nil]
          rw [he]
        · constructor
          · intro hcc
            exfalso
            cases y with
            | nil =>
              rw [show c :: (cs ++ ([] : List Char)) = c :: cs from by simp] at hcc
              have hl := congrArg List.length hcc
              rw [List.length_take, show ("```".data).length = 3 from rfl] at hl
              omega
            | cons d ys =>
              have hdmem : d ∈ (c :: (cs ++ d :: ys)).take 3 := by
                show d ∈ ((c :: cs) ++ d :: ys).take 3
                rw [List.take_append_eq_append_take]
                refine List.mem_append.mpr (Or.inr ?_)
                cases hm : 3 - (c :: cs).length with
                | zero => omega
                | succ k =>
                  rw [List.take_succ_cons]
                  exact List.mem_cons_self d _
              rw [hcc] at hdmem
              have hd96 := ticks_all_tick d hdmem
              rw [List.all_cons, Bool.and_eq_true] at hy
              rw [hd96] at hy
              exact absurd hy.1 (by decide)
          · intro hcc
            exfalso
            have hl := congrArg List.length hcc
            rw [List.length_take, show ("```".data).length = 3 from rfl] at hl
            simp only [List.length_cons] at hl hlen
            omega
      rw [hstep, hstep2]
      by_cases hc : (c :: cs).take 3 = "```".data
      · rw [if_pos (hcond.mpr hc), if_pos hc]
        have hlen : 3 ≤ (c :: cs).length := by
          have hl := congrArg List.length hc
          rw [List.length_take, show ("```".data).length = 3 from rfl] at hl
          omega
        have hdrop : (c :: (cs ++ y)).drop 3 = (c :: cs).drop 3 ++ y := by
          show ((c :: cs) ++ y).drop 3 = (c :: cs).drop 3 ++ y
          exact drop_append_le hlen
        rw [hdrop]
        have hc1 : replaceTicksAux (cs ++ y).length ((c :: cs).drop 3 ++ y) =
            replaceTicksL ((c :: cs).drop 3 ++ y) := by
          have hdl : ((c :: cs).drop 3).length = (c :: cs).length - 3 := List.length_drop _ _
          simp only [List.length_cons] at hdl hlen
          exact rtAux_congr ((c :: cs).drop 3 ++ y).length _ _ _ le_rfl le_rfl
            (by simp only [List.length_append, hdl]; omega)
        have hc2 : replaceTicksAux cs.length ((c :: cs).drop 3) =
            replaceTicksL ((c :: cs).drop 3) := by
          have hdl : ((c :: cs).drop 3).length = (c :: cs).length - 3 := List.length_drop _ _
          simp only [List.length_cons] at hdl hlen
          exact rtAux_congr ((c :: cs).drop 3).length _ _ _ le_rfl le_rfl (by omega)
        rw [hc1, hc2]
        have hdl : ((c :: cs).drop 3).length = (c :: cs).length - 3 := List.length_drop _ _
        simp only [List.length_cons] at hdl
        exact ih ((c :: cs).drop 3) y (by omega) hy
      · rw [if_neg (fun hcc => hc (hcond.mp hcc)), if_neg hc]
        show c :: replaceTicksL (cs ++ y) = (c :: replaceTicksL cs) ++ y
        rw [ih cs y (by omega) hy]
        rfl

theorem rt_EB (n : Nat) :
    ∀ w, w.length ≤ n → ∃ w', replaceTicksL (w ++ ['\x7d']) = w' ++ ['\x7d'] := by
  induction n with
  | zero =>
    intro w h0
    have hw : w = [] := List.length_eq_zero.mp (by omega)
    subst hw
    exact ⟨[], rfl⟩
  | succ m ih =>
    intro w hn
    cases w with
    | nil => exact ⟨[], rfl⟩
    | cons c cs =>
      simp only [List.length_cons] at hn
      have hstep : replaceTicksL ((c :: cs) ++ ['\x7d']) =
          if (c :: (cs ++ ['\x7d'])).take 3 = "```".data then
            replaceTicksAux (cs ++ ['\x7d']).length ((c :: (cs ++ ['\x7d'])).drop 3)
          else c :: replaceTicksAux (cs ++ ['\x7d']).length (cs ++ ['\x7d']) := rfl
      by_cases hc : (c :: (cs ++ ['\x7d'])).take 3 = "```".data
      · have hlt : 3 < (c :: cs ++ ['\x7d']).length := by
          have := take_pat_lt "```".data
            (show ((c :: cs) ++ ['\x7d']).take ("```".data).length = "```".data from hc)
            (show '\x7d' ∈ (c :: cs) ++ ['\x7d'] from by simp) (by decide)
          simpa using this
        simp only [List.length_cons, List.length_append, List.length_nil] at hlt
        have hdrop : (c :: (cs ++ ['\x7d'])).drop 3 = (c :: cs).drop 3 ++ ['\x7d'] := by
          show ((c :: cs) ++ ['\x7d']).drop 3 = (c :: cs).drop 3 ++ ['\x7d']
          exact drop_append_le (by simp; omega)
        have hdl : ((c :: cs).drop 3).length = (c :: cs).length - 3 := List.length_drop _ _
        simp only [List.length_cons] at hdl
        have hc1 : replaceTicksAux (cs ++ ['\x7d']).length ((c :: cs).drop 3 ++ ['\x7d']) =
            replaceTicksL ((c :: cs).drop 3 ++ ['\x7d']) :=
          rtAux_congr ((c :: cs).drop 3 ++ ['\x7d']).length _ _ _ le_rfl le_rfl
            (by simp only [List.length_append, List.length_cons, List.length_nil, hdl]; omega)
        obtain ⟨w3, hw3⟩ := ih ((c :: cs).drop 3) (by omega)
        refine ⟨w3, ?_⟩
        rw [hstep, if_pos hc, hdrop, hc1]
        exact hw3
      · obtain ⟨w3, hw3⟩ := ih cs (by omega)
        refine ⟨c :: w3, ?_⟩
        rw [hstep, if_neg hc]
        show c :: replaceTicksL (cs ++ ['\x7d']) = (c :: w3) ++ ['\x7d']
        rw [hw3]
        rfl

theorem rt_SB (t : List Char) :
    replaceTicksL ('\x7b' :: t) = '\x7b' :: replaceTicksAux t.length t := by
  have hstep : replaceTicksL ('\x7b' :: t) =
      if ('\x7b' :: t).take 3 = "```".data then
        replaceTicksAux t.length (('\x7b' :: t).drop 3)
      else '\x7b' :: replaceTicksAux t.length t := rfl
  rw [hstep, if_neg (take3_ne_ticks (by decide))]

/-! ## `strip()` around the braced object, and wrapper right-stripping -/

theorem all_reverse' {p : Char → Bool} {l : List Char} (h : l.all p = true) :
    l.reverse.all p = true := by
  rw [List.all_eq_true] at h ⊢
  intro x hx
  exact h x (List.mem_reverse.mp hx)

theorem strip_id {mid : List Char} (t w : List Char)
    (hsb : mid = '\x7b' :: t) (heb : mid = w ++ ['\x7d']) :
    pyStripL mid = mid := by
  unfold pyStripL
  have h1 : mid.dropWhile isPySpace = mid := by
    rw [hsb]
    exact dropWhile_headFails rfl
  rw [h1]
  have h2 : mid.reverse.dropWhile isPySpace = mid.reverse := by
    rw [heb, List.reverse_append, show (['\x7d'] : List Char).reverse = ['\x7d'] from rfl,
      List.singleton_append]
    exact dropWhile_headFails rfl
  rw [h2, List.reverse_reverse]

theorem strip_pad {A B mid : List Char} (t w : List Char) (hA : A.all isPySpace = true)
    (hB : B.all isPySpace = true) (hsb : mid = '\x7b' :: t) (heb : mid = w ++ ['\x7d']) :
    pyStripL (A ++ (mid ++ B)) = mid := by
  unfold pyStripL
  have h1 : (A ++ (mid ++ B)).dropWhile isPySpace = mid ++ B :=
    dropWhile_app hA (by rw [hsb]; rfl)
  rw [h1]
  have h2 : (mid ++ B).reverse.dropWhile isPySpace = mid.reverse := by
    rw [List.reverse_append]
    exact dropWhile_app (all_reverse' hB)
      (by rw [heb, List.reverse_append, show (['\x7d'] : List Char).reverse = ['\x7d'] from rfl,
        List.singleton_append]; rfl)
  rw [h2, List.reverse_reverse]

theorem strip_wrap {P Q mid : List Char} (t w : List Char)
    (hsb : mid = '\x7b' :: t) (heb : mid = w ++ ['\x7d']) :
    pyStripL (P ++ (mid ++ Q)) =
      P.dropWhile isPySpace ++ (mid ++ (Q.reverse.dropWhile isPySpace).reverse) := by
  unfold pyStripL
  have h1 : (P ++ (mid ++ Q)).dropWhile isPySpace =
      P.dropWhile isPySpace ++ (mid ++ Q) :=
    dropWhile_append_hf _ _ (by rw [hsb]; rfl)
  rw [h1]
  have h2 : (P.dropWhile isPySpace ++ (mid ++ Q)).reverse =
      Q.reverse ++ (mid.reverse ++ (P.dropWhile isPySpace).reverse) := by
    simp [List.reverse_append, List.append_assoc]
  rw [h2]
  have h3 : (Q.reverse ++ (mid.reverse ++ (P.dropWhile isPySpace).reverse)).dropWhile
      isPySpace =
      Q.reverse.dropWhile isPySpace ++ (mid.reverse ++ (P.dropWhile isPySpace).reverse) :=
    dropWhile_append_hf _ _ (by
      rw [heb, List.reverse_append, show (['\x7d'] : List Char).reverse = ['\x7d'] from rfl,
        List.singleton_append]
      rfl)
  rw [h3]
  simp [List.reverse_append, List.reverse_reverse, List.append_assoc]

/-- `FenceWrap` text with an all-whitespace suffix removed is still
`FenceWrap` text. -/
theorem fw_ws_suffix {P : List Char} (hP : FenceWrap P) :
    ∀ A B, P = A ++ B → B.all isPySpace = true → FenceWrap A := by
  induction hP with
  | nil =>
    intro A B hAB _
    have hA : A = [] := (List.append_eq_nil.mp hAB.symm).1
    subst hA
    exact FenceWrap.nil
  | ws c l hc hfw ih =>
    intro A B hAB hB
    cases A with
    | nil => exact FenceWrap.nil
    | cons a A' =>
      rw [List.cons_append] at hAB
      injection hAB with h1 h2
      rw [← h1]
      exact FenceWrap.ws c A' hc (ih A' B h2 hB)
  | fence l hfw ih =>
    intro A B hAB hB
    cases A with
    | nil => exact FenceWrap.nil
    | cons a1 A1 =>
      have hAB1 : (Char.ofNat 96) :: ("``".data ++ l) = a1 :: (A1 ++ B) := hAB
      injection hAB1 with h1 h2
      cases A1 with
      | nil =>
        exfalso
        rw [List.nil_append] at h2
        rw [← h2] at hB
        rw [show ("``".data ++ l).all isPySpace =
          (isPySpace (Char.ofNat 96) && ("`".data ++ l).all isPySpace) from rfl,
          Bool.and_eq_true] at hB
        exact absurd hB.1 (by decide)
      | cons a2 A2 =>
        have h2' : (Char.ofNat 96) :: ("`".data ++ l) = a2 :: (A2 ++ B) := h2
        injection h2' with h3 h4
        cases A2 with
        | nil =>
          exfalso
          rw [List.nil_append] at h4
          rw [← h4] at hB
          rw [show ("`".data ++ l).all isPySpace =
            (isPySpace (Char.ofNat 96) && l.all isPySpace) from rfl,
            Bool.and_eq_true] at hB
          exact absurd hB.1 (by decide)
        | cons a3 A3 =>
          have h4' : (Char.ofNat 96) :: l = a3 :: (A3 ++ B) := h4
          injection h4' with h5 h6
          rw [← h1, ← h3, ← h5]
          exact FenceWrap.fence A3 (ih A3 B h6 hB)
  | jsonTag l hfw ih =>
    intro A B hAB hB
    cases A with
    | nil => exact FenceWrap.nil
    | cons a1 A1 =>
      have hAB1 : 'j' :: ("son".data ++ l) = a1 :: (A1 ++ B) := hAB
      injection hAB1 with h1 h2
      cases A1 with
      | nil =>
        exfalso
        rw [List.nil_append] at h2
        rw [← h2] at hB
        rw [show ("son".data ++ l).all isPySpace =
          (isPySpace 's' && ("on".data ++ l).all isPySpace) from rfl,
          Bool.and_eq_true] at hB
        exact absurd hB.1 (by decide)
      | cons a2 A2 =>
        have h2' : 's' :: ("on".data ++ l) = a2 :: (A2 ++ B) := h2
        injection h2' with h3 h4
        cases A2 with
        | nil =>
          exfalso
          rw [List.nil_append] at h4
          rw [← h4] at hB
          rw [show ("on".data ++ l).all isPySpace =
            (isPySpace 'o' && ("n".data ++ l).all isPySpace) from rfl,
            Bool.and_eq_true] at hB
          exact absurd hB.1 (by decide)
        | cons a3 A3 =>
          have h4' : 'o' :: ("n".data ++ l) = a3 :: (A3 ++ B) := h4
          injection h4' with h5 h6
          cases A3 with
          | nil =>
            exfalso
            rw [List.nil_append] at h6
            rw [← h6] at hB
            rw [show ("n".data ++ l).all isPySpace =
              (isPySpace 'n' && l.all isPySpace) from rfl,
              Bool.and_eq_true] at hB
            exact absurd hB.1 (by decide)
          | cons a4 A4 =>
            have h6' : 'n' :: l = a4 :: (A4 ++ B) := h6
            injection h6' with h7 h8
            rw [← h1, ← h3, ← h5, ← h7]
            exact FenceWrap.jsonTag A4 (ih A4 B h8 hB)

theorem fw_rstrip {Q : List Char} (hQ : FenceWrap Q) :
    FenceWrap ((Q.reverse.dropWhile isPySpace).reverse) := by
  have h0 : Q.reverse = Q.reverse.takeWhile isPySpace ++ Q.reverse.dropWhile isPySpace :=
    (List.takeWhile_append_dropWhile (p := isPySpace) (l := Q.reverse)).symm
  have heq : Q = (Q.reverse.dropWhile isPySpace).reverse ++
      (Q.reverse.takeWhile isPySpace).reverse := by
    calc Q = Q.reverse.reverse := (List.reverse_reverse Q).symm
    _ = (Q.reverse.takeWhile isPySpace ++ Q.reverse.dropWhile isPySpace).reverse :=
      congrArg List.reverse h0
    _ = (Q.reverse.dropWhile isPySpace).reverse ++
        (Q.reverse.takeWhile isPySpace).reverse := List.reverse_append _ _
  exact fw_ws_suffix hQ _ _ heq (all_reverse' (all_takeWhile _ _))

/-- `_extract_clean_json` strips any `FenceWrap` wrapper around a braced
object text without touching the object text's own cleanup. -/
theorem clean_wrap (P Q : List Char) (s : String) (t w : List Char)
    (hP : FenceWrap P) (hQ : FenceWrap Q)
    (hsb : s.data = '\x7b' :: t) (heb : s.data = w ++ ['\x7d']) :
    extractCleanJson ⟨P ++ (s.data ++ Q)⟩ = extractCleanJson s := by
  have hPd := fw_dropWhile hP
  have hQd := fw_rstrip hQ
  have h1 : pyStripL (P ++ (s.data ++ Q)) =
      P.dropWhile isPySpace ++ (s.data ++ (Q.reverse.dropWhile isPySpace).reverse) :=
    strip_wrap t w hsb heb
  have hmid1 : s.data ++ (Q.reverse.dropWhile isPySpace).reverse =
      '\x7b' :: (t ++ (Q.reverse.dropWhile isPySpace).reverse) := by
    rw [hsb]
    rfl
  have h2a : reSubL (P.dropWhile isPySpace ++
      ('\x7b' :: (t ++ (Q.reverse.dropWhile isPySpace).reverse))) =
      reSubL (P.dropWhile isPySpace) ++
        reSubL ('\x7b' :: (t ++ (Q.reverse.dropWhile isPySpace).reverse)) :=
    reSub_split_SB (P.dropWhile isPySpace).length (P.dropWhile isPySpace) _ le_rfl
  have hmid2 : ('\x7b' :: (t ++ (Q.reverse.dropWhile isPySpace).reverse) : List Char) =
      (w ++ ['\x7d']) ++ (Q.reverse.dropWhile isPySpace).reverse := by
    rw [← List.cons_append, ← hsb, heb]
  have h2b : reSubL ((w ++ ['\x7d']) ++ (Q.reverse.dropWhile isPySpace).reverse) =
      reSubL (w ++ ['\x7d']) ++ reSubL ((Q.reverse.dropWhile isPySpace).reverse) :=
    reSub_split_EB w.length w _ le_rfl
  have hresP : (reSubL (P.dropWhile isPySpace)).all isPySpace = true :=
    reSub_fw_allws (P.dropWhile isPySpace).length _ le_rfl hPd _ le_rfl
  have hresQ : (reSubL ((Q.reverse.dropWhile isPySpace).reverse)).all isPySpace = true :=
    reSub_fw_allws ((Q.reverse.dropWhile isPySpace).reverse).length _ le_rfl hQd _ le_rfl
  have hcoreSB : ∃ t2, reSubL (w ++ ['\x7d']) = '\x7b' :: t2 := by
    rw [← heb, hsb]
    exact ⟨reSubAux t.length t, reSub_SB t⟩
  obtain ⟨t2, hcoreSB⟩ := hcoreSB
  obtain ⟨w2, hcoreEB⟩ := reSub_EB w.length w le_rfl
  have h5a : replaceTicksL (reSubL (P.dropWhile isPySpace) ++
      (reSubL (w ++ ['\x7d']) ++ reSubL ((Q.reverse.dropWhile isPySpace).reverse))) =
      reSubL (P.dropWhile isPySpace) ++
        replaceTicksL (reSubL (w ++ ['\x7d']) ++
          reSubL ((Q.reverse.dropWhile isPySpace).reverse)) :=
    rt_append_left _ _ _ le_rfl (allws_tickfree hresP)
  have h5b : replaceTicksL (reSubL (w ++ ['\x7d']) ++
      reSubL ((Q.reverse.dropWhile isPySpace).reverse)) =
      replaceTicksL (reSubL (w ++ ['\x7d'])) ++
        reSubL ((Q.reverse.dropWhile isPySpace).reverse) :=
    rt_append_right _ _ _ le_rfl (allws_tickfree hresQ)
  have hrtSB : ∃ t3, replaceTicksL (reSubL (w ++ ['\x7d'])) = '\x7b' :: t3 := by
    rw [hcoreSB]
    exact ⟨_, rt_SB t2⟩
  obtain ⟨t3, hrtSB⟩ := hrtSB
  have hrtEB : ∃ w3, replaceTicksL (reSubL (w ++ ['\x7d'])) = w3 ++ ['\x7d'] := by
    rw [hcoreEB]
    exact rt_EB w2.length w2 le_rfl
  obtain ⟨w3, hrtEB⟩ := hrtEB
  have hfinal : pyStripL (reSubL (P.dropWhile isPySpace) ++
      (replaceTicksL (reSubL (w ++ ['\x7d'])) ++
        reSubL ((Q.reverse.dropWhile isPySpace).reverse))) =
      replaceTicksL (reSubL (w ++ ['\x7d'])) :=
    strip_pad t3 w3 hresP hresQ hrtSB hrtEB
  have hs : extractCleanJson s = ⟨replaceTicksL (reSubL (w ++ ['\x7d']))⟩ := by
    have hs1 : extractCleanJson s =
        ⟨pyStripL (replaceTicksL (reSubL (pyStripL s.data)))⟩ := rfl
    rw [hs1, strip_id t w hsb heb, heb, strip_id t3 w3 hrtSB hrtEB]
  have hwrap : extractCleanJson ⟨P ++ (s.data ++ Q)⟩ =
      ⟨pyStripL (replaceTicksL (reSubL (pyStripL (P ++ (s.data ++ Q)))))⟩ := rfl
  rw [hwrap, h1, hmid1, h2a, hmid2, h2b, h5a, h5b, hfinal, hs]

/-- C6: wrapping a braced action-object text in any combination of
code-fence markers, `json` tags and whitespace leaves the Action
returned by `parse` unchanged, provided the object text itself decodes
to a JSON object. -/
theorem claim6_fence_invariance (P Q : List Char) (s : String) (t w : List Char)
    (kvs : List (String × Json)) (hP : FenceWrap P) (hQ : FenceWrap Q)
    (hsb : s.data = '\x7b' :: t) (heb : s.data = w ++ ['\x7d'])
    (hdec : jsonLoads (extractCleanJson s) = some (.obj kvs)) :
    actionView (parse ⟨P ++ (s.data ++ Q)⟩) = actionView (parse s) := by
  have hclean := clean_wrap P Q s t w hP hQ hsb heb
  simp only [parse, hclean, hdec]
  by_cases hfin : isFinalMarker (objGet kvs "action") = true
  · simp only [hfin, eq_self_iff_true, if_true]
    rfl
  · rw [Bool.not_eq_true] at hfin
    simp only [hfin, Bool.false_eq_true, if_false]
    rfl

theorem claim6_witness :
    actionView (parse ⟨"```json\n".data ++
      (("\x7b\"action\": \"Final Answer\", \"action_input\": \"done\"\x7d" : String).data ++
        "\n```".data)⟩) =
      actionView (parse "\x7b\"action\": \"Final Answer\", \"action_input\": \"done\"\x7d") ∧
    actionView (parse "\x7b\"action\": \"Final Answer\", \"action_input\": \"done\"\x7d") =
      some (.finalAnswer "done") := by
  refine ⟨claim6_fence_invariance "```json\n".data "\n```".data
    "\x7b\"action\": \"Final Answer\", \"action_input\": \"done\"\x7d"
    ("\"action\": \"Final Answer\", \"action_input\": \"done\"\x7d" : String).data
    ("\x7b\"action\": \"Final Answer\", \"action_input\": \"done\"" : String).data
    [("action", .str "Final Answer"), ("action_input", .str "done")]
    (show FenceWrap ("```json\n".data) from
      FenceWrap.fence _ (FenceWrap.jsonTag _ (FenceWrap.ws '\n' [] (by decide) FenceWrap.nil)))
    (show FenceWrap ("\n```".data) from
      FenceWrap.ws '\n' _ (by decide) (FenceWrap.fence [] FenceWrap.nil))
    (by rfl) (by rfl) (by rfl), by rfl⟩
